import Mathlib

/-!
# Initial partitioner base engine (`InitialPartitionerBase.h`)

A shallow embedding of the shared machinery of the initial-partitioning engine:
the balance calculator, the assignment controller, the incremental cut tracker,
the rollback manager and the partition extractor, together with the properties
proved about them.

Conventions of the embedding

* `HypernodeID` and `HyperedgeID` are unsigned 32-bit in the source; they are
  `Nat` here, and the arithmetic the engine performs on them (`+ 1`, `++`,
  `--`, conversions from `size_t`) is reduced modulo `2^32` explicitly
  (`wrap32`).
* `PartitionID`, `HypernodeWeight` and `HyperedgeWeight` are signed integers in
  the source; they are `Int` here.  Signed overflow is undefined behaviour in
  the source, so the embedding describes the executions without it.  The cut
  tracker is given a second time with the running cut reduced to 32 bits
  (`cutAfterEdge32`), to tell when the two agree.
* `double` values are the rationals they denote, every operation rounding its
  exact result to the nearest binary64 value (`Double.round`).
* The hypergraph container, the configuration object, the metrics module and
  the statistics sink live outside `InitialPartitionerBase.h`; the parts of
  them the engine uses are modelled from the specification and marked so.
-/

namespace Kahypar

/-- The value of `std::numeric_limits<HypernodeID>::max()` (unsigned 32-bit). -/
def maxHypernodeID : Nat := 4294967295

/-- The value of `std::numeric_limits<HyperedgeWeight>::max()` (signed 32-bit). -/
def maxHyperedgeWeight : Int := 2147483647

/-- Reduction of an unsigned 32-bit intermediate result. -/
def wrap32 (n : Nat) : Nat := n % 4294967296

/-- The value a signed 32-bit variable holds after an update whose exact result is `x`, as
two's complement arithmetic computes it. -/
def wrapInt32 (x : Int) : Int := (x + 2147483648) % 4294967296 - 2147483648

/-! The arithmetic of the C++ type `double` (IEEE 754 binary64, rounding to nearest, ties to
even).  A finite value is the rational number it denotes; `none` stands for a result that is
not a finite number (an infinity or a NaN).  The sign of zero is not kept. -/
namespace Double

end Double

/-- Modelled from the spec: the hypergraph container (`defs::Hypergraph`, declared in
`lib/definitions.h`) is not part of the engine's file.  The state the spec lists for it:
per-node weight and current part id (`-1` = unassigned), per-part aggregate weight,
per-edge pins and weight, per-edge pin count per part and per-edge connectivity. -/
@[ext]
structure Hypergraph where
  numNodes : Nat
  nodeWeight : Nat → Int
  edgePins : List (List Nat)
  edgeWeight : Nat → Int
  partID : Nat → Int
  partWeight : Int → Int
  pinCountInPart : Nat → Int → Nat
  connectivity : Nat → Nat

namespace Hypergraph

/-- Modelled from the spec: the node enumeration of the hypergraph view, in ascending id order. -/
def nodes (hg : Hypergraph) : List Nat := List.range hg.numNodes

/-- Modelled from the spec: the hyperedge enumeration of the hypergraph view, in ascending id
order. -/
def edges (hg : Hypergraph) : List Nat := List.range hg.edgePins.length

/-- Modelled from the spec: the pins of a hyperedge, in storage order. -/
def pins (hg : Hypergraph) (he : Nat) : List Nat := hg.edgePins.getD he []

/-- Modelled from the spec: the number of pins of a hyperedge. -/
def edgeSize (hg : Hypergraph) (he : Nat) : Nat := (hg.pins he).length

/-- Modelled from the spec: the hyperedges a node is a pin of, in ascending id order. -/
def incidentEdges (hg : Hypergraph) (hn : Nat) : List Nat :=
  hg.edges.filter (fun he => decide (hn ∈ hg.pins he))

/-- Modelled from the spec: the mutation primitive of the hypergraph view, "reassign a node's
part".  It moves `hn` from `from_part` to `to_part` and keeps the aggregates in step: the weight
of `hn` leaves `from_part` and enters `to_part`, and on every incident hyperedge the pin count of
`from_part` is decreased (the connectivity drops when it reaches zero) and the pin count of
`to_part` is increased (the connectivity grows when it becomes one).  The unassigned marker `-1`
carries no weight and no pin count. -/
def changeNodePart (hg : Hypergraph) (hn : Nat) (from_part to_part : Int) :
    Hypergraph :=
  { hg with
    partID := Function.update hg.partID hn to_part
    partWeight := fun p =>
      let w1 := if p = from_part ∧ from_part ≠ -1 then hg.partWeight p - hg.nodeWeight hn
                else hg.partWeight p
      if p = to_part ∧ to_part ≠ -1 then w1 + hg.nodeWeight hn else w1
    pinCountInPart := fun he p =>
      if hn ∈ hg.pins he then
        let c1 := if p = from_part ∧ from_part ≠ -1 then hg.pinCountInPart he p - 1
                  else hg.pinCountInPart he p
        if p = to_part ∧ to_part ≠ -1 then c1 + 1 else c1
      else hg.pinCountInPart he p
    connectivity := fun he =>
      if hn ∈ hg.pins he then
        let k1 := if from_part ≠ -1 ∧ hg.pinCountInPart he from_part - 1 = 0
                  then hg.connectivity he - 1 else hg.connectivity he
        let c1 := if to_part = from_part ∧ from_part ≠ -1 then hg.pinCountInPart he to_part - 1
                  else hg.pinCountInPart he to_part
        if to_part ≠ -1 ∧ c1 + 1 = 1 then k1 + 1 else k1
      else hg.connectivity he }

/-- Modelled from the spec: the mutation primitive applied to an unassigned node. -/
def setNodePart (hg : Hypergraph) (hn : Nat) (id : Int) : Hypergraph :=
  hg.changeNodePart hn (-1) id

end Hypergraph

/-- Modelled from the spec: `metrics::hyperedgeCut` (declared in `partition/Metrics.h`), the cut
recomputed from scratch: the sum of the weights of the hyperedges with connectivity at least 2. -/
def hyperedgeCut (hg : Hypergraph) : Int :=
  (hg.edges.map (fun he => if 2 ≤ hg.connectivity he then hg.edgeWeight he else 0)).sum

/-- Modelled from the spec: the fields of the configuration object (`partition/Configuration.h`)
that the engine reads or writes.  The two bound arrays are indexed by the part; `epsilon` is a
finite `double`, given by the rational number it denotes. -/
structure Configuration where
  k : Int
  upper_allowed_partition_weight : Int → Int
  rollback : Bool
  total_graph_weight : Int
  lower_allowed_partition_weight : Int → Int := fun _ => 0
  epsilon : ℚ := 0

/-- A record of the rollback history: node `hn` went from part `from` to part `to` (the field
names carry the suffix `_part` here). -/
structure node_assignment where
  hn : Nat
  from_part : Int
  to_part : Int
deriving DecidableEq, Repr

/-- The state of the engine: the hypergraph and configuration it refers to, its members, and
the entry of the statistics sink it accumulates into (`Cut increase during rollback`).  The
history is a stack whose top is the head of the list. -/
structure InitialPartitionerBase where
  _hg : Hypergraph
  _config : Configuration
  total_hypergraph_weight : Int
  heaviest_node : Int
  best_cut_node : Nat
  best_cut : Int
  current_cut : Int
  bisection_assignment_history : List node_assignment
  stat_cut_increase_during_rollback : Int

namespace InitialPartitionerBase

/-- The constructor: sums the node weights, finds the heaviest node, stores the total into the
configuration; the members start at their in-class initialisers. -/
def create (hypergraph : Hypergraph) (config : Configuration) (stat : Int) :
    InitialPartitionerBase :=
  let total := hypergraph.nodes.foldl (fun acc hn => acc + hypergraph.nodeWeight hn) 0
  let heaviest := hypergraph.nodes.foldl
    (fun acc hn => if hypergraph.nodeWeight hn > acc then hypergraph.nodeWeight hn else acc) 0
  { _hg := hypergraph
    _config := { config with total_graph_weight := total }
    total_hypergraph_weight := total
    heaviest_node := heaviest
    best_cut_node := maxHypernodeID
    best_cut := maxHyperedgeWeight
    current_cut := 0
    bisection_assignment_history := []
    stat_cut_increase_during_rollback := stat }

/-- One iteration of the loop over the incident hyperedges in
`calculateBisectionCutAfterAssignment`: the new value of `current_cut`. -/
def cutAfterEdge (hg : Hypergraph) (from_part to_part : Int)
    (current_cut : Int) (he : Nat) : Int :=
  let pins_in_source_part_before : Nat :=
    if from_part ≠ -1 then wrap32 (hg.pinCountInPart he from_part + 1) else 0
  let pins_in_target_part_after : Nat := hg.pinCountInPart he to_part
  let cb0 : Nat := hg.connectivity he
  let cb1 : Nat := if pins_in_source_part_before = 1 then wrap32 (cb0 + 1) else cb0
  let connectivity_before : Nat :=
    if pins_in_target_part_after = 1 then wrap32 (cb1 + 4294967295) else cb1
  let cut1 : Int :=
    if hg.connectivity he = 1 ∧ connectivity_before = 2 then current_cut - hg.edgeWeight he
    else current_cut
  if hg.connectivity he = 2 ∧ connectivity_before = 1 then cut1 + hg.edgeWeight he else cut1

/-- The feasibility loop of `calculateBisectionCutAfterAssignment`: every part `0..k-1` is
within its upper bound. -/
def isFeasibleSolution (hg : Hypergraph) (config : Configuration) : Bool :=
  (List.range config.k.toNat).all
    (fun p => decide (hg.partWeight (p : Int) ≤ config.upper_allowed_partition_weight (p : Int)))

/-- The incremental cut tracker, run after the hypergraph has been updated for the move of
`hn` from `from_part` to `to_part`: it folds `cutAfterEdge` over the incident hyperedges, and if
the state is feasible it lowers the best-cut marker on a strictly smaller cut and pushes the
record of the move. -/
def calculateBisectionCutAfterAssignment (s : InitialPartitionerBase) (hn : Nat)
    (from_part to_part : Int) : InitialPartitionerBase :=
  let cut := (s._hg.incidentEdges hn).foldl (cutAfterEdge s._hg from_part to_part) s.current_cut
  if isFeasibleSolution s._hg s._config then
    { s with
      current_cut := cut
      best_cut := if cut < s.best_cut then cut else s.best_cut
      best_cut_node := if cut < s.best_cut then hn else s.best_cut_node
      bisection_assignment_history :=
        { hn := hn, from_part := from_part, to_part := to_part } ::
          s.bisection_assignment_history }
  else
    { s with current_cut := cut }

/-- The assignment controller: the returned flag and the state after the call.  The weight and
the part of `hn` are read before `hn` is compared with `numNodes`, through the total accessors
of the model.  The closing `ASSERT` (the node is in the target part) is a debug check without
effect on the state. -/
def assignHypernodeToPartition (s : InitialPartitionerBase) (hn : Nat)
    (target_part : Int) : Bool × InitialPartitionerBase :=
  let assign_partition_weight := s._hg.partWeight target_part + s._hg.nodeWeight hn
  let source_part := s._hg.partID hn
  if assign_partition_weight ≤ s._config.upper_allowed_partition_weight target_part
      ∧ hn < s._hg.numNodes then
    if s._hg.partID hn = -1 then
      (true, calculateBisectionCutAfterAssignment
        { s with _hg := s._hg.setNodePart hn target_part } hn source_part target_part)
    else if s._hg.partID hn ≠ target_part then
      (true, calculateBisectionCutAfterAssignment
        { s with _hg := s._hg.changeNodePart hn (s._hg.partID hn) target_part }
        hn source_part target_part)
    else
      (false, s)
  else
    (false, s)

/-- The loop body `cutAfterEdge` with `current_cut` held in the signed 32-bit type
`HyperedgeWeight`: the results of `-=` and `+=` are reduced to the range of the type. -/
def cutAfterEdge32 (hg : Hypergraph) (from_part to_part : Int)
    (current_cut : Int) (he : Nat) : Int :=
  let pins_in_source_part_before : Nat :=
    if from_part ≠ -1 then wrap32 (hg.pinCountInPart he from_part + 1) else 0
  let pins_in_target_part_after : Nat := hg.pinCountInPart he to_part
  let cb0 : Nat := hg.connectivity he
  let cb1 : Nat := if pins_in_source_part_before = 1 then wrap32 (cb0 + 1) else cb0
  let connectivity_before : Nat :=
    if pins_in_target_part_after = 1 then wrap32 (cb1 + 4294967295) else cb1
  let cut1 : Int :=
    if hg.connectivity he = 1 ∧ connectivity_before = 2
      then wrapInt32 (current_cut - hg.edgeWeight he)
    else current_cut
  if hg.connectivity he = 2 ∧ connectivity_before = 1
    then wrapInt32 (cut1 + hg.edgeWeight he) else cut1

/-- The incremental cut tracker `calculateBisectionCutAfterAssignment` with the running cut in
32-bit arithmetic (`cutAfterEdge32`); everything else is as in the tracker above. -/
def calculateBisectionCutAfterAssignment32 (s : InitialPartitionerBase) (hn : Nat)
    (from_part to_part : Int) : InitialPartitionerBase :=
  let cut :=
    (s._hg.incidentEdges hn).foldl (cutAfterEdge32 s._hg from_part to_part) s.current_cut
  if isFeasibleSolution s._hg s._config then
    { s with
      current_cut := cut
      best_cut := if cut < s.best_cut then cut else s.best_cut
      best_cut_node := if cut < s.best_cut then hn else s.best_cut_node
      bisection_assignment_history :=
        { hn := hn, from_part := from_part, to_part := to_part } ::
          s.bisection_assignment_history }
  else
    { s with current_cut := cut }

/-- The assignment controller `assignHypernodeToPartition` over the tracker with the running
cut in 32-bit arithmetic. -/
def assignHypernodeToPartition32 (s : InitialPartitionerBase) (hn : Nat)
    (target_part : Int) : Bool × InitialPartitionerBase :=
  let assign_partition_weight := s._hg.partWeight target_part + s._hg.nodeWeight hn
  let source_part := s._hg.partID hn
  if assign_partition_weight ≤ s._config.upper_allowed_partition_weight target_part
      ∧ hn < s._hg.numNodes then
    if s._hg.partID hn = -1 then
      (true, calculateBisectionCutAfterAssignment32
        { s with _hg := s._hg.setNodePart hn target_part } hn source_part target_part)
    else if s._hg.partID hn ≠ target_part then
      (true, calculateBisectionCutAfterAssignment32
        { s with _hg := s._hg.changeNodePart hn (s._hg.partID hn) target_part }
        hn source_part target_part)
    else
      (false, s)
  else
    (false, s)

/-- The `while` loop of `rollbackToBestBisectionCut`, on the hypergraph, the cursor
(`current_node`, `from`, `to`) and the history stack. -/
def rollbackLoop (best_cut_node : Nat) :
    Hypergraph → Nat → Int → Int → List node_assignment →
      Hypergraph × List node_assignment
  | hg, _, _, _, [] => (hg, [])
  | hg, current_node, from_part, to_part, assignment :: rest =>
    if current_node ≠ best_cut_node then
      rollbackLoop best_cut_node
        (if current_node ≠ maxHypernodeID then hg.changeNodePart current_node to_part from_part
         else hg)
        assignment.hn assignment.from_part assignment.to_part rest
    else
      (hg, assignment :: rest)

/-- The rollback manager.  The cursor parts `from` and `to` are uninitialised in the source
until the first record is popped and are not read before that; they start at `0` here.  The
closing `ASSERT` (the recomputed cut equals `best_cut`) is a debug check without effect on the
state. -/
def rollbackToBestBisectionCut (s : InitialPartitionerBase) : InitialPartitionerBase :=
  if s._config.rollback then
    if ¬ s.bisection_assignment_history.isEmpty then
      let cut_before := hyperedgeCut s._hg
      let r := rollbackLoop s.best_cut_node s._hg maxHypernodeID 0 0
        s.bisection_assignment_history
      { s with
        _hg := r.1
        bisection_assignment_history := r.2
        stat_cut_increase_during_rollback :=
          s.stat_cut_increase_during_rollback + (cut_before - s.best_cut) }
    else s
  else s

/-- The outputs of `extractPartitionAsHypergraph`: the two counters and the five vectors it
receives by reference, and the local list `hyperedgeMapper` of the emitted source hyperedges
that its closing assertions read. -/
structure ExtractedPartition where
  num_hypernodes : Nat
  num_hyperedges : Nat
  index_vector : List Nat
  edge_vector : List Nat
  hyperedge_weights : List Int
  hypernode_weights : List Int
  hgToExtractedPartitionMapping : List Nat
  hyperedgeMapper : List Nat

/-- The state of the node scan of `extractPartitionAsHypergraph`: the local map
`hypernodeMapper` (an association list, first entry of a key wins, as `insert` does not
overwrite) and the two vectors the scan appends to. -/
structure NodeScan where
  hypernodeMapper : List (Nat × Nat)
  hgToExtractedPartitionMapping : List Nat
  hypernode_weights : List Int

/-- The state of the hyperedge scan of `extractPartitionAsHypergraph`. -/
structure EdgeScan where
  edge_vector : List Nat
  index_vector : List Nat
  hyperedgeMapper : List Nat
  hyperedge_weights : List Int

/-- The expression `hypernodeMapper[hn]`: the stored new id, and `0` (the value `operator[]`
default-inserts) for a key that is absent. -/
def mapperAt (hypernodeMapper : List (Nat × Nat)) (hn : Nat) :
    Nat :=
  (hypernodeMapper.lookup hn).getD 0

/-- One iteration of the node scan. -/
def extractNodeStep (hyper : Hypergraph) (part : Int) (st : NodeScan)
    (hn : Nat) : NodeScan :=
  if hyper.partID hn = part then
    { hypernodeMapper :=
        if (st.hypernodeMapper.lookup hn).isSome then st.hypernodeMapper
        else st.hypernodeMapper ++ [(hn, wrap32 st.hgToExtractedPartitionMapping.length)]
      hgToExtractedPartitionMapping := st.hgToExtractedPartitionMapping ++ [hn]
      hypernode_weights := st.hypernode_weights ++ [hyper.nodeWeight hn] }
  else st

/-- The inner loop over the pins that sets `is_part_edge`: it leaves after its first
iteration, so only the first pin is looked at. -/
def isPartEdge (hyper : Hypergraph) (part : Int) (he : Nat) : Bool :=
  match hyper.pins he with
  | [] => true
  | hn :: _ => decide (hyper.partID hn = part)

/-- One iteration of the hyperedge scan. -/
def extractEdgeStep (hyper : Hypergraph) (part : Int)
    (hypernodeMapper : List (Nat × Nat)) (st : EdgeScan) (he : Nat) :
    EdgeScan :=
  if hyper.connectivity he > 1 then st
  else if isPartEdge hyper part he then
    let ev := st.edge_vector ++ (hyper.pins he).map (mapperAt hypernodeMapper)
    { edge_vector := ev
      index_vector := st.index_vector ++ [ev.length]
      hyperedgeMapper := st.hyperedgeMapper ++ [he]
      hyperedge_weights := st.hyperedge_weights ++ [hyper.edgeWeight he] }
  else st

/-- The partition extractor.  The five vectors are the values of the by-reference arguments at
the call; the two counters are overwritten, so their values at the call do not matter.  The
five `ASSERT`s of the source are debug checks without effect on the outputs. -/
def extractPartitionAsHypergraph (hyper : Hypergraph) (part : Int)
    (index_vector : List Nat) (edge_vector : List Nat)
    (hyperedge_weights : List Int) (hypernode_weights : List Int)
    (hgToExtractedPartitionMapping : List Nat) : ExtractedPartition :=
  let ns := hyper.nodes.foldl (extractNodeStep hyper part)
    { hypernodeMapper := []
      hgToExtractedPartitionMapping := hgToExtractedPartitionMapping
      hypernode_weights := hypernode_weights }
  let es := hyper.edges.foldl (extractEdgeStep hyper part ns.hypernodeMapper)
    { edge_vector := edge_vector
      index_vector := index_vector ++ [edge_vector.length]
      hyperedgeMapper := []
      hyperedge_weights := hyperedge_weights }
  { num_hypernodes := wrap32 ns.hgToExtractedPartitionMapping.length
    num_hyperedges := wrap32 (es.index_vector.length - 1)
    index_vector := es.index_vector
    edge_vector := es.edge_vector
    hyperedge_weights := es.hyperedge_weights
    hypernode_weights := ns.hypernode_weights
    hgToExtractedPartitionMapping := ns.hgToExtractedPartitionMapping
    hyperedgeMapper := es.hyperedgeMapper }

end InitialPartitionerBase

/-! ## Specification-level notions -/

/-- The number of elements of `l` that `f` sends to `p`. -/
def cnt (f : Nat → Int) (l : List Nat) (p : Int) : Nat :=
  l.countP (fun v => decide (f v = p))

/-- The values other than `-1` that `f` takes on `l`. -/
def parts (f : Nat → Int) (l : List Nat) : Finset Int :=
  ((l.map f).toFinset).erase (-1)

/-- The contribution of a hyperedge to the cut: its weight when its connectivity is at least
2, and nothing otherwise. -/
def cutWeight (hg : Hypergraph) (he : Nat) : Int :=
  if 2 ≤ hg.connectivity he then hg.edgeWeight he else 0

namespace Hypergraph

/-- The number of pins of `he` that are currently in part `p`, counted from scratch. -/
def pinsInPart (hg : Hypergraph) (he : Nat) (p : Int) : Nat := cnt hg.partID (hg.pins he) p

/-- The parts that contain at least one pin of `he`, collected from scratch. -/
def partsOfEdge (hg : Hypergraph) (he : Nat) : Finset Int := parts hg.partID (hg.pins he)

/-- A hypergraph the container can hold: the number of nodes fits the 32-bit node id type, and
every hyperedge is a set of valid node ids (no pin is listed twice). -/
def WellFormed (hg : Hypergraph) : Prop :=
  hg.numNodes ≤ maxHypernodeID ∧
    ∀ he, he < hg.edgePins.length → (hg.pins he).Nodup ∧ ∀ v ∈ hg.pins he, v < hg.numNodes

/-- The invariant the spec states for the counters of the hypergraph: the stored pin count of
a hyperedge in a part is the number of its pins in that part, and the stored connectivity is
the number of parts with at least one pin of the hyperedge. -/
def Consistent (hg : Hypergraph) : Prop :=
  (∀ he, he < hg.edgePins.length → ∀ p : Int, p ≠ -1 →
      hg.pinCountInPart he p = hg.pinsInPart he p) ∧
    ∀ he, he < hg.edgePins.length → hg.connectivity he = (hg.partsOfEdge he).card

/-- No node of the hypergraph is assigned to a part. -/
def Unassigned (hg : Hypergraph) : Prop := ∀ v, v < hg.numNodes → hg.partID v = -1

/-- The hypergraph as it is built from its nodes and hyperedges, before any node is assigned:
every part id is `-1`, every part weight, pin count and connectivity is zero. -/
def unpartitioned (numNodes : Nat) (nodeWeight : Nat → Int) (edgePins : List (List Nat))
    (edgeWeight : Nat → Int) : Hypergraph :=
  { numNodes := numNodes
    nodeWeight := nodeWeight
    edgePins := edgePins
    edgeWeight := edgeWeight
    partID := fun _ => -1
    partWeight := fun _ => 0
    pinCountInPart := fun _ _ => 0
    connectivity := fun _ => 0 }

end Hypergraph

namespace InitialPartitionerBase

/-- The guard of `assignHypernodeToPartition`. -/
def assignGuard (s : InitialPartitionerBase) (hn : Nat) (target_part : Int) : Prop :=
  s._hg.partWeight target_part + s._hg.nodeWeight hn
      ≤ s._config.upper_allowed_partition_weight target_part ∧ hn < s._hg.numNodes

/-- The engine after a sequence of calls `assignHypernodeToPartition hn target_part`, given as
pairs `(hn, target_part)`, whatever each call returns. -/
def assignAll (s : InitialPartitionerBase) (calls : List (Nat × Int)) : InitialPartitionerBase :=
  calls.foldl (fun st c => (assignHypernodeToPartition st c.1 c.2).2) s

/-- Every call of the sequence is accepted (returns `true`) and leaves a feasible state (every
part `0..k-1` within its upper bound). -/
def acceptedFeasible (s : InitialPartitionerBase) : List (Nat × Int) → Bool
  | [] => true
  | c :: rest =>
    (assignHypernodeToPartition s c.1 c.2).1 &&
      isFeasibleSolution (assignHypernodeToPartition s c.1 c.2).2._hg
        (assignHypernodeToPartition s c.1 c.2).2._config &&
      acceptedFeasible (assignHypernodeToPartition s c.1 c.2).2 rest

/-- The cut tracker is in step with the hypergraph: the hypergraph is well formed, its
counters are consistent, and `current_cut` is the cut recomputed from scratch. -/
def CutInv (s : InitialPartitionerBase) : Prop :=
  s._hg.WellFormed ∧ s._hg.Consistent ∧ s.current_cut = hyperedgeCut s._hg

/-- A sequence of calls that assigns every node at most once, to real parts only, every call
being accepted and leaving a feasible state. -/
def AssignOnce (s : InitialPartitionerBase) (calls : List (Nat × Int)) : Prop :=
  (calls.map Prod.fst).Nodup ∧ (∀ c ∈ calls, c.2 ≠ -1) ∧ acceptedFeasible s calls = true

/-- The record that `assignHypernodeToPartition` pushes for an accepted, feasible call on an
unassigned node. -/
def recordOf (c : Nat × Int) : node_assignment :=
  { hn := c.1, from_part := -1, to_part := c.2 }

/-- What the rollback loop does to the hypergraph for one popped record that is not the last
one popped: the move is reversed. -/
def undoAssignment (hg : Hypergraph) (a : node_assignment) : Hypergraph :=
  hg.changeNodePart a.hn a.to_part a.from_part

end InitialPartitionerBase

/-! ## Concrete scenarios -/

/-- The scenario of the specification: four nodes of weight 1 and one hyperedge `{0,1,2,3}` of
weight 1, no node assigned. -/
def scenarioHypergraph : Hypergraph :=
  Hypergraph.unpartitioned 4 (fun _ => 1) [[0, 1, 2, 3]] (fun _ => 1)

/-- The configuration of the scenario: `k = 2` and `epsilon = 0`, so that either part may weigh
`ceil(4/2) = 2`; rollback is enabled. -/
def scenarioConfig : Configuration :=
  { k := 2, upper_allowed_partition_weight := fun _ => 2, rollback := true,
    total_graph_weight := 0 }

/-- The assignments of the scenario: node 0 to part 0, nodes 1 and 2 to part 1, node 3 to
part 0. -/
def scenarioCalls : List (Nat × Int) := [(0, 0), (1, 1), (2, 1), (3, 0)]

/-- The engine of the scenario, freshly constructed. -/
def scenarioEngine : InitialPartitionerBase :=
  InitialPartitionerBase.create scenarioHypergraph scenarioConfig 0

/-- Three nodes of weight 1 and the hyperedges `{0,1}` and `{0,2}` of weight 1, no node
assigned. -/
def reassignHypergraph : Hypergraph :=
  Hypergraph.unpartitioned 3 (fun _ => 1) [[0, 1], [0, 2]] (fun _ => 1)

/-- Two parts that may weigh up to 3 each; rollback is enabled. -/
def reassignConfig : Configuration :=
  { k := 2, upper_allowed_partition_weight := fun _ => 3, rollback := true,
    total_graph_weight := 0 }

/-- Node 0 to part 0, node 1 to part 1, node 2 to part 0, and then node 0 again, to part 1. -/
def reassignCalls : List (Nat × Int) := [(0, 0), (1, 1), (2, 0), (0, 1)]

/-- The engine on `reassignHypergraph`, freshly constructed. -/
def reassignEngine : InitialPartitionerBase :=
  InitialPartitionerBase.create reassignHypergraph reassignConfig 0

/-- Two nodes of weight 1 joined by one hyperedge `{0,1}` of weight 1, after the engine has
assigned node 0 to part 0; node 1 is still unassigned. -/
def halfAssignedHypergraph : Hypergraph :=
  (InitialPartitionerBase.assignHypernodeToPartition
    (InitialPartitionerBase.create
      (Hypergraph.unpartitioned 2 (fun _ => 1) [[0, 1]] (fun _ => 1)) scenarioConfig 0) 0 0).2._hg

/-! ## Notions for extraction shape, feasibility, the marker and the rollback frame -/

/-- The largest value of the unsigned 32-bit `HyperedgeID`. -/
def maxHyperedgeID : Nat := 4294967295

namespace Hypergraph

/-- Modelled from the spec: the node-weight query of the hypergraph view with its precondition
made explicit.  The spec requires a valid node id and calls a non-existent id a precondition
misuse; the query has a value for `hn < numNodes` and none otherwise. -/
def nodeWeightChecked (hg : Hypergraph) (hn : Nat) : Option Int :=
  if hn < hg.numNodes then some (hg.nodeWeight hn) else none

/-- Modelled from the spec: the part-id query of the hypergraph view with its precondition made
explicit, as `nodeWeightChecked`. -/
def partIDChecked (hg : Hypergraph) (hn : Nat) : Option Int :=
  if hn < hg.numNodes then some (hg.partID hn) else none

end Hypergraph

namespace InitialPartitionerBase

/-- The assignment controller with the node queries checked, statement by statement as in the
source: the node weight is queried for `assign_partition_weight` and the part id for
`source_part` first, and only then does the guard compare `hn` with `numNodes`.  The result is
`none` when a query has no value. -/
def assignHypernodeToPartitionChecked (s : InitialPartitionerBase) (hn : Nat)
    (target_part : Int) : Option (Bool × InitialPartitionerBase) :=
  match s._hg.nodeWeightChecked hn with
  | none => none
  | some w =>
    let assign_partition_weight := s._hg.partWeight target_part + w
    match s._hg.partIDChecked hn with
    | none => none
    | some source_part =>
      if assign_partition_weight ≤ s._config.upper_allowed_partition_weight target_part
          ∧ hn < s._hg.numNodes then
        if source_part = -1 then
          some (true, calculateBisectionCutAfterAssignment
            { s with _hg := s._hg.setNodePart hn target_part } hn source_part target_part)
        else if source_part ≠ target_part then
          some (true, calculateBisectionCutAfterAssignment
            { s with _hg := s._hg.changeNodePart hn source_part target_part }
            hn source_part target_part)
        else
          some (false, s)
      else
        some (false, s)

/-- The test under which one iteration of the hyperedge scan emits the hyperedge: its
connectivity is not above 1 and `is_part_edge` stays set. -/
def emitsEdge (hyper : Hypergraph) (part : Int) (he : Nat) : Bool :=
  !decide (hyper.connectivity he > 1) && isPartEdge hyper part he

/-- The shape of the state of the hyperedge scan: the index array is non-decreasing, bounded by
and ending in the length of the pin array, as long as the list of emitted hyperedges plus one;
the edge weights are as many as the emitted hyperedges; every pin entry is below `n`. -/
def EdgeScanOk (n : Nat) (st : EdgeScan) : Prop :=
  st.index_vector.Pairwise (fun a b => a ≤ b) ∧
  (∀ x ∈ st.index_vector, x ≤ st.edge_vector.length) ∧
  st.index_vector.getLast? = some st.edge_vector.length ∧
  st.index_vector.length = st.hyperedgeMapper.length + 1 ∧
  st.hyperedge_weights.length = st.hyperedgeMapper.length ∧
  (∀ x ∈ st.edge_vector, x < n)

/-- The local `connectivity_before` of `calculateBisectionCutAfterAssignment` at the end of its
two adjustments: the value the tracker reconstructs, from the counters after the move, for
the connectivity of `he` before the move.  It is the let-bound value of the same name in
`cutAfterEdge`. -/
def connectivityBefore (hg : Hypergraph) (from_part to_part : Int) (he : Nat) : Nat :=
  let pins_in_source_part_before : Nat :=
    if from_part ≠ -1 then wrap32 (hg.pinCountInPart he from_part + 1) else 0
  let pins_in_target_part_after : Nat := hg.pinCountInPart he to_part
  let cb0 : Nat := hg.connectivity he
  let cb1 : Nat := if pins_in_source_part_before = 1 then wrap32 (cb0 + 1) else cb0
  if pins_in_target_part_after = 1 then wrap32 (cb1 + 4294967295) else cb1

/-- The records the rollback loop pops from a history when it looks for the node `best`: the
records from the top down to and including the first one of `best`, or the whole history when
`best` has no record. -/
def poppedRecords (best : Nat) : List node_assignment → List node_assignment
  | [] => []
  | r :: rest => if r.hn = best then [r] else r :: poppedRecords best rest

/-- The records `rollbackToBestBisectionCut` pops in state `s`: none without the rollback
flag or while the marker is still the initial `max()`, otherwise `poppedRecords`. -/
def rollbackPopped (s : InitialPartitionerBase) : List node_assignment :=
  if s._config.rollback = true ∧ s.best_cut_node ≠ maxHypernodeID then
    poppedRecords s.best_cut_node s.bisection_assignment_history
  else []

/-- A state that can never become feasible while node weights are non-negative: some part
`p0` of `0..k-1` is above its upper bound and holds no node. -/
def Stuck (s : InitialPartitionerBase) : Prop :=
  ∃ p0 : Int, 0 ≤ p0 ∧ p0 < s._config.k ∧
    s._config.upper_allowed_partition_weight p0 < s._hg.partWeight p0 ∧
    ∀ v, v < s._hg.numNodes → s._hg.partID v ≠ p0

/-- The hyperedge and node weights of the hypergraph of `s` are non-negative. -/
def NonNegWeights (s : InitialPartitionerBase) : Prop :=
  (∀ he, he < s._hg.edgePins.length → 0 ≤ s._hg.edgeWeight he) ∧
  (∀ v, v < s._hg.numNodes → 0 ≤ s._hg.nodeWeight v)

/-- The marker has been set by the first recorded assignment and sits at cut 0: the history is
not empty, `best_cut` is 0 and `best_cut_node` is the node of the bottom record. -/
def Pinned (s : InitialPartitionerBase) : Prop :=
  s.best_cut = 0 ∧
  ∃ r, s.bisection_assignment_history.getLast? = some r ∧ s.best_cut_node = r.hn

/-- Every part `0..k-1` weighs at most its upper bound: the condition the feasibility loop of
`calculateBisectionCutAfterAssignment` tests. -/
def Feasible (s : InitialPartitionerBase) : Prop :=
  ∀ p : Int, 0 ≤ p → p < s._config.k →
    s._hg.partWeight p ≤ s._config.upper_allowed_partition_weight p

/-- The trace of the recorded assignments of a sequence of calls: for every call that pushes a
record, in order, the node of the call and the tracked cut right after it. -/
def recordedCuts (s : InitialPartitionerBase) : List (Nat × Int) → List (Nat × Int)
  | [] => []
  | c :: rest =>
    (if (assignHypernodeToPartition s c.1 c.2).2.bisection_assignment_history.length =
        s.bisection_assignment_history.length + 1
      then [(c.1, (assignHypernodeToPartition s c.1 c.2).2.current_cut)] else []) ++
    recordedCuts (assignHypernodeToPartition s c.1 c.2).2 rest

/-- The best-cut marker `(b, n)` described from the marker `(b0, n0)` it started at and the
trace of the recorded assignments since: `b` is the minimum of `b0` and the recorded cuts, and
either it is below `b0` and `n` is the node of the earliest record attaining it, or the marker
has not moved. -/
def MarkerSpec (b0 : Int) (n0 : Nat) (trace : List (Nat × Int)) (b : Int) (n : Nat) : Prop :=
  b ≤ b0 ∧ (∀ x ∈ trace, b ≤ x.2) ∧
  ((b < b0 ∧ ∃ pre r post, trace = pre ++ r :: post ∧ r.2 = b ∧ (∀ x ∈ pre, b < x.2) ∧
      n = r.1) ∨
    (b = b0 ∧ n = n0))

/-- The three phases of a run from the fresh engine `s0`: nothing has been applied yet and the
state is feasible; or the state is stuck and nothing has been recorded; or the marker is
pinned. -/
def Phase (s0 s : InitialPartitionerBase) : Prop :=
  (s = s0 ∧ Feasible s0) ∨ (Stuck s ∧ s.bisection_assignment_history = []) ∨ Pinned s

end InitialPartitionerBase

/-- Two nodes of weight `-1` each, joined by one hyperedge `{0,1}` of weight 1; no node is
assigned. -/
def negativeWeightHypergraph : Hypergraph :=
  Hypergraph.unpartitioned 2 (fun _ => -1) [[0, 1]] (fun _ => 1)

/-- Two parts with the upper bound `-1` each, the bound `ceil(total/k) * (1 + epsilon)` of the
total weight `-2` with `k = 2` and `epsilon = 0`; rollback is enabled. -/
def negativeWeightConfig : Configuration :=
  { k := 2, upper_allowed_partition_weight := fun _ => -1,
    rollback := true, total_graph_weight := -2 }

/-- The engine on `negativeWeightHypergraph`, freshly constructed. -/
def negativeWeightEngine : InitialPartitionerBase :=
  InitialPartitionerBase.create negativeWeightHypergraph negativeWeightConfig 0

/-- One node of weight 1, unassigned, and one hyperedge without pins. -/
def emptyEdgeHypergraph : Hypergraph :=
  Hypergraph.unpartitioned 1 (fun _ => 1) [[]] (fun _ => 1)

/-! ## Notions for the balance bounds and the 32-bit running cut -/

/-- The sum of the weights of all hyperedges. -/
def totalEdgeWeight (hg : Hypergraph) : Int := (hg.edges.map hg.edgeWeight).sum

namespace InitialPartitionerBase

/-- The engine after a sequence of calls, with the running cut in 32-bit arithmetic. -/
def assignAll32 (s : InitialPartitionerBase) (calls : List (Nat × Int)) :
    InitialPartitionerBase :=
  calls.foldl (fun st c => (assignHypernodeToPartition32 st c.1 c.2).2) s

end InitialPartitionerBase

/-- Two nodes of weight 1 joined by two hyperedges `{0,1}` of weight `2^30` each; no node is
assigned. -/
def overflowHypergraph : Hypergraph :=
  Hypergraph.unpartitioned 2 (fun _ => 1) [[0, 1], [0, 1]] (fun _ => 1073741824)

/-- Two parts that may weigh up to `ceil(2/2) = 1` each; rollback is enabled. -/
def overflowConfig : Configuration :=
  { k := 2, upper_allowed_partition_weight := fun _ => 1, rollback := true,
    total_graph_weight := 0 }

/-- The engine on `overflowHypergraph`, freshly constructed. -/
def overflowEngine : InitialPartitionerBase :=
  InitialPartitionerBase.create overflowHypergraph overflowConfig 0

/-! ## Properties -/

open InitialPartitionerBase

theorem cnt_split (f : Nat → Int) (l : List Nat) (hn : Nat) (hmem : hn ∈ l) (p : Int) :
    cnt f l p = cnt f (l.erase hn) p + if f hn = p then 1 else 0 := by
  unfold cnt
  rw [List.Perm.countP_eq _ (List.perm_cons_erase hmem), List.countP_cons]
  simp

theorem parts_split (f : Nat → Int) (l : List Nat) (hn : Nat) (hmem : hn ∈ l) :
    parts f l = (insert (f hn) (((l.erase hn).map f).toFinset)).erase (-1) := by
  unfold parts
  rw [List.toFinset_eq_of_perm _ _ (List.Perm.map f (List.perm_cons_erase hmem))]
  simp

theorem cnt_update_erase (f : Nat → Int) (l : List Nat) (hn : Nat) (b : Int) (hnd : l.Nodup)
    (p : Int) : cnt (Function.update f hn b) (l.erase hn) p = cnt f (l.erase hn) p := by
  unfold cnt
  apply List.countP_congr
  intro x hx
  have hne : x ≠ hn := ((List.Nodup.mem_erase_iff hnd).mp hx).1
  simp [Function.update_noteq hne]

theorem map_update_erase (f : Nat → Int) (l : List Nat) (hn : Nat) (b : Int) (hnd : l.Nodup) :
    (l.erase hn).map (Function.update f hn b) = (l.erase hn).map f := by
  apply List.map_congr_left
  intro x hx
  have hne : x ≠ hn := ((List.Nodup.mem_erase_iff hnd).mp hx).1
  simp [Function.update_noteq hne]

theorem cnt_update_of_not_mem (f : Nat → Int) (l : List Nat) (hn : Nat) (b : Int)
    (hmem : hn ∉ l) (p : Int) : cnt (Function.update f hn b) l p = cnt f l p := by
  unfold cnt
  apply List.countP_congr
  intro x hx
  have hne : x ≠ hn := fun h => hmem (h ▸ hx)
  simp [Function.update_noteq hne]

theorem parts_update_of_not_mem (f : Nat → Int) (l : List Nat) (hn : Nat) (b : Int)
    (hmem : hn ∉ l) : parts (Function.update f hn b) l = parts f l := by
  unfold parts
  congr 2
  apply List.map_congr_left
  intro x hx
  have hne : x ≠ hn := fun h => hmem (h ▸ hx)
  simp [Function.update_noteq hne]

theorem card_erase_insert (x : Int) (T : Finset Int) :
    ((insert x T).erase (-1)).card =
      (T.erase (-1)).card + if x ≠ -1 ∧ x ∉ T then 1 else 0 := by
  by_cases hx : x = -1
  · subst hx
    simp [Finset.erase_insert_eq_erase]
  · rw [Finset.erase_insert_of_ne hx]
    by_cases hT : x ∈ T
    · have : x ∈ T.erase (-1) := Finset.mem_erase.mpr ⟨hx, hT⟩
      simp [Finset.insert_eq_of_mem this, hT]
    · have : x ∉ T.erase (-1) := fun h => hT (Finset.mem_of_mem_erase h)
      simp [Finset.card_insert_of_not_mem this, hT, hx]

theorem not_mem_map_iff_cnt (f : Nat → Int) (l : List Nat) (x : Int) :
    x ∉ (l.map f).toFinset ↔ cnt f l x = 0 := by
  unfold cnt
  simp

/-- The effect of re-labelling one element `hn` of a duplicate-free list on the per-value
counts and on the number of distinct values other than `-1`: both are described through the
counts `m` of the other elements and the number `base` of distinct values among them. -/
theorem relabel_counts (f : Nat → Int) (l : List Nat) (hn : Nat) (b : Int)
    (hnd : l.Nodup) (hmem : hn ∈ l) :
    ∃ (m : Int → Nat) (base : Nat),
      (∀ p, cnt f l p = m p + if f hn = p then 1 else 0) ∧
      (∀ p, cnt (Function.update f hn b) l p = m p + if b = p then 1 else 0) ∧
      (parts f l).card = base + (if f hn ≠ -1 ∧ m (f hn) = 0 then 1 else 0) ∧
      (parts (Function.update f hn b) l).card = base + (if b ≠ -1 ∧ m b = 0 then 1 else 0) ∧
      (∀ p, m p < l.length) ∧ base < l.length := by
  refine ⟨cnt f (l.erase hn), ((((l.erase hn).map f).toFinset).erase (-1)).card, ?_, ?_, ?_, ?_,
    ?_, ?_⟩
  · exact cnt_split f l hn hmem
  · intro p
    rw [cnt_split _ l hn hmem, cnt_update_erase f l hn b hnd]
    simp
  · rw [parts_split f l hn hmem, card_erase_insert]
    simp only [not_mem_map_iff_cnt]
  · rw [parts_split _ l hn hmem, card_erase_insert, map_update_erase f l hn b hnd]
    simp only [not_mem_map_iff_cnt, Function.update_same]
  · intro p
    have h1 : cnt f (l.erase hn) p ≤ (l.erase hn).length := List.countP_le_length _
    have h2 : (l.erase hn).length = l.length - 1 := List.length_erase_of_mem hmem
    have h3 : 0 < l.length := List.length_pos_of_mem hmem
    omega
  · have h1 : ((((l.erase hn).map f).toFinset).erase (-1)).card ≤ (l.erase hn).length := by
      calc ((((l.erase hn).map f).toFinset).erase (-1)).card
          ≤ (((l.erase hn).map f).toFinset).card := Finset.card_erase_le
        _ ≤ ((l.erase hn).map f).length := List.toFinset_card_le _
        _ = (l.erase hn).length := List.length_map _ _
    have h2 : (l.erase hn).length = l.length - 1 := List.length_erase_of_mem hmem
    have h3 : 0 < l.length := List.length_pos_of_mem hmem
    omega

theorem length_le_of_nodup_of_lt (l : List Nat) (n : Nat) (hnd : l.Nodup)
    (hlt : ∀ v ∈ l, v < n) : l.length ≤ n := by
  have h1 : l.toFinset ⊆ Finset.range n := by
    intro v hv
    exact Finset.mem_range.mpr (hlt v (List.mem_toFinset.mp hv))
  have h2 := Finset.card_le_card h1
  rw [List.toFinset_card_of_nodup hnd, Finset.card_range] at h2
  exact h2

theorem isFeasibleSolution_iff (hg : Hypergraph) (config : Configuration) :
    isFeasibleSolution hg config = true ↔
      ∀ p : Int, 0 ≤ p → p < config.k →
        hg.partWeight p ≤ config.upper_allowed_partition_weight p := by
  unfold isFeasibleSolution
  rw [List.all_eq_true]
  constructor
  · intro h p hp hk
    have := h p.toNat (List.mem_range.mpr (by omega))
    rw [Int.toNat_of_nonneg hp] at this
    simpa using this
  · intro h n hn
    have hn' := List.mem_range.mp hn
    simpa using h (n : Int) (by omega) (by omega)

theorem changeNodePart_partID (hg : Hypergraph) (hn : Nat) (a b : Int) :
    (hg.changeNodePart hn a b).partID hn = b := by
  simp [Hypergraph.changeNodePart]

theorem calc_hg (s : InitialPartitionerBase) (hn : Nat) (a b : Int) :
    (calculateBisectionCutAfterAssignment s hn a b)._hg = s._hg := by
  unfold calculateBisectionCutAfterAssignment
  split <;> rfl

theorem calc_config (s : InitialPartitionerBase) (hn : Nat) (a b : Int) :
    (calculateBisectionCutAfterAssignment s hn a b)._config = s._config := by
  unfold calculateBisectionCutAfterAssignment
  split <;> rfl

theorem assign_rejected_guard (s : InitialPartitionerBase) (hn : Nat) (t : Int)
    (h : ¬ assignGuard s hn t) : assignHypernodeToPartition s hn t = (false, s) := by
  unfold assignGuard at h
  simp only [assignHypernodeToPartition, h, if_false]

theorem assign_rejected_same (s : InitialPartitionerBase) (hn : Nat) (t : Int)
    (h1 : s._hg.partID hn ≠ -1) (h2 : s._hg.partID hn = t) :
    assignHypernodeToPartition s hn t = (false, s) := by
  subst h2
  simp [assignHypernodeToPartition, h1]

theorem assign_unassigned (s : InitialPartitionerBase) (hn : Nat) (t : Int)
    (h : assignGuard s hn t) (h1 : s._hg.partID hn = -1) :
    assignHypernodeToPartition s hn t =
      (true, calculateBisectionCutAfterAssignment
        { s with _hg := s._hg.setNodePart hn t } hn (-1) t) := by
  unfold assignGuard at h
  simp only [assignHypernodeToPartition, h, h1, and_self, if_true]

theorem assign_moved (s : InitialPartitionerBase) (hn : Nat) (t : Int)
    (h : assignGuard s hn t) (h1 : s._hg.partID hn ≠ -1) (h2 : s._hg.partID hn ≠ t) :
    assignHypernodeToPartition s hn t =
      (true, calculateBisectionCutAfterAssignment
        { s with _hg := s._hg.changeNodePart hn (s._hg.partID hn) t }
        hn (s._hg.partID hn) t) := by
  unfold assignGuard at h
  simp only [assignHypernodeToPartition, h, h1, h2, and_self, if_true, if_false, ne_eq,
    not_false_eq_true]

/-- Claim C2 (result of `assignHypernodeToPartition`).  For every state and every target that
is a part (not the unassigned marker `-1`), the call returns `true` exactly when `hn` is a
valid node id, the weight of the target plus the weight of `hn` is within the upper bound of
the target, and `hn` is not already in the target.  Whenever it returns `true`, `hn` is in
the target afterwards: an unassigned node has been set directly, an assigned node has been
moved from its previous part, whether or not the resulting state is feasible. -/
theorem assignHypernodeToPartition_result (s : InitialPartitionerBase) (hn : Nat)
    (target_part : Int) (ht : target_part ≠ -1) :
    ((assignHypernodeToPartition s hn target_part).1 = true ↔
      (hn < s._hg.numNodes ∧
        s._hg.partWeight target_part + s._hg.nodeWeight hn
          ≤ s._config.upper_allowed_partition_weight target_part ∧
        s._hg.partID hn ≠ target_part)) ∧
    ((assignHypernodeToPartition s hn target_part).1 = true →
      (assignHypernodeToPartition s hn target_part).2._hg.partID hn = target_part ∧
      (assignHypernodeToPartition s hn target_part).2._hg =
        if s._hg.partID hn = -1 then s._hg.setNodePart hn target_part
        else s._hg.changeNodePart hn (s._hg.partID hn) target_part) := by
  by_cases hg : assignGuard s hn target_part
  · by_cases h1 : s._hg.partID hn = -1
    · rw [assign_unassigned s hn target_part hg h1]
      have hne : s._hg.partID hn ≠ target_part := fun h => ht (h ▸ h1)
      simp only [calc_hg, Hypergraph.setNodePart, changeNodePart_partID, h1, if_true,
        true_and, and_self, implies_true, and_true, true_iff]
      exact ⟨hg.2, hg.1, fun h => ht h.symm⟩
    · by_cases h2 : s._hg.partID hn = target_part
      · rw [assign_rejected_same s hn target_part h1 h2]
        simp [h2]
      · rw [assign_moved s hn target_part hg h1 h2]
        simp only [calc_hg, changeNodePart_partID, h1, if_false, true_and, and_self,
          implies_true, and_true, true_iff]
        exact ⟨hg.2, hg.1, h2⟩
  · rw [assign_rejected_guard s hn target_part hg]
    simp only [Bool.false_eq_true, false_iff, false_implies, and_true]
    intro h
    exact hg ⟨h.2.1, h.1⟩

/-- Claim C3 (rejection is atomic).  Whenever `assignHypernodeToPartition` returns `false`,
be it for the weight bound, for an invalid node id or because `hn` is already in the target
part, the whole state after the call is the state before it: the hypergraph with every part
id, part weight, pin count and connectivity, the running cut, the best-cut marker, the
rollback history and the statistics. -/
theorem assignHypernodeToPartition_rejection_atomic (s : InitialPartitionerBase) (hn : Nat)
    (p : Int)
    (h : (assignHypernodeToPartition s hn p).1 = false) :
    (assignHypernodeToPartition s hn p).2 = s := by
  by_cases hg : assignGuard s hn p
  · by_cases h1 : s._hg.partID hn = -1
    · rw [assign_unassigned s hn p hg h1] at h; exact absurd h (by simp)
    · by_cases h2 : s._hg.partID hn = p
      · rw [assign_rejected_same s hn p h1 h2]
      · rw [assign_moved s hn p hg h1 h2] at h; exact absurd h (by simp)
  · rw [assign_rejected_guard s hn p hg]

/-- Claim C7 (rollback is a no-op without flag or history).  When the rollback flag is unset
or the history is empty, `rollbackToBestBisectionCut` returns the state unchanged: hypergraph,
history, running cut, best-cut marker and statistics. -/
theorem rollbackToBestBisectionCut_noop (s : InitialPartitionerBase)
    (h : s._config.rollback = false ∨ s.bisection_assignment_history = []) :
    rollbackToBestBisectionCut s = s := by
  unfold rollbackToBestBisectionCut
  rcases h with h | h <;> simp [h]

theorem calc_history (s : InitialPartitionerBase) (hn : Nat) (a b : Int) :
    (calculateBisectionCutAfterAssignment s hn a b).bisection_assignment_history =
      if isFeasibleSolution s._hg s._config = true then
        { hn := hn, from_part := a, to_part := b } :: s.bisection_assignment_history
      else s.bisection_assignment_history := by
  unfold calculateBisectionCutAfterAssignment
  split <;> rfl

theorem list_ne_cons_self {α : Type} (a : α) (l : List α) : l ≠ a :: l := by
  intro h
  have := congrArg List.length h
  simp at this

/-- Claim C4 (history recording and balance-guard soundness).  A call of
`assignHypernodeToPartition` pushes the record `{hn, part of hn before the call, target}`
exactly when it applied the move (returned `true`) and, after the move, every part `0..k-1`
weighs at most its upper bound; in every other case the history is unchanged.  So a record is
only ever pushed in a state where no part exceeds its bound, at most one record is pushed, and
a move that is applied but leaves a part over its bound adds none. -/
theorem assignHypernodeToPartition_history (s : InitialPartitionerBase) (hn : Nat)
    (target_part : Int) :
    ((assignHypernodeToPartition s hn target_part).2.bisection_assignment_history =
        { hn := hn, from_part := s._hg.partID hn, to_part := target_part } ::
          s.bisection_assignment_history ↔
      ((assignHypernodeToPartition s hn target_part).1 = true ∧
        ∀ p : Int, 0 ≤ p → p < s._config.k →
          (assignHypernodeToPartition s hn target_part).2._hg.partWeight p
            ≤ s._config.upper_allowed_partition_weight p)) ∧
    ((assignHypernodeToPartition s hn target_part).2.bisection_assignment_history =
        { hn := hn, from_part := s._hg.partID hn, to_part := target_part } ::
          s.bisection_assignment_history ∨
      (assignHypernodeToPartition s hn target_part).2.bisection_assignment_history =
        s.bisection_assignment_history) := by
  by_cases hg : assignGuard s hn target_part
  · by_cases h1 : s._hg.partID hn = -1
    · rw [assign_unassigned s hn target_part hg h1]
      simp only [calc_history, calc_hg, h1, true_and, ← isFeasibleSolution_iff]
      split <;> simp_all [(list_ne_cons_self _ _)]
    · by_cases h2 : s._hg.partID hn = target_part
      · rw [assign_rejected_same s hn target_part h1 h2]
        simp [list_ne_cons_self]
      · rw [assign_moved s hn target_part hg h1 h2]
        simp only [calc_history, calc_hg, true_and, ← isFeasibleSolution_iff]
        split <;> simp_all [(list_ne_cons_self _ _)]
  · rw [assign_rejected_guard s hn target_part hg]
    simp [list_ne_cons_self]

theorem foldl_extractNodeStep (hyper : Hypergraph) (part : Int) (l : List Nat) (st : NodeScan) :
    (l.foldl (extractNodeStep hyper part) st).hgToExtractedPartitionMapping =
        st.hgToExtractedPartitionMapping ++ l.filter (fun hn => decide (hyper.partID hn = part)) ∧
    (l.foldl (extractNodeStep hyper part) st).hypernode_weights =
        st.hypernode_weights ++
          (l.filter (fun hn => decide (hyper.partID hn = part))).map hyper.nodeWeight := by
  induction l generalizing st with
  | nil => simp
  | cons x xs ih =>
    rw [List.foldl_cons]
    obtain ⟨h1, h2⟩ := ih (extractNodeStep hyper part st x)
    rw [h1, h2]
    unfold extractNodeStep
    by_cases hx : hyper.partID x = part
    · simp [hx]
    · simp [hx]

/-- Claim C8 (extraction, nodes).  Called with empty output vectors, for every hypergraph state
and every part, `extractPartitionAsHypergraph` returns as id map the source nodes whose part
id is `part`, each once and in ascending id order; `num_hypernodes` is their number; and
`hypernode_weights` lists, position by position, the source weights of the nodes of the
map. -/
theorem extractPartitionAsHypergraph_nodes (hyper : Hypergraph) (part : Int)
    (h32 : hyper.numNodes ≤ maxHypernodeID) :
    (extractPartitionAsHypergraph hyper part [] [] [] [] []).hgToExtractedPartitionMapping =
        hyper.nodes.filter (fun hn => decide (hyper.partID hn = part)) ∧
    (∀ hn : Nat,
      hn ∈ (extractPartitionAsHypergraph hyper part
          [] [] [] [] []).hgToExtractedPartitionMapping ↔
        hn < hyper.numNodes ∧ hyper.partID hn = part) ∧
    (extractPartitionAsHypergraph hyper part [] [] [] [] []).hgToExtractedPartitionMapping.Pairwise
        (fun a b => a < b) ∧
    (extractPartitionAsHypergraph hyper part [] [] [] [] []).num_hypernodes =
        (hyper.nodes.filter (fun hn => decide (hyper.partID hn = part))).length ∧
    (extractPartitionAsHypergraph hyper part [] [] [] [] []).hypernode_weights =
        (extractPartitionAsHypergraph hyper part [] [] [] [] []).hgToExtractedPartitionMapping.map
          hyper.nodeWeight := by
  have hm : (extractPartitionAsHypergraph hyper part [] [] [] [] []).hgToExtractedPartitionMapping =
        hyper.nodes.filter (fun hn => decide (hyper.partID hn = part)) := by
    simp [extractPartitionAsHypergraph, (foldl_extractNodeStep hyper part _ _).1]
  have hw : (extractPartitionAsHypergraph hyper part [] [] [] [] []).hypernode_weights =
        (hyper.nodes.filter (fun hn => decide (hyper.partID hn = part))).map hyper.nodeWeight := by
    simp [extractPartitionAsHypergraph, (foldl_extractNodeStep hyper part _ _).2]
  have hn : (extractPartitionAsHypergraph hyper part [] [] [] [] []).num_hypernodes =
        wrap32 (hyper.nodes.filter (fun hn => decide (hyper.partID hn = part))).length := by
    simp [extractPartitionAsHypergraph, (foldl_extractNodeStep hyper part _ _).1]
  refine ⟨hm, ?_, ?_, ?_, ?_⟩
  · intro v
    rw [hm]
    simp [Hypergraph.nodes]
  · rw [hm]
    exact List.Pairwise.sublist (List.filter_sublist _) (List.pairwise_lt_range _)
  · rw [hn]
    have hle : (hyper.nodes.filter (fun hn => decide (hyper.partID hn = part))).length
        ≤ hyper.numNodes := by
      have := List.length_filter_le (fun hn => decide (hyper.partID hn = part)) hyper.nodes
      simpa [Hypergraph.nodes] using this
    unfold wrap32
    unfold maxHypernodeID at h32
    omega
  · rw [hw, hm]

theorem mem_pins_lt (hg : Hypergraph) (he hn : Nat) (h : hn ∈ hg.pins he) :
    he < hg.edgePins.length := by
  by_contra hlt
  unfold Hypergraph.pins at h
  rw [List.getD_eq_default _ _ (by omega)] at h
  simp at h

theorem changeNodePart_pins (hg : Hypergraph) (hn : Nat) (a b : Int) (he : Nat) :
    (hg.changeNodePart hn a b).pins he = hg.pins he := rfl

theorem changeNodePart_edgePins (hg : Hypergraph) (hn : Nat) (a b : Int) :
    (hg.changeNodePart hn a b).edgePins = hg.edgePins := rfl

theorem changeNodePart_edges (hg : Hypergraph) (hn : Nat) (a b : Int) :
    (hg.changeNodePart hn a b).edges = hg.edges := rfl

theorem changeNodePart_wellFormed (hg : Hypergraph) (hn : Nat) (a b : Int)
    (wf : hg.WellFormed) : (hg.changeNodePart hn a b).WellFormed := wf

theorem edge_length_le (hg : Hypergraph) (wf : hg.WellFormed) (he : Nat)
    (hlt : he < hg.edgePins.length) : (hg.pins he).length ≤ 4294967295 := by
  have h1 := length_le_of_nodup_of_lt (hg.pins he) hg.numNodes (wf.2 he hlt).1 (wf.2 he hlt).2
  have h2 := wf.1
  unfold maxHypernodeID at h2
  omega

/-- The counters of the hypergraph before and after moving a pin `hn` of `he` from its part
to `b`, expressed through the counts `m` of the other pins and the number `base` of parts
among them. -/
theorem changeNodePart_edge (hg : Hypergraph) (hn : Nat) (b : Int) (he : Nat)
    (wf : hg.WellFormed) (hc : hg.Consistent) (hmem : hn ∈ hg.pins he)
    (hab : hg.partID hn ≠ b) :
    ∃ (m : Int → Nat) (base : Nat),
      (∀ p, p ≠ -1 → hg.pinCountInPart he p = m p + if hg.partID hn = p then 1 else 0) ∧
      (∀ p, p ≠ -1 → (hg.changeNodePart hn (hg.partID hn) b).pinCountInPart he p
          = m p + if b = p then 1 else 0) ∧
      (∀ p, (hg.changeNodePart hn (hg.partID hn) b).pinsInPart he p
          = m p + if b = p then 1 else 0) ∧
      hg.connectivity he =
        base + (if hg.partID hn ≠ -1 ∧ m (hg.partID hn) = 0 then 1 else 0) ∧
      (hg.changeNodePart hn (hg.partID hn) b).connectivity he
          = base + (if b ≠ -1 ∧ m b = 0 then 1 else 0) ∧
      ((hg.changeNodePart hn (hg.partID hn) b).partsOfEdge he).card
          = base + (if b ≠ -1 ∧ m b = 0 then 1 else 0) ∧
      (∀ p, m p < 4294967295) ∧ base < 4294967295 := by
  have hlt := mem_pins_lt hg he hn hmem
  obtain ⟨m, base, h1, h2, h3, h4, h5, h6⟩ :=
    relabel_counts hg.partID (hg.pins he) hn b (wf.2 he hlt).1 hmem
  have hlen := edge_length_le hg wf he hlt
  have hpc : ∀ p, p ≠ -1 →
      hg.pinCountInPart he p = m p + if hg.partID hn = p then 1 else 0 := by
    intro p hp
    rw [hc.1 he hlt p hp]
    exact h1 p
  have hcn : hg.connectivity he
      = base + (if hg.partID hn ≠ -1 ∧ m (hg.partID hn) = 0 then 1 else 0) := by
    rw [hc.2 he hlt]
    exact h3
  refine ⟨m, base, hpc, ?_, ?_, hcn, ?_, ?_, ?_, ?_⟩
  · intro p hp
    have hp1 := hpc p hp
    simp only [Hypergraph.changeNodePart, hmem, if_true]
    rw [hp1]
    split_ifs <;> omega
  · intro p
    exact h2 p
  · simp only [Hypergraph.changeNodePart, hmem, if_true]
    rw [hcn]
    by_cases ha : hg.partID hn = -1
    · by_cases hb : b = -1
      · exact absurd (ha.trans hb.symm) hab
      · have hpb := hpc b hb
        rw [hpb]
        split_ifs <;> omega
    · have hpa := hpc _ ha
      rw [hpa]
      by_cases hb : b = -1
      · split_ifs <;> omega
      · have hpb := hpc b hb
        rw [hpb]
        split_ifs <;> omega
  · exact h4
  · intro p; have := h5 p; omega
  · omega

theorem changeNodePart_consistent (hg : Hypergraph) (hn : Nat) (b : Int)
    (wf : hg.WellFormed) (hc : hg.Consistent) (hab : hg.partID hn ≠ b) :
    (hg.changeNodePart hn (hg.partID hn) b).Consistent := by
  constructor
  · intro he hlt p hp
    by_cases hmem : hn ∈ hg.pins he
    · obtain ⟨m, base, _, h2, h3, _⟩ := changeNodePart_edge hg hn b he wf hc hmem hab
      rw [h2 p hp, h3 p]
    · have h1 : (hg.changeNodePart hn (hg.partID hn) b).pinCountInPart he p
          = hg.pinCountInPart he p := by
        simp only [Hypergraph.changeNodePart, hmem, if_false]
      rw [h1, hc.1 he hlt p hp]
      exact (cnt_update_of_not_mem hg.partID (hg.pins he) hn b hmem p).symm
  · intro he hlt
    by_cases hmem : hn ∈ hg.pins he
    · obtain ⟨m, base, _, _, _, _, h5, h6, _⟩ := changeNodePart_edge hg hn b he wf hc hmem hab
      rw [h5, h6]
    · have h1 : (hg.changeNodePart hn (hg.partID hn) b).connectivity he
          = hg.connectivity he := by
        simp only [Hypergraph.changeNodePart, hmem, if_false]
      rw [h1, hc.2 he hlt]
      exact congrArg Finset.card
        (parts_update_of_not_mem hg.partID (hg.pins he) hn b hmem).symm

theorem hyperedgeCut_eq (hg : Hypergraph) :
    hyperedgeCut hg = (hg.edges.map (cutWeight hg)).sum := rfl

theorem cutAfterEdge_correct (hg : Hypergraph) (hn : Nat) (b : Int) (he : Nat)
    (wf : hg.WellFormed) (hc : hg.Consistent) (hmem : hn ∈ hg.pins he)
    (hab : hg.partID hn ≠ b) (hb : b ≠ -1) (c : Int) :
    cutAfterEdge (hg.changeNodePart hn (hg.partID hn) b) (hg.partID hn) b c he =
      c + (cutWeight (hg.changeNodePart hn (hg.partID hn) b) he - cutWeight hg he) := by
  obtain ⟨m, base, h1, h2, _, h4, h5, _, h7, h8⟩ :=
    changeNodePart_edge hg hn b he wf hc hmem hab
  have hw : (hg.changeNodePart hn (hg.partID hn) b).edgeWeight he = hg.edgeWeight he := rfl
  have hm := h7 (hg.partID hn)
  have hmb := h7 b
  have hpb := h2 b hb
  simp only [if_true] at hpb
  unfold cutAfterEdge cutWeight wrap32
  simp only [hw]
  rw [h4, h5, hpb]
  by_cases ha : hg.partID hn = -1
  · simp only [ha, ne_eq, not_true_eq_false, if_false, false_and, hb, not_false_eq_true,
      true_and]
    by_cases hmb0 : m b = 0
    · simp only [hmb0, if_true]
      split_ifs <;> first | omega | contradiction
    · simp only [hmb0, if_false]
      split_ifs <;> first | omega | contradiction
  · have hpa := h2 _ ha
    simp only [if_neg (Ne.symm hab), add_zero] at hpa
    rw [hpa]
    simp only [ne_eq, ha, not_false_eq_true, if_true, true_and, hb]
    by_cases hmb0 : m b = 0
    · simp only [hmb0, if_true]
      by_cases hma0 : m (hg.partID hn) = 0
      · simp only [hma0, if_true]
        split_ifs <;> omega
      · simp only [hma0, if_false]
        split_ifs <;> omega
    · simp only [hmb0, if_false]
      by_cases hma0 : m (hg.partID hn) = 0
      · simp only [hma0, if_true]
        split_ifs <;> omega
      · simp only [hma0, if_false]
        split_ifs <;> omega

theorem foldl_cutAfterEdge (hg hg' : Hypergraph) (a b : Int) (inc : Nat → Bool) (L : List Nat)
    (h1 : ∀ e ∈ L, inc e = true →
      ∀ c, cutAfterEdge hg' a b c e = c + (cutWeight hg' e - cutWeight hg e))
    (h2 : ∀ e ∈ L, inc e = false → cutWeight hg' e = cutWeight hg e) (c : Int) :
    (L.filter inc).foldl (cutAfterEdge hg' a b) c =
      c + ((L.map (cutWeight hg')).sum - (L.map (cutWeight hg)).sum) := by
  induction L generalizing c with
  | nil => simp
  | cons e L ih =>
    have ih' := ih (fun x hx => h1 x (List.mem_cons_of_mem _ hx))
      (fun x hx => h2 x (List.mem_cons_of_mem _ hx))
    by_cases he : inc e = true
    · rw [List.filter_cons_of_pos he, List.foldl_cons, ih', h1 e (List.mem_cons_self _ _) he]
      simp only [List.map_cons, List.sum_cons]
      omega
    · have he' : inc e = false := by simpa using he
      rw [List.filter_cons_of_neg he, ih', List.map_cons, List.map_cons, List.sum_cons,
        List.sum_cons, h2 e (List.mem_cons_self _ _) he']
      omega

theorem cut_tracked (hg : Hypergraph) (hn : Nat) (b : Int)
    (wf : hg.WellFormed) (hc : hg.Consistent) (hab : hg.partID hn ≠ b) (hb : b ≠ -1) :
    ((hg.changeNodePart hn (hg.partID hn) b).incidentEdges hn).foldl
        (cutAfterEdge (hg.changeNodePart hn (hg.partID hn) b) (hg.partID hn) b)
        (hyperedgeCut hg)
      = hyperedgeCut (hg.changeNodePart hn (hg.partID hn) b) := by
  unfold Hypergraph.incidentEdges
  rw [foldl_cutAfterEdge hg]
  · rw [hyperedgeCut_eq, hyperedgeCut_eq, changeNodePart_edges]
    omega
  · intro e _ hinc c
    have hmem : hn ∈ hg.pins e := by simpa [changeNodePart_pins] using hinc
    exact cutAfterEdge_correct hg hn b e wf hc hmem hab hb c
  · intro e _ hinc
    have hmem : hn ∉ hg.pins e := by simpa [changeNodePart_pins] using hinc
    unfold cutWeight
    simp only [Hypergraph.changeNodePart, hmem, if_false]

theorem calc_current_cut (s : InitialPartitionerBase) (hn : Nat) (a b : Int) :
    (calculateBisectionCutAfterAssignment s hn a b).current_cut =
      (s._hg.incidentEdges hn).foldl (cutAfterEdge s._hg a b) s.current_cut := by
  unfold calculateBisectionCutAfterAssignment
  split <;> rfl

theorem calc_cutInv (s : InitialPartitionerBase) (hn : Nat) (b : Int) (h : CutInv s)
    (hab : s._hg.partID hn ≠ b) (hb : b ≠ -1) :
    CutInv (calculateBisectionCutAfterAssignment
      { s with _hg := s._hg.changeNodePart hn (s._hg.partID hn) b } hn (s._hg.partID hn) b) := by
  obtain ⟨wf, hc, hcut⟩ := h
  refine ⟨?_, ?_, ?_⟩
  · rw [calc_hg]; exact wf
  · rw [calc_hg]; exact changeNodePart_consistent s._hg hn b wf hc hab
  · rw [calc_hg, calc_current_cut]
    simp only [hcut]
    exact cut_tracked s._hg hn b wf hc hab hb

theorem assign_cutInv (s : InitialPartitionerBase) (hn : Nat) (t : Int) (ht : t ≠ -1)
    (h : CutInv s) : CutInv (assignHypernodeToPartition s hn t).2 := by
  by_cases hg : assignGuard s hn t
  · by_cases h1 : s._hg.partID hn = -1
    · rw [assign_unassigned s hn t hg h1]
      have hab : s._hg.partID hn ≠ t := fun e => ht (e ▸ h1)
      have := calc_cutInv s hn t h hab ht
      rw [h1] at this
      exact this
    · by_cases h2 : s._hg.partID hn = t
      · rw [assign_rejected_same s hn t h1 h2]; exact h
      · rw [assign_moved s hn t hg h1 h2]
        exact calc_cutInv s hn t h h2 ht
  · rw [assign_rejected_guard s hn t hg]; exact h

theorem assignAll_cutInv (calls : List (Nat × Int)) (s : InitialPartitionerBase)
    (ht : ∀ c ∈ calls, c.2 ≠ -1) (h : CutInv s) : CutInv (assignAll s calls) := by
  induction calls generalizing s with
  | nil => exact h
  | cons c rest ih =>
    unfold assignAll
    rw [List.foldl_cons]
    exact ih _ (fun x hx => ht x (List.mem_cons_of_mem _ hx))
      (assign_cutInv s c.1 c.2 (ht c (List.mem_cons_self _ _)) h)

theorem parts_eq_empty (f : Nat → Int) (l : List Nat) (h : ∀ v ∈ l, f v = -1) :
    parts f l = ∅ := by
  unfold parts
  ext p
  simp only [Finset.mem_erase, List.mem_toFinset, List.mem_map, Finset.not_mem_empty,
    iff_false, not_and, not_exists]
  intro hp v hv hfv
  rw [h v hv] at hfv
  exact hp hfv.symm

theorem connectivity_eq_zero_of_unassigned (hg : Hypergraph) (wf : hg.WellFormed)
    (hc : hg.Consistent) (hun : hg.Unassigned) (he : Nat) (hlt : he < hg.edgePins.length) :
    hg.connectivity he = 0 := by
  rw [hc.2 he hlt]
  unfold Hypergraph.partsOfEdge
  rw [parts_eq_empty _ _ (fun v hv => hun v ((wf.2 he hlt).2 v hv))]
  rfl

theorem hyperedgeCut_eq_zero_of_unassigned (hg : Hypergraph) (wf : hg.WellFormed)
    (hc : hg.Consistent) (hun : hg.Unassigned) : hyperedgeCut hg = 0 := by
  rw [hyperedgeCut_eq]
  apply List.sum_eq_zero
  intro x hx
  obtain ⟨he, hmem, rfl⟩ := List.mem_map.mp hx
  have hlt : he < hg.edgePins.length := List.mem_range.mp hmem
  unfold cutWeight
  rw [connectivity_eq_zero_of_unassigned hg wf hc hun he hlt]
  simp

theorem create_cutInv (hypergraph : Hypergraph) (config : Configuration) (stat : Int)
    (wf : hypergraph.WellFormed) (hc : hypergraph.Consistent) (hun : hypergraph.Unassigned) :
    CutInv (create hypergraph config stat) :=
  ⟨wf, hc, (hyperedgeCut_eq_zero_of_unassigned hypergraph wf hc hun).symm⟩

theorem unpartitioned_unassigned (n : Nat) (nw : Nat → Int) (ep : List (List Nat))
    (ew : Nat → Int) : (Hypergraph.unpartitioned n nw ep ew).Unassigned := fun _ _ => rfl

theorem unpartitioned_consistent (n : Nat) (nw : Nat → Int) (ep : List (List Nat))
    (ew : Nat → Int) : (Hypergraph.unpartitioned n nw ep ew).Consistent := by
  constructor
  · intro he _ p hp
    show 0 = cnt (fun _ => (-1 : Int)) _ p
    unfold cnt
    symm
    rw [List.countP_eq_zero]
    intro a _
    simpa using hp.symm
  · intro he _
    show 0 = (parts (fun _ => (-1 : Int)) _).card
    rw [parts_eq_empty _ _ (fun _ _ => rfl)]
    rfl

/-- Claim C1 (cut-tracking correctness).  On a freshly constructed engine over a well-formed
hypergraph whose pin counts and connectivities are consistent and in which no node is assigned,
after any finite sequence of calls of `assignHypernodeToPartition` with real target parts
(re-assignments included, whatever each call returns, whatever `k` and the bounds are), the
tracked `current_cut` equals the cut recomputed from scratch on the final hypergraph, that is
the sum of the weights of the hyperedges with connectivity at least 2. -/
theorem current_cut_eq_hyperedgeCut_after_assignments (hypergraph : Hypergraph)
    (config : Configuration) (stat : Int)
    (wf : hypergraph.WellFormed) (hc : hypergraph.Consistent) (hun : hypergraph.Unassigned)
    (calls : List (Nat × Int)) (ht : ∀ c ∈ calls, c.2 ≠ -1) :
    (assignAll (create hypergraph config stat) calls).current_cut =
      hyperedgeCut (assignAll (create hypergraph config stat) calls)._hg :=
  (assignAll_cutInv calls _ ht (create_cutInv hypergraph config stat wf hc hun)).2.2

theorem rollbackLoop_pending (best : Nat) (R : List node_assignment) (rm : node_assignment)
    (rest : List node_assignment) (hg : Hypergraph) (cur : Nat) (fr tp : Int)
    (hcur : cur ≠ best) (hmax : cur ≠ maxHypernodeID)
    (hR : ∀ r ∈ R, r.hn ≠ best ∧ r.hn ≠ maxHypernodeID) (hrm : rm.hn = best) :
    rollbackLoop best hg cur fr tp (R ++ rm :: rest) =
      (R.foldl undoAssignment (undoAssignment hg { hn := cur, from_part := fr, to_part := tp }),
        rest) := by
  induction R generalizing hg cur fr tp with
  | nil =>
    simp only [List.nil_append, List.foldl_nil]
    rw [rollbackLoop, if_pos hcur, if_pos hmax]
    cases rest with
    | nil => rfl
    | cons x xs =>
      rw [rollbackLoop, if_neg (not_not.mpr hrm)]
      rfl
  | cons r R ih =>
    simp only [List.cons_append, List.foldl_cons]
    rw [rollbackLoop, if_pos hcur, if_pos hmax]
    have hr := hR r (List.mem_cons_self _ _)
    rw [ih _ r.hn r.from_part r.to_part hr.1 hr.2
      (fun x hx => hR x (List.mem_cons_of_mem _ hx))]
    rfl

theorem rollbackLoop_start (best : Nat) (R : List node_assignment) (rm : node_assignment)
    (rest : List node_assignment) (hg : Hypergraph) (fr tp : Int)
    (hbest : best ≠ maxHypernodeID)
    (hR : ∀ r ∈ R, r.hn ≠ best ∧ r.hn ≠ maxHypernodeID) (hrm : rm.hn = best) :
    rollbackLoop best hg maxHypernodeID fr tp (R ++ rm :: rest) =
      (R.foldl undoAssignment hg, rest) := by
  cases R with
  | nil =>
    simp only [List.nil_append, List.foldl_nil]
    rw [rollbackLoop, if_pos (Ne.symm hbest), if_neg (not_not.mpr rfl)]
    cases rest with
    | nil => rfl
    | cons x xs =>
      rw [rollbackLoop, if_neg (not_not.mpr hrm)]
  | cons r R =>
    simp only [List.cons_append, List.foldl_cons]
    rw [rollbackLoop, if_pos (Ne.symm hbest), if_neg (not_not.mpr rfl)]
    have hr := hR r (List.mem_cons_self _ _)
    rw [rollbackLoop_pending best R rm rest hg r.hn r.from_part r.to_part hr.1 hr.2
      (fun x hx => hR x (List.mem_cons_of_mem _ hx)) hrm]

theorem changeNodePart_undo_set (hg : Hypergraph) (hn : Nat) (b : Int)
    (ha : hg.partID hn = -1) (hb : b ≠ -1) :
    (hg.setNodePart hn b).changeNodePart hn b (-1) = hg := by
  have hb' : -1 ≠ b := fun h => hb h.symm
  have hpins : ∀ he, (hg.setNodePart hn b).pins he = hg.pins he := fun _ => rfl
  apply Hypergraph.ext
  · rfl
  · rfl
  · rfl
  · rfl
  · funext v
    by_cases hv : v = hn
    · subst hv; simp [Hypergraph.setNodePart, Hypergraph.changeNodePart, ha]
    · simp [Hypergraph.setNodePart, Hypergraph.changeNodePart, Function.update_noteq hv]
  · funext p
    by_cases hp : p = b
    · subst hp; simp [Hypergraph.setNodePart, Hypergraph.changeNodePart, hb]
    · simp [Hypergraph.setNodePart, Hypergraph.changeNodePart, hp]
  · funext he p
    simp only [Hypergraph.changeNodePart, hpins]
    simp only [Hypergraph.setNodePart, Hypergraph.changeNodePart]
    by_cases hmem : hn ∈ hg.pins he
    · by_cases hp : p = b
      · subst hp; simp [hmem, hb]
      · simp [hmem, hp]
    · simp [hmem]
  · funext he
    simp only [Hypergraph.changeNodePart, hpins]
    simp only [Hypergraph.setNodePart, Hypergraph.changeNodePart]
    by_cases hmem : hn ∈ hg.pins he
    · by_cases hz : hg.pinCountInPart he b = 0
      · simp [hmem, hb, hb', hz]
      · simp [hmem, hb, hb', hz]
    · simp [hmem]

theorem assign_config (s : InitialPartitionerBase) (hn : Nat) (t : Int) :
    (assignHypernodeToPartition s hn t).2._config = s._config := by
  by_cases hg : assignGuard s hn t
  · by_cases h1 : s._hg.partID hn = -1
    · rw [assign_unassigned s hn t hg h1, calc_config]
    · by_cases h2 : s._hg.partID hn = t
      · rw [assign_rejected_same s hn t h1 h2]
      · rw [assign_moved s hn t hg h1 h2, calc_config]
  · rw [assign_rejected_guard s hn t hg]

theorem assign_numNodes (s : InitialPartitionerBase) (hn : Nat) (t : Int) :
    (assignHypernodeToPartition s hn t).2._hg.numNodes = s._hg.numNodes := by
  by_cases hg : assignGuard s hn t
  · by_cases h1 : s._hg.partID hn = -1
    · rw [assign_unassigned s hn t hg h1, calc_hg]; rfl
    · by_cases h2 : s._hg.partID hn = t
      · rw [assign_rejected_same s hn t h1 h2]
      · rw [assign_moved s hn t hg h1 h2, calc_hg]; rfl
  · rw [assign_rejected_guard s hn t hg]

theorem changeNodePart_partID_other (hg : Hypergraph) (hn : Nat) (a b : Int) (v : Nat)
    (hv : v ≠ hn) : (hg.changeNodePart hn a b).partID v = hg.partID v := by
  simp [Hypergraph.changeNodePart, Function.update_noteq hv]

theorem assign_partID_other (s : InitialPartitionerBase) (hn : Nat) (t : Int) (v : Nat)
    (hv : v ≠ hn) : (assignHypernodeToPartition s hn t).2._hg.partID v = s._hg.partID v := by
  by_cases hg : assignGuard s hn t
  · by_cases h1 : s._hg.partID hn = -1
    · rw [assign_unassigned s hn t hg h1, calc_hg]
      exact changeNodePart_partID_other _ _ _ _ _ hv
    · by_cases h2 : s._hg.partID hn = t
      · rw [assign_rejected_same s hn t h1 h2]
      · rw [assign_moved s hn t hg h1 h2, calc_hg]
        exact changeNodePart_partID_other _ _ _ _ _ hv
  · rw [assign_rejected_guard s hn t hg]

theorem assignAll_nil (s : InitialPartitionerBase) : assignAll s [] = s := rfl

theorem assignAll_cons (s : InitialPartitionerBase) (c : Nat × Int) (rest : List (Nat × Int)) :
    assignAll s (c :: rest) = assignAll (assignHypernodeToPartition s c.1 c.2).2 rest := rfl

theorem assignAll_append (s : InitialPartitionerBase) (xs ys : List (Nat × Int)) :
    assignAll s (xs ++ ys) = assignAll (assignAll s xs) ys := by
  unfold assignAll
  rw [List.foldl_append]

theorem assignAll_snoc (s : InitialPartitionerBase) (xs : List (Nat × Int)) (c : Nat × Int) :
    assignAll s (xs ++ [c]) = (assignHypernodeToPartition (assignAll s xs) c.1 c.2).2 := by
  rw [assignAll_append]; rfl

theorem assignAll_config (calls : List (Nat × Int)) (s : InitialPartitionerBase) :
    (assignAll s calls)._config = s._config := by
  induction calls generalizing s with
  | nil => rfl
  | cons c rest ih => rw [assignAll_cons, ih, assign_config]

theorem assignAll_numNodes (calls : List (Nat × Int)) (s : InitialPartitionerBase) :
    (assignAll s calls)._hg.numNodes = s._hg.numNodes := by
  induction calls generalizing s with
  | nil => rfl
  | cons c rest ih => rw [assignAll_cons, ih, assign_numNodes]

theorem assignAll_partID_other (calls : List (Nat × Int)) (s : InitialPartitionerBase) (v : Nat)
    (hv : v ∉ calls.map Prod.fst) : (assignAll s calls)._hg.partID v = s._hg.partID v := by
  induction calls generalizing s with
  | nil => rfl
  | cons c rest ih =>
    simp only [List.map_cons, List.mem_cons, not_or] at hv
    rw [assignAll_cons, ih _ hv.2, assign_partID_other s c.1 c.2 v hv.1]

theorem acceptedFeasible_append (xs ys : List (Nat × Int)) (s : InitialPartitionerBase) :
    acceptedFeasible s (xs ++ ys) =
      (acceptedFeasible s xs && acceptedFeasible (assignAll s xs) ys) := by
  induction xs generalizing s with
  | nil => simp [acceptedFeasible, assignAll_nil]
  | cons c rest ih =>
    rw [List.cons_append, acceptedFeasible, ih, assignAll_cons, acceptedFeasible]
    simp only [Bool.and_assoc]

theorem assignOnce_of_append (s : InitialPartitionerBase) (xs ys : List (Nat × Int))
    (h : AssignOnce s (xs ++ ys)) : AssignOnce s xs := by
  obtain ⟨h1, h2, h3⟩ := h
  refine ⟨?_, ?_, ?_⟩
  · rw [List.map_append] at h1
    exact (List.nodup_append.mp h1).1
  · intro c hc
    exact h2 c (List.mem_append_left _ hc)
  · rw [acceptedFeasible_append, Bool.and_eq_true] at h3
    exact h3.1

/-- What one further call of an assign-once sequence does: the node is still unassigned, the
call is accepted, the node is set to the target part and the record is pushed. -/
theorem assignOnce_step (s0 : InitialPartitionerBase) (hun : s0._hg.Unassigned)
    (calls : List (Nat × Int)) (c : Nat × Int) (h : AssignOnce s0 (calls ++ [c])) :
    (assignAll s0 calls)._hg.partID c.1 = -1 ∧ c.1 < s0._hg.numNodes ∧ c.2 ≠ -1 ∧
    assignAll s0 (calls ++ [c]) =
      calculateBisectionCutAfterAssignment
        { assignAll s0 calls with _hg := (assignAll s0 calls)._hg.setNodePart c.1 c.2 }
        c.1 (-1) c.2 ∧
    isFeasibleSolution ((assignAll s0 calls)._hg.setNodePart c.1 c.2)
      (assignAll s0 calls)._config = true := by
  obtain ⟨h1, h2, h3⟩ := h
  have hc2 : c.2 ≠ -1 := h2 c (by simp)
  rw [acceptedFeasible_append, Bool.and_eq_true] at h3
  have h4 := h3.2
  simp only [acceptedFeasible, Bool.and_true, Bool.and_eq_true] at h4
  obtain ⟨hacc, hfeas⟩ := h4
  have hguard : assignGuard (assignAll s0 calls) c.1 c.2 := by
    by_contra hng
    rw [assign_rejected_guard _ _ _ hng] at hacc
    exact absurd hacc (by simp)
  have hlt : c.1 < s0._hg.numNodes := by
    have := hguard.2
    rwa [assignAll_numNodes] at this
  have hnot : c.1 ∉ calls.map Prod.fst := by
    rw [List.map_append, List.nodup_append] at h1
    intro hmem
    exact h1.2.2 hmem (by simp)
  have hpart : (assignAll s0 calls)._hg.partID c.1 = -1 := by
    rw [assignAll_partID_other calls s0 c.1 hnot]
    exact hun c.1 hlt
  have hstep := assign_unassigned (assignAll s0 calls) c.1 c.2 hguard hpart
  refine ⟨hpart, hlt, hc2, ?_, ?_⟩
  · rw [assignAll_snoc, hstep]
  · rw [hstep, calc_hg, calc_config] at hfeas
    exact hfeas

theorem calc_feasible (s : InitialPartitionerBase) (hn : Nat) (a b : Int)
    (h : isFeasibleSolution s._hg s._config = true) :
    calculateBisectionCutAfterAssignment s hn a b =
      { s with
        current_cut := (s._hg.incidentEdges hn).foldl (cutAfterEdge s._hg a b) s.current_cut
        best_cut :=
          if (s._hg.incidentEdges hn).foldl (cutAfterEdge s._hg a b) s.current_cut < s.best_cut
          then (s._hg.incidentEdges hn).foldl (cutAfterEdge s._hg a b) s.current_cut
          else s.best_cut
        best_cut_node :=
          if (s._hg.incidentEdges hn).foldl (cutAfterEdge s._hg a b) s.current_cut < s.best_cut
          then hn else s.best_cut_node
        bisection_assignment_history :=
          { hn := hn, from_part := a, to_part := b } :: s.bisection_assignment_history } := by
  unfold calculateBisectionCutAfterAssignment
  rw [if_pos h]

/-- The fields of the engine after one further call of an assign-once sequence. -/
theorem assignOnce_snoc (s0 : InitialPartitionerBase) (hun : s0._hg.Unassigned)
    (calls : List (Nat × Int)) (c : Nat × Int) (h : AssignOnce s0 (calls ++ [c])) :
    (assignAll s0 (calls ++ [c]))._hg = (assignAll s0 calls)._hg.setNodePart c.1 c.2 ∧
    (assignAll s0 (calls ++ [c])).bisection_assignment_history =
      recordOf c :: (assignAll s0 calls).bisection_assignment_history ∧
    (assignAll s0 (calls ++ [c])).best_cut =
      (if (assignAll s0 (calls ++ [c])).current_cut < (assignAll s0 calls).best_cut
       then (assignAll s0 (calls ++ [c])).current_cut else (assignAll s0 calls).best_cut) ∧
    (assignAll s0 (calls ++ [c])).best_cut_node =
      (if (assignAll s0 (calls ++ [c])).current_cut < (assignAll s0 calls).best_cut
       then c.1 else (assignAll s0 calls).best_cut_node) := by
  obtain ⟨_, _, _, hstep, hfeas⟩ := assignOnce_step s0 hun calls c h
  rw [hstep, calc_feasible _ _ _ _ hfeas]
  exact ⟨rfl, rfl, rfl, rfl⟩

theorem assignOnce_history (s0 : InitialPartitionerBase) (hun : s0._hg.Unassigned)
    (calls : List (Nat × Int)) (h : AssignOnce s0 calls) :
    (assignAll s0 calls).bisection_assignment_history =
      (calls.map recordOf).reverse ++ s0.bisection_assignment_history := by
  induction calls using List.reverseRecOn with
  | nil => rfl
  | append_singleton l c ih =>
    rw [(assignOnce_snoc s0 hun l c h).2.1, ih (assignOnce_of_append s0 l [c] h)]
    simp

theorem assignOnce_lt (s0 : InitialPartitionerBase) (hun : s0._hg.Unassigned)
    (calls : List (Nat × Int)) (h : AssignOnce s0 calls) :
    ∀ c ∈ calls, c.1 < s0._hg.numNodes := by
  intro c hc
  obtain ⟨xs, ys, rfl⟩ := List.append_of_mem hc
  have h' : AssignOnce s0 ((xs ++ [c]) ++ ys) := by simpa using h
  exact (assignOnce_step s0 hun xs c (assignOnce_of_append s0 _ ys h')).2.1

theorem assignOnce_partID (s0 : InitialPartitionerBase) (hun : s0._hg.Unassigned)
    (calls : List (Nat × Int)) (h : AssignOnce s0 calls) :
    ∀ c ∈ calls, (assignAll s0 calls)._hg.partID c.1 = c.2 := by
  induction calls using List.reverseRecOn with
  | nil => intro c hc; simp at hc
  | append_singleton l c ih =>
    intro x hx
    rw [(assignOnce_snoc s0 hun l c h).1]
    rcases List.mem_append.mp hx with hx | hx
    · have hne : x.1 ≠ c.1 := by
        have hnd := h.1
        rw [List.map_append, List.nodup_append] at hnd
        intro heq
        exact hnd.2.2 (List.mem_map_of_mem Prod.fst hx) (by simp [heq])
      rw [Hypergraph.setNodePart, changeNodePart_partID_other _ _ _ _ _ hne]
      exact ih (assignOnce_of_append s0 l [c] h) x hx
    · have hxc : x = c := by simpa using hx
      subst hxc
      exact changeNodePart_partID _ _ _ _

theorem assignOnce_undo (s0 : InitialPartitionerBase) (hun : s0._hg.Unassigned)
    (pre post : List (Nat × Int)) (h : AssignOnce s0 (pre ++ post)) :
    (post.map recordOf).reverse.foldl undoAssignment (assignAll s0 (pre ++ post))._hg =
      (assignAll s0 pre)._hg := by
  induction post using List.reverseRecOn with
  | nil => simp
  | append_singleton l c ih =>
    have h' : AssignOnce s0 ((pre ++ l) ++ [c]) := by simpa using h
    obtain ⟨hpart, _, hc2, _, _⟩ := assignOnce_step s0 hun (pre ++ l) c h'
    have hhg := (assignOnce_snoc s0 hun (pre ++ l) c h').1
    rw [← List.append_assoc, hhg]
    simp only [List.map_append, List.map_cons, List.map_nil, List.reverse_append,
      List.reverse_cons, List.reverse_nil, List.nil_append, List.singleton_append,
      List.foldl_cons]
    have hundo : undoAssignment ((assignAll s0 (pre ++ l))._hg.setNodePart c.1 c.2) (recordOf c)
        = (assignAll s0 (pre ++ l))._hg :=
      changeNodePart_undo_set _ c.1 c.2 hpart hc2
    rw [hundo]
    exact ih (assignOnce_of_append s0 (pre ++ l) [c] h')

theorem hyperedgeCut_first (hg : Hypergraph) (wf : hg.WellFormed) (hc : hg.Consistent)
    (hun : hg.Unassigned) (hn : Nat) (b : Int) (ha : hg.partID hn = -1) (hb : b ≠ -1) :
    hyperedgeCut (hg.setNodePart hn b) = 0 := by
  have hab : hg.partID hn ≠ b := fun e => hb (e ▸ ha)
  have hset : hg.setNodePart hn b = hg.changeNodePart hn (hg.partID hn) b := by
    rw [ha]; rfl
  rw [hset, hyperedgeCut_eq]
  apply List.sum_eq_zero
  intro x hx
  obtain ⟨he, hmem, rfl⟩ := List.mem_map.mp hx
  have hlt : he < hg.edgePins.length := List.mem_range.mp hmem
  have h0 := connectivity_eq_zero_of_unassigned hg wf hc hun he hlt
  unfold cutWeight
  by_cases hin : hn ∈ hg.pins he
  · obtain ⟨m, base, _, _, _, h4, h5, _⟩ := changeNodePart_edge hg hn b he wf hc hin hab
    have h2 : ¬ 2 ≤ (hg.changeNodePart hn (hg.partID hn) b).connectivity he := by
      rw [h5]
      rw [h0] at h4
      split_ifs at h4 ⊢ <;> omega
    rw [if_neg h2]
  · have h1 : (hg.changeNodePart hn (hg.partID hn) b).connectivity he = hg.connectivity he := by
      simp only [Hypergraph.changeNodePart, hin, if_false]
    rw [h1, h0]
    simp

theorem assignOnce_marker (hypergraph : Hypergraph) (config : Configuration) (stat : Int)
    (wf : hypergraph.WellFormed) (hc : hypergraph.Consistent) (hun : hypergraph.Unassigned)
    (calls : List (Nat × Int)) (h : AssignOnce (create hypergraph config stat) calls)
    (hne : calls ≠ []) :
    ∃ pre m post, calls = pre ++ m :: post ∧
      (assignAll (create hypergraph config stat) calls).best_cut_node = m.1 ∧
      (assignAll (create hypergraph config stat) calls).best_cut =
        (assignAll (create hypergraph config stat) (pre ++ [m])).current_cut ∧
      (assignAll (create hypergraph config stat) (pre ++ [m])).current_cut <
        (assignAll (create hypergraph config stat) pre).best_cut := by
  induction calls using List.reverseRecOn with
  | nil => exact absurd rfl hne
  | append_singleton l c ih =>
    have hun0 : (create hypergraph config stat)._hg.Unassigned := hun
    obtain ⟨hhg, _, hbc, hbn⟩ := assignOnce_snoc _ hun0 l c h
    by_cases hlt : (assignAll (create hypergraph config stat) (l ++ [c])).current_cut
        < (assignAll (create hypergraph config stat) l).best_cut
    · refine ⟨l, c, [], rfl, ?_, ?_, hlt⟩
      · rw [hbn, if_pos hlt]
      · rw [hbc, if_pos hlt]
    · have hl : l ≠ [] := by
        intro hl
        subst hl
        apply hlt
        have hinv := assignAll_cutInv ([] ++ [c]) (create hypergraph config stat)
          (fun x hx => h.2.1 x hx) (create_cutInv hypergraph config stat wf hc hun)
        rw [hinv.2.2, hhg]
        have hstep := assignOnce_step _ hun0 [] c h
        have hz : hyperedgeCut (hypergraph.setNodePart c.1 c.2) = 0 :=
          hyperedgeCut_first _ wf hc hun c.1 c.2 hstep.1 hstep.2.2.1
        show hyperedgeCut (hypergraph.setNodePart c.1 c.2) < maxHyperedgeWeight
        rw [hz]
        decide
      obtain ⟨pre, m, post, hsplit, h1, h2, h3⟩ := ih (assignOnce_of_append _ l [c] h) hl
      refine ⟨pre, m, post ++ [c], ?_, ?_, ?_, h3⟩
      · rw [hsplit]; simp
      · rw [hbn, if_neg hlt, h1]
      · rw [hbc, if_neg hlt, h2]

/-- Claim C6 (rollback of an assign-once sequence).  Start from a fresh engine with rollback
enabled on a well-formed, consistent hypergraph with all nodes unassigned, and run a non-empty
sequence of accepted, feasible calls that assigns every node at most once.  Then the sequence
splits as `pre ++ m :: post` where `m` is the call that set the best-cut marker (its tracked
cut was strictly below the best cut before it, and is the final `best_cut`), and
`rollbackToBestBisectionCut` undoes, in reverse order, exactly the assignments of `post`: the
hypergraph is the one right after `m`, the nodes of `post` are unassigned again, the node of
`m` and the nodes of `pre` keep their parts, the recomputed cut equals `best_cut`, and the
records of `pre` remain in the history. -/
theorem rollback_assign_once (hypergraph : Hypergraph) (config : Configuration) (stat : Int)
    (wf : hypergraph.WellFormed) (hc : hypergraph.Consistent) (hun : hypergraph.Unassigned)
    (hrb : config.rollback = true)
    (calls : List (Nat × Int)) (hne : calls ≠ [])
    (h : AssignOnce (create hypergraph config stat) calls) :
    ∃ pre m post, calls = pre ++ m :: post ∧
      (assignAll (create hypergraph config stat) calls).best_cut_node = m.1 ∧
      (assignAll (create hypergraph config stat) calls).best_cut =
        (assignAll (create hypergraph config stat) (pre ++ [m])).current_cut ∧
      (assignAll (create hypergraph config stat) (pre ++ [m])).current_cut <
        (assignAll (create hypergraph config stat) pre).best_cut ∧
      (rollbackToBestBisectionCut (assignAll (create hypergraph config stat) calls))._hg =
        post.reverse.foldl (fun hg c => hg.changeNodePart c.1 c.2 (-1))
          (assignAll (create hypergraph config stat) calls)._hg ∧
      (rollbackToBestBisectionCut (assignAll (create hypergraph config stat) calls))._hg =
        (assignAll (create hypergraph config stat) (pre ++ [m]))._hg ∧
      (∀ c ∈ post,
        (rollbackToBestBisectionCut
          (assignAll (create hypergraph config stat) calls))._hg.partID c.1 = -1) ∧
      (∀ c ∈ pre ++ [m],
        (rollbackToBestBisectionCut
          (assignAll (create hypergraph config stat) calls))._hg.partID c.1 = c.2) ∧
      hyperedgeCut
          (rollbackToBestBisectionCut (assignAll (create hypergraph config stat) calls))._hg =
        (rollbackToBestBisectionCut (assignAll (create hypergraph config stat) calls)).best_cut ∧
      (rollbackToBestBisectionCut
          (assignAll (create hypergraph config stat) calls)).bisection_assignment_history =
        (pre.map recordOf).reverse := by
  have hun0 : (create hypergraph config stat)._hg.Unassigned := hun
  obtain ⟨pre, m, post, hsplit, hnode, hbest, hset⟩ :=
    assignOnce_marker hypergraph config stat wf hc hun calls h hne
  have hlts := assignOnce_lt _ hun0 calls h
  have hnum : (create hypergraph config stat)._hg.numNodes ≤ maxHypernodeID := wf.1
  have hhist := assignOnce_history _ hun0 calls h
  have hhist' : (assignAll (create hypergraph config stat) calls).bisection_assignment_history =
      (post.map recordOf).reverse ++ recordOf m :: (pre.map recordOf).reverse := by
    rw [hhist, hsplit]
    simp [create]
  have hmlt : m.1 < (create hypergraph config stat)._hg.numNodes :=
    hlts m (by rw [hsplit]; simp)
  have hnd : ((pre ++ m :: post).map Prod.fst).Nodup := hsplit ▸ h.1
  have hR : ∀ r ∈ (post.map recordOf).reverse,
      r.hn ≠ (assignAll (create hypergraph config stat) calls).best_cut_node ∧
        r.hn ≠ maxHypernodeID := by
    intro r hr
    rw [List.mem_reverse, List.mem_map] at hr
    obtain ⟨c, hcmem, rfl⟩ := hr
    constructor
    · rw [hnode]
      show c.1 ≠ m.1
      intro heq
      rw [List.map_append, List.map_cons, List.nodup_append] at hnd
      have h1 := (List.nodup_cons.mp hnd.2.1).1
      exact h1 (heq ▸ List.mem_map_of_mem Prod.fst hcmem)
    · have := hlts c (by rw [hsplit]; simp [hcmem])
      show c.1 ≠ maxHypernodeID
      omega
  have hloop := rollbackLoop_start
    (assignAll (create hypergraph config stat) calls).best_cut_node
    (post.map recordOf).reverse (recordOf m) (pre.map recordOf).reverse
    (assignAll (create hypergraph config stat) calls)._hg 0 0
    (by rw [hnode]; omega) hR hnode.symm
  have hflag : (assignAll (create hypergraph config stat) calls)._config.rollback = true := by
    rw [assignAll_config]; exact hrb
  have hroll : rollbackToBestBisectionCut (assignAll (create hypergraph config stat) calls) =
      { assignAll (create hypergraph config stat) calls with
        _hg := (post.map recordOf).reverse.foldl undoAssignment
          (assignAll (create hypergraph config stat) calls)._hg
        bisection_assignment_history := (pre.map recordOf).reverse
        stat_cut_increase_during_rollback :=
          (assignAll (create hypergraph config stat) calls).stat_cut_increase_during_rollback +
            (hyperedgeCut (assignAll (create hypergraph config stat) calls)._hg -
              (assignAll (create hypergraph config stat) calls).best_cut) } := by
    unfold rollbackToBestBisectionCut
    rw [if_pos hflag, hhist', ← hhist', if_pos (by rw [hhist']; simp)]
    simp only [hhist', hloop]
  have hAO : AssignOnce (create hypergraph config stat) ((pre ++ [m]) ++ post) := by
    have : (pre ++ [m]) ++ post = calls := by rw [hsplit]; simp
    rw [this]; exact h
  have hundo := assignOnce_undo _ hun0 (pre ++ [m]) post hAO
  have hcalls : (pre ++ [m]) ++ post = calls := by rw [hsplit]; simp
  rw [hcalls] at hundo
  have hAOpre := assignOnce_of_append _ (pre ++ [m]) post hAO
  have hhg : (rollbackToBestBisectionCut (assignAll (create hypergraph config stat) calls))._hg =
      (assignAll (create hypergraph config stat) (pre ++ [m]))._hg := by
    rw [hroll]; exact hundo
  refine ⟨pre, m, post, hsplit, hnode, hbest, hset, ?_, hhg, ?_, ?_, ?_, ?_⟩
  · rw [hroll]
    show (post.map recordOf).reverse.foldl undoAssignment _ = _
    rw [← List.map_reverse, List.foldl_map]
    rfl
  · intro c hcmem
    rw [hhg, assignAll_partID_other]
    · exact hun c.1 (hlts c (by rw [hsplit]; simp [hcmem]))
    · intro hmem
      rw [List.map_append, List.map_cons, List.map_nil] at hmem
      have hnd' : ((pre ++ [m]) ++ post).map Prod.fst |>.Nodup := by
        rw [hcalls]; exact h.1
      rw [List.map_append, List.nodup_append] at hnd'
      exact hnd'.2.2 (by simpa using hmem) (List.mem_map_of_mem Prod.fst hcmem)
  · intro c hcmem
    rw [hhg]
    exact assignOnce_partID _ hun0 (pre ++ [m]) hAOpre c hcmem
  · rw [hhg]
    have hinv := assignAll_cutInv (pre ++ [m]) (create hypergraph config stat)
      (fun x hx => hAOpre.2.1 x hx) (create_cutInv hypergraph config stat wf hc hun)
    rw [← hinv.2.2, ← hbest, hroll]
  · rw [hroll]

/-! ## The scenarios, evaluated -/

/-- The hypergraph of the scenario is well formed. -/
theorem scenario_wellFormed : scenarioHypergraph.WellFormed := by
  unfold Hypergraph.WellFormed
  decide

/-- The four calls of the scenario assign every node once and are all accepted and feasible. -/
theorem scenario_assignOnce : AssignOnce scenarioEngine scenarioCalls := by
  unfold AssignOnce
  decide

/-- The cut-tracking theorem applied to the four assignments of the scenario. -/
theorem current_cut_eq_hyperedgeCut_after_assignments_witness :
    scenarioHypergraph.WellFormed ∧ scenarioHypergraph.Consistent ∧
    scenarioHypergraph.Unassigned ∧ (∀ c ∈ scenarioCalls, c.2 ≠ -1) ∧
    (assignAll (create scenarioHypergraph scenarioConfig 0) scenarioCalls).current_cut =
      hyperedgeCut (assignAll (create scenarioHypergraph scenarioConfig 0) scenarioCalls)._hg :=
  ⟨scenario_wellFormed, unpartitioned_consistent _ _ _ _, unpartitioned_unassigned _ _ _ _,
    by decide,
    current_cut_eq_hyperedgeCut_after_assignments scenarioHypergraph scenarioConfig 0
      scenario_wellFormed (unpartitioned_consistent _ _ _ _) (unpartitioned_unassigned _ _ _ _)
      scenarioCalls (by decide)⟩

/-- The result theorem applied to the first assignment of the scenario: node 0 goes to part
0. -/
theorem assignHypernodeToPartition_result_witness :
    (0 : Int) ≠ -1 ∧
    (assignHypernodeToPartition scenarioEngine 0 0).1 = true ∧
    (assignHypernodeToPartition scenarioEngine 0 0).2._hg.partID 0 = 0 :=
  ⟨by decide,
    ((assignHypernodeToPartition_result scenarioEngine 0 0 (by decide)).1).mpr (by decide),
    ((assignHypernodeToPartition_result scenarioEngine 0 0 (by decide)).2 (by decide)).1⟩

/-- The rejection theorem applied to a second request to put node 0 into part 0. -/
theorem assignHypernodeToPartition_rejection_atomic_witness :
    (assignHypernodeToPartition (assignHypernodeToPartition scenarioEngine 0 0).2 0 0).1 = false ∧
    (assignHypernodeToPartition (assignHypernodeToPartition scenarioEngine 0 0).2 0 0).2 =
      (assignHypernodeToPartition scenarioEngine 0 0).2 :=
  ⟨by decide,
    assignHypernodeToPartition_rejection_atomic
      (assignHypernodeToPartition scenarioEngine 0 0).2 0 0 (by decide)⟩

/-- The no-op theorem applied to the fresh engine of the scenario, whose history is empty. -/
theorem rollbackToBestBisectionCut_noop_witness :
    (scenarioEngine._config.rollback = false ∨
      scenarioEngine.bisection_assignment_history = []) ∧
    rollbackToBestBisectionCut scenarioEngine = scenarioEngine :=
  ⟨Or.inr rfl, rollbackToBestBisectionCut_noop scenarioEngine (Or.inr rfl)⟩

/-- The node-extraction theorem applied to part 1 of the scenario after its four assignments:
the map is `[1, 2]`. -/
theorem extractPartitionAsHypergraph_nodes_witness :
    (assignAll scenarioEngine scenarioCalls)._hg.numNodes ≤ maxHypernodeID ∧
    (extractPartitionAsHypergraph (assignAll scenarioEngine scenarioCalls)._hg 1
        [] [] [] [] []).hgToExtractedPartitionMapping = [1, 2] ∧
    (extractPartitionAsHypergraph (assignAll scenarioEngine scenarioCalls)._hg 1
        [] [] [] [] []).num_hypernodes = 2 ∧
    (extractPartitionAsHypergraph (assignAll scenarioEngine scenarioCalls)._hg 1
        [] [] [] [] []).hypernode_weights = [1, 1] := by
  have h := extractPartitionAsHypergraph_nodes (assignAll scenarioEngine scenarioCalls)._hg 1
    (by decide)
  refine ⟨by decide, ?_, ?_, ?_⟩
  · rw [h.1]; decide
  · rw [h.2.2.2.1]; decide
  · rw [h.2.2.2.2, h.1]; decide

/-- The assign-once rollback theorem applied to the scenario; the tracked cuts are 0, 1, 1, 1,
and the rollback leaves node 0 in part 0, nodes 1, 2, 3 unassigned and the cut 0. -/
theorem rollback_assign_once_witness :
    scenarioHypergraph.WellFormed ∧ scenarioHypergraph.Consistent ∧
    scenarioHypergraph.Unassigned ∧ scenarioConfig.rollback = true ∧ scenarioCalls ≠ [] ∧
    AssignOnce (create scenarioHypergraph scenarioConfig 0) scenarioCalls ∧
    (∃ pre m post, scenarioCalls = pre ++ m :: post ∧
      (assignAll (create scenarioHypergraph scenarioConfig 0) scenarioCalls).best_cut_node
        = m.1 ∧
      (assignAll (create scenarioHypergraph scenarioConfig 0) scenarioCalls).best_cut =
        (assignAll (create scenarioHypergraph scenarioConfig 0) (pre ++ [m])).current_cut ∧
      (assignAll (create scenarioHypergraph scenarioConfig 0) (pre ++ [m])).current_cut <
        (assignAll (create scenarioHypergraph scenarioConfig 0) pre).best_cut ∧
      (rollbackToBestBisectionCut
          (assignAll (create scenarioHypergraph scenarioConfig 0) scenarioCalls))._hg =
        post.reverse.foldl (fun hg c => hg.changeNodePart c.1 c.2 (-1))
          (assignAll (create scenarioHypergraph scenarioConfig 0) scenarioCalls)._hg ∧
      (rollbackToBestBisectionCut
          (assignAll (create scenarioHypergraph scenarioConfig 0) scenarioCalls))._hg =
        (assignAll (create scenarioHypergraph scenarioConfig 0) (pre ++ [m]))._hg ∧
      (∀ c ∈ post,
        (rollbackToBestBisectionCut
          (assignAll (create scenarioHypergraph scenarioConfig 0)
            scenarioCalls))._hg.partID c.1 = -1) ∧
      (∀ c ∈ pre ++ [m],
        (rollbackToBestBisectionCut
          (assignAll (create scenarioHypergraph scenarioConfig 0)
            scenarioCalls))._hg.partID c.1 = c.2) ∧
      hyperedgeCut
          (rollbackToBestBisectionCut
            (assignAll (create scenarioHypergraph scenarioConfig 0) scenarioCalls))._hg =
        (rollbackToBestBisectionCut
          (assignAll (create scenarioHypergraph scenarioConfig 0) scenarioCalls)).best_cut ∧
      (rollbackToBestBisectionCut
          (assignAll (create scenarioHypergraph scenarioConfig 0)
            scenarioCalls)).bisection_assignment_history =
        (pre.map recordOf).reverse) ∧
    (assignAll scenarioEngine [(0, 0)]).current_cut = 0 ∧
    (assignAll scenarioEngine [(0, 0), (1, 1)]).current_cut = 1 ∧
    (assignAll scenarioEngine [(0, 0), (1, 1), (2, 1)]).current_cut = 1 ∧
    (assignAll scenarioEngine scenarioCalls).current_cut = 1 ∧
    (rollbackToBestBisectionCut (assignAll scenarioEngine scenarioCalls))._hg.partID 0 = 0 ∧
    (rollbackToBestBisectionCut (assignAll scenarioEngine scenarioCalls))._hg.partID 1 = -1 ∧
    (rollbackToBestBisectionCut (assignAll scenarioEngine scenarioCalls))._hg.partID 2 = -1 ∧
    (rollbackToBestBisectionCut (assignAll scenarioEngine scenarioCalls))._hg.partID 3 = -1 ∧
    hyperedgeCut (rollbackToBestBisectionCut (assignAll scenarioEngine scenarioCalls))._hg = 0 :=
  ⟨scenario_wellFormed, unpartitioned_consistent _ _ _ _, unpartitioned_unassigned _ _ _ _,
    rfl, by decide, scenario_assignOnce,
    rollback_assign_once scenarioHypergraph scenarioConfig 0 scenario_wellFormed
      (unpartitioned_consistent _ _ _ _) (unpartitioned_unassigned _ _ _ _) rfl scenarioCalls
      (by decide) scenario_assignOnce,
    by decide, by decide, by decide, by decide, by decide, by decide, by decide, by decide,
    by decide⟩

/-- C5 (defect of the code, evaluated).  On `reassignHypergraph` the four calls of
`reassignCalls` are all accepted and feasible; the best cut 0 is first reached after the first
call, with node 0 in part 0 and nodes 1 and 2 unassigned, and the marker names node 0.  The
last call re-assigns node 0, so the rollback loop meets node 0 in the first record it pops and
stops without reversing anything: the cut recomputed after the rollback is 1, not the best cut
0, and the part ids are those of the final state, not those of the best state. -/
theorem rollback_after_reassignment_misses_best_cut :
    acceptedFeasible reassignEngine reassignCalls = true ∧
    (assignAll reassignEngine [(0, 0)]).current_cut = 0 ∧
    (assignAll reassignEngine [(0, 0)])._hg.partID 0 = 0 ∧
    (assignAll reassignEngine [(0, 0)])._hg.partID 1 = -1 ∧
    (assignAll reassignEngine [(0, 0)])._hg.partID 2 = -1 ∧
    (assignAll reassignEngine reassignCalls).best_cut = 0 ∧
    (assignAll reassignEngine reassignCalls).best_cut_node = 0 ∧
    (assignAll reassignEngine reassignCalls)._config.rollback = true ∧
    hyperedgeCut (rollbackToBestBisectionCut (assignAll reassignEngine reassignCalls))._hg = 1 ∧
    (rollbackToBestBisectionCut (assignAll reassignEngine reassignCalls))._hg.partID 0 = 1 ∧
    (rollbackToBestBisectionCut (assignAll reassignEngine reassignCalls))._hg.partID 1 = 1 ∧
    (rollbackToBestBisectionCut (assignAll reassignEngine reassignCalls))._hg.partID 2 = 0 := by
  decide

/-- C9 (defect of the code, evaluated).  In `halfAssignedHypergraph` the hyperedge `{0,1}` has
connectivity 1, its first pin 0 is in part 0 and its second pin 1 is unassigned.  The
extraction of part 0 emits this hyperedge: its pins come out as the new ids `[0, 0]`, which the
id map decodes to `[0, 0]` and not to the source pins `[0, 1]`, and the pin 1 of the emitted
hyperedge lies outside part 0. -/
theorem extract_emits_hyperedge_with_pin_outside_part :
    halfAssignedHypergraph.pins 0 = [0, 1] ∧
    halfAssignedHypergraph.partID 0 = 0 ∧ halfAssignedHypergraph.partID 1 = -1 ∧
    halfAssignedHypergraph.pinCountInPart 0 0 = 1 ∧ halfAssignedHypergraph.connectivity 0 = 1 ∧
    (extractPartitionAsHypergraph halfAssignedHypergraph 0 [] [] [] [] []).hyperedgeMapper
      = [0] ∧
    (extractPartitionAsHypergraph halfAssignedHypergraph 0 [] [] [] [] []).edge_vector
      = [0, 0] ∧
    (extractPartitionAsHypergraph halfAssignedHypergraph 0
      [] [] [] [] []).hgToExtractedPartitionMapping = [0] ∧
    (extractPartitionAsHypergraph halfAssignedHypergraph 0 [] [] [] [] []).edge_vector.map
      (fun i => (extractPartitionAsHypergraph halfAssignedHypergraph 0
        [] [] [] [] []).hgToExtractedPartitionMapping.getD i 0) ≠
      halfAssignedHypergraph.pins 0 ∧
    ¬ (∀ hn ∈ halfAssignedHypergraph.pins 0, halfAssignedHypergraph.partID hn = 0) := by
  decide

/-- C10 (defect of the code, evaluated).  In `halfAssignedHypergraph` no hyperedge has all its
pins in part 0, yet the extraction of part 0 emits one hyperedge: `num_hyperedges` is 1 and
the index array is `[0, 2]`. -/
theorem extract_emits_hyperedge_not_contained_in_part :
    halfAssignedHypergraph.edges.filter
      (fun he => (halfAssignedHypergraph.pins he).all
        (fun hn => decide (halfAssignedHypergraph.partID hn = 0))) = [] ∧
    (extractPartitionAsHypergraph halfAssignedHypergraph 0 [] [] [] [] []).hyperedgeMapper
      = [0] ∧
    (extractPartitionAsHypergraph halfAssignedHypergraph 0 [] [] [] [] []).num_hyperedges = 1 ∧
    (extractPartitionAsHypergraph halfAssignedHypergraph 0 [] [] [] [] []).index_vector
      = [0, 2] := by
  decide

/-! ## Extraction shape, feasibility, the marker and the rollback frame -/

theorem extractEdgeStep_of_emits (hyper : Hypergraph) (part : Int) (mp : List (Nat × Nat))
    (st : EdgeScan) (he : Nat) (h : emitsEdge hyper part he = true) :
    extractEdgeStep hyper part mp st he =
      { edge_vector := st.edge_vector ++ (hyper.pins he).map (mapperAt mp)
        index_vector := st.index_vector ++
          [(st.edge_vector ++ (hyper.pins he).map (mapperAt mp)).length]
        hyperedgeMapper := st.hyperedgeMapper ++ [he]
        hyperedge_weights := st.hyperedge_weights ++ [hyper.edgeWeight he] } := by
  unfold emitsEdge at h
  simp only [Bool.and_eq_true, Bool.not_eq_true', decide_eq_false_iff_not] at h
  unfold extractEdgeStep
  rw [if_neg h.1, if_pos h.2]

theorem extractEdgeStep_of_not_emits (hyper : Hypergraph) (part : Int) (mp : List (Nat × Nat))
    (st : EdgeScan) (he : Nat) (h : emitsEdge hyper part he = false) :
    extractEdgeStep hyper part mp st he = st := by
  unfold emitsEdge at h
  unfold extractEdgeStep
  by_cases hc : hyper.connectivity he > 1
  · rw [if_pos hc]
  · rw [if_neg hc]
    have : isPartEdge hyper part he = false := by simpa [hc] using h
    simp [this]

theorem foldl_extractEdgeStep_none (hyper : Hypergraph) (part : Int) (mp : List (Nat × Nat))
    (L : List Nat) (st : EdgeScan) (h : ∀ he ∈ L, emitsEdge hyper part he = false) :
    L.foldl (extractEdgeStep hyper part mp) st = st := by
  induction L generalizing st with
  | nil => rfl
  | cons x xs ih =>
    rw [List.foldl_cons, extractEdgeStep_of_not_emits hyper part mp st x
      (h x (List.mem_cons_self _ _))]
    exact ih st (fun y hy => h y (List.mem_cons_of_mem _ hy))

/-- Claim C11 (extraction on a fully cut hypergraph).  If every hyperedge has connectivity at
least 2, then for every part the extraction, called with empty output vectors, emits no
hyperedge (`num_hyperedges = 0`, empty pin array, empty edge-weight array, index array `[0]`)
and its id map lists exactly the nodes assigned to the part. -/
theorem extractPartitionAsHypergraph_fully_cut (hyper : Hypergraph) (part : Int)
    (hcut : ∀ he, he < hyper.edgePins.length → 2 ≤ hyper.connectivity he) :
    (extractPartitionAsHypergraph hyper part [] [] [] [] []).num_hyperedges = 0 ∧
    (extractPartitionAsHypergraph hyper part [] [] [] [] []).edge_vector = [] ∧
    (extractPartitionAsHypergraph hyper part [] [] [] [] []).hyperedge_weights = [] ∧
    (extractPartitionAsHypergraph hyper part [] [] [] [] []).index_vector = [0] ∧
    (extractPartitionAsHypergraph hyper part [] [] [] [] []).hyperedgeMapper = [] ∧
    (extractPartitionAsHypergraph hyper part [] [] [] [] []).hgToExtractedPartitionMapping =
      hyper.nodes.filter (fun hn => decide (hyper.partID hn = part)) ∧
    (∀ hn : Nat,
      hn ∈ (extractPartitionAsHypergraph hyper part
          [] [] [] [] []).hgToExtractedPartitionMapping ↔
        hn < hyper.numNodes ∧ hyper.partID hn = part) := by
  have hnone : ∀ he ∈ hyper.edges, emitsEdge hyper part he = false := by
    intro he hmem
    have hlt : he < hyper.edgePins.length := List.mem_range.mp hmem
    have := hcut he hlt
    unfold emitsEdge
    have hgt : hyper.connectivity he > 1 := by omega
    simp [hgt]
  have hm : (extractPartitionAsHypergraph hyper part
      [] [] [] [] []).hgToExtractedPartitionMapping =
        hyper.nodes.filter (fun hn => decide (hyper.partID hn = part)) := by
    simp [extractPartitionAsHypergraph, (foldl_extractNodeStep hyper part _ _).1]
  refine ⟨?_, ?_, ?_, ?_, ?_, hm, ?_⟩
  · simp only [extractPartitionAsHypergraph]
    rw [foldl_extractEdgeStep_none hyper part _ _ _ hnone]
    rfl
  · simp only [extractPartitionAsHypergraph]
    rw [foldl_extractEdgeStep_none hyper part _ _ _ hnone]
  · simp only [extractPartitionAsHypergraph]
    rw [foldl_extractEdgeStep_none hyper part _ _ _ hnone]
  · simp only [extractPartitionAsHypergraph]
    rw [foldl_extractEdgeStep_none hyper part _ _ _ hnone]
    rfl
  · simp only [extractPartitionAsHypergraph]
    rw [foldl_extractEdgeStep_none hyper part _ _ _ hnone]
  · intro v
    rw [hm]
    simp [Hypergraph.nodes]

/-- The fully-cut extraction theorem applied to the scenario after its four assignments, whose
only hyperedge has connectivity 2; part 0 holds the nodes 0 and 3. -/
theorem extractPartitionAsHypergraph_fully_cut_witness :
    (∀ he, he < (assignAll scenarioEngine scenarioCalls)._hg.edgePins.length →
      2 ≤ (assignAll scenarioEngine scenarioCalls)._hg.connectivity he) ∧
    (extractPartitionAsHypergraph (assignAll scenarioEngine scenarioCalls)._hg 0
      [] [] [] [] []).num_hyperedges = 0 ∧
    (extractPartitionAsHypergraph (assignAll scenarioEngine scenarioCalls)._hg 0
      [] [] [] [] []).index_vector = [0] ∧
    (extractPartitionAsHypergraph (assignAll scenarioEngine scenarioCalls)._hg 0
      [] [] [] [] []).hgToExtractedPartitionMapping = [0, 3] := by
  have hcut : ∀ he, he < (assignAll scenarioEngine scenarioCalls)._hg.edgePins.length →
      2 ≤ (assignAll scenarioEngine scenarioCalls)._hg.connectivity he := by decide
  have h := extractPartitionAsHypergraph_fully_cut
    (assignAll scenarioEngine scenarioCalls)._hg 0 hcut
  refine ⟨hcut, h.1, h.2.2.2.1, ?_⟩
  rw [h.2.2.2.2.2.1]
  decide

theorem foldl_extractNodeStep_none (hyper : Hypergraph) (part : Int) (L : List Nat)
    (st : NodeScan) (h : ∀ hn ∈ L, hyper.partID hn ≠ part) :
    L.foldl (extractNodeStep hyper part) st = st := by
  induction L generalizing st with
  | nil => rfl
  | cons x xs ih =>
    rw [List.foldl_cons]
    have hx : extractNodeStep hyper part st x = st := by
      unfold extractNodeStep
      rw [if_neg (h x (List.mem_cons_self _ _))]
    rw [hx]
    exact ih st (fun y hy => h y (List.mem_cons_of_mem _ hy))

theorem emitsEdge_false_of_first_pin (hyper : Hypergraph) (part : Int) (he : Nat)
    (hne : hyper.pins he ≠ []) (hp : ∀ v ∈ hyper.pins he, hyper.partID v ≠ part) :
    emitsEdge hyper part he = false := by
  unfold emitsEdge isPartEdge
  cases hpins : hyper.pins he with
  | nil => exact absurd hpins hne
  | cons v vs =>
    have hv : hyper.partID v ≠ part := hp v (by rw [hpins]; exact List.mem_cons_self _ _)
    simp [hv]

/-- Claim C12, as amended (extraction of an empty part).  In a hypergraph whose hyperedges
each have at least one pin, all pins being valid node ids, the extraction of a part to which no
node is assigned, called with empty output vectors, is empty: `num_hypernodes = 0` and
`num_hyperedges = 0`, with no node in the id map, no node weight, no pin and no edge weight;
the index array is `[0]`. -/
theorem extractPartitionAsHypergraph_empty_part (hyper : Hypergraph) (part : Int)
    (hvalid : ∀ he, he < hyper.edgePins.length → ∀ v ∈ hyper.pins he, v < hyper.numNodes)
    (hpins : ∀ he, he < hyper.edgePins.length → hyper.pins he ≠ [])
    (hempty : ∀ v, v < hyper.numNodes → hyper.partID v ≠ part) :
    (extractPartitionAsHypergraph hyper part [] [] [] [] []).num_hypernodes = 0 ∧
    (extractPartitionAsHypergraph hyper part [] [] [] [] []).num_hyperedges = 0 ∧
    (extractPartitionAsHypergraph hyper part [] [] [] [] []).hgToExtractedPartitionMapping
      = [] ∧
    (extractPartitionAsHypergraph hyper part [] [] [] [] []).hypernode_weights = [] ∧
    (extractPartitionAsHypergraph hyper part [] [] [] [] []).edge_vector = [] ∧
    (extractPartitionAsHypergraph hyper part [] [] [] [] []).hyperedge_weights = [] ∧
    (extractPartitionAsHypergraph hyper part [] [] [] [] []).index_vector = [0] := by
  have hnodes : ∀ hn ∈ hyper.nodes, hyper.partID hn ≠ part := by
    intro hn hmem
    exact hempty hn (List.mem_range.mp hmem)
  have hnone : ∀ he ∈ hyper.edges, emitsEdge hyper part he = false := by
    intro he hmem
    have hlt : he < hyper.edgePins.length := List.mem_range.mp hmem
    exact emitsEdge_false_of_first_pin hyper part he (hpins he hlt)
      (fun v hv => hempty v (hvalid he hlt v hv))
  simp only [extractPartitionAsHypergraph]
  rw [foldl_extractNodeStep_none hyper part _ _ hnodes,
    foldl_extractEdgeStep_none hyper part _ _ _ hnone]
  exact ⟨rfl, rfl, rfl, rfl, rfl, rfl, rfl⟩

/-- The amended empty-part theorem applied to part 0 of the scenario before any assignment. -/
theorem extractPartitionAsHypergraph_empty_part_witness :
    (∀ he, he < scenarioHypergraph.edgePins.length →
      ∀ v ∈ scenarioHypergraph.pins he, v < scenarioHypergraph.numNodes) ∧
    (∀ he, he < scenarioHypergraph.edgePins.length → scenarioHypergraph.pins he ≠ []) ∧
    (∀ v, v < scenarioHypergraph.numNodes → scenarioHypergraph.partID v ≠ 0) ∧
    (extractPartitionAsHypergraph scenarioHypergraph 0 [] [] [] [] []).num_hypernodes = 0 ∧
    (extractPartitionAsHypergraph scenarioHypergraph 0 [] [] [] [] []).num_hyperedges = 0 :=
  ⟨by decide, by decide, by decide,
    (extractPartitionAsHypergraph_empty_part scenarioHypergraph 0
      (by decide) (by decide) (by decide)).1,
    (extractPartitionAsHypergraph_empty_part scenarioHypergraph 0
      (by decide) (by decide) (by decide)).2.1⟩

/-- Claim C12 as stated fails on a hyperedge without pins.  In `emptyEdgeHypergraph` no node is
assigned to part 0 and the counters are consistent, yet the extraction of part 0 emits the
empty hyperedge: its connectivity 0 is not above 1 and the pin loop, which never runs, leaves
`is_part_edge` set.  So `num_hyperedges` is 1, with one edge weight and the index array
`[0, 0]`. -/
theorem extractPartitionAsHypergraph_empty_part_counterexample :
    emptyEdgeHypergraph.Consistent ∧
    (∀ v, v < emptyEdgeHypergraph.numNodes → emptyEdgeHypergraph.partID v ≠ 0) ∧
    (extractPartitionAsHypergraph emptyEdgeHypergraph 0 [] [] [] [] []).num_hypernodes = 0 ∧
    (extractPartitionAsHypergraph emptyEdgeHypergraph 0 [] [] [] [] []).num_hyperedges = 1 ∧
    (extractPartitionAsHypergraph emptyEdgeHypergraph 0 [] [] [] [] []).hyperedge_weights
      = [1] ∧
    (extractPartitionAsHypergraph emptyEdgeHypergraph 0 [] [] [] [] []).index_vector
      = [0, 0] ∧
    ¬ ((extractPartitionAsHypergraph emptyEdgeHypergraph 0 [] [] [] [] []).num_hyperedges = 0 ∧
      (extractPartitionAsHypergraph emptyEdgeHypergraph 0 [] [] [] [] []).hyperedge_weights
        = []) :=
  ⟨unpartitioned_consistent _ _ _ _, by decide, by decide, by decide, by decide, by decide,
    by decide⟩

theorem mem_of_lookup_eq_some (l : List (Nat × Nat)) (a b : Nat)
    (h : l.lookup a = some b) : (a, b) ∈ l := by
  induction l with
  | nil => simp at h
  | cons x xs ih =>
    obtain ⟨k, v⟩ := x
    by_cases hk : a = k
    · subst hk
      simp [List.lookup] at h
      subst h
      exact List.mem_cons_self _ _
    · have hb : (a == k) = false := by simpa using hk
      rw [List.lookup, hb] at h
      exact List.mem_cons_of_mem _ (ih h)

/-- Every new id stored in the map of the node scan is below the number of nodes scanned into
the id map so far. -/
theorem foldl_extractNodeStep_mapper (hyper : Hypergraph) (part : Int) (L : List Nat)
    (st : NodeScan)
    (h : ∀ a b, (a, b) ∈ st.hypernodeMapper → b < st.hgToExtractedPartitionMapping.length) :
    ∀ a b, (a, b) ∈ (L.foldl (extractNodeStep hyper part) st).hypernodeMapper →
      b < (L.foldl (extractNodeStep hyper part) st).hgToExtractedPartitionMapping.length := by
  induction L generalizing st with
  | nil => exact h
  | cons x xs ih =>
    rw [List.foldl_cons]
    apply ih
    intro a b hab
    unfold extractNodeStep at hab ⊢
    by_cases hx : hyper.partID x = part
    · simp only [hx, if_true] at hab ⊢
      simp only [List.length_append, List.length_singleton]
      by_cases hl : (st.hypernodeMapper.lookup x).isSome = true
      · rw [if_pos hl] at hab
        have := h a b hab
        omega
      · rw [if_neg hl] at hab
        rcases List.mem_append.mp hab with hab | hab
        · have := h a b hab
          omega
        · simp only [List.mem_singleton, Prod.mk.injEq] at hab
          rw [hab.2]
          unfold wrap32
          have := Nat.mod_le st.hgToExtractedPartitionMapping.length 4294967296
          omega
    · simp only [hx, if_false] at hab ⊢
      exact h a b hab

theorem mapperAt_lt (mp : List (Nat × Nat)) (n : Nat) (h : ∀ a b, (a, b) ∈ mp → b < n)
    (hpos : 0 < n) (hn : Nat) : mapperAt mp hn < n := by
  unfold mapperAt
  cases hl : mp.lookup hn with
  | none => simpa using hpos
  | some b => simpa using h hn b (mem_of_lookup_eq_some mp hn b hl)

theorem extractEdgeStep_ok (hyper : Hypergraph) (part : Int) (mp : List (Nat × Nat)) (n : Nat)
    (st : EdgeScan) (he : Nat) (hst : EdgeScanOk n st)
    (hmp : emitsEdge hyper part he = true → ∀ v ∈ hyper.pins he, mapperAt mp v < n) :
    EdgeScanOk n (extractEdgeStep hyper part mp st he) := by
  by_cases hem : emitsEdge hyper part he = true
  · rw [extractEdgeStep_of_emits hyper part mp st he hem]
    obtain ⟨h1, h2, h3, h4, h5, h6⟩ := hst
    refine ⟨?_, ?_, ?_, ?_, ?_, ?_⟩
    · rw [List.pairwise_append]
      refine ⟨h1, List.pairwise_singleton _ _, ?_⟩
      intro a ha b hb
      simp only [List.mem_singleton] at hb
      have := h2 a ha
      rw [hb, List.length_append]
      omega
    · intro x hx
      rcases List.mem_append.mp hx with hx | hx
      · have := h2 x hx
        simp only [List.length_append]
        omega
      · simp only [List.mem_singleton] at hx
        rw [hx]
    · simp
    · simp [h4]
    · simp [h5]
    · intro x hx
      rcases List.mem_append.mp hx with hx | hx
      · exact h6 x hx
      · obtain ⟨v, hv, rfl⟩ := List.mem_map.mp hx
        exact hmp hem v hv
  · have hem' : emitsEdge hyper part he = false := by simpa using hem
    rw [extractEdgeStep_of_not_emits hyper part mp st he hem']
    exact hst

theorem foldl_extractEdgeStep_ok (hyper : Hypergraph) (part : Int) (mp : List (Nat × Nat))
    (n : Nat) (L : List Nat) (st : EdgeScan) (hst : EdgeScanOk n st)
    (hmp : ∀ he ∈ L, emitsEdge hyper part he = true →
      ∀ v ∈ hyper.pins he, mapperAt mp v < n) :
    EdgeScanOk n (L.foldl (extractEdgeStep hyper part mp) st) := by
  induction L generalizing st with
  | nil => exact hst
  | cons x xs ih =>
    rw [List.foldl_cons]
    exact ih _ (extractEdgeStep_ok hyper part mp n st x hst (hmp x (List.mem_cons_self _ _)))
      (fun y hy => hmp y (List.mem_cons_of_mem _ hy))

theorem foldl_extractEdgeStep_length_le (hyper : Hypergraph) (part : Int)
    (mp : List (Nat × Nat)) (L : List Nat) (st : EdgeScan) :
    (L.foldl (extractEdgeStep hyper part mp) st).hyperedgeMapper.length
      ≤ st.hyperedgeMapper.length + L.length := by
  induction L generalizing st with
  | nil => simp
  | cons x xs ih =>
    rw [List.foldl_cons]
    have h1 := ih (extractEdgeStep hyper part mp st x)
    have h2 : (extractEdgeStep hyper part mp st x).hyperedgeMapper.length
        ≤ st.hyperedgeMapper.length + 1 := by
      by_cases hem : emitsEdge hyper part x = true
      · rw [extractEdgeStep_of_emits hyper part mp st x hem]; simp
      · have hem' : emitsEdge hyper part x = false := by simpa using hem
        rw [extractEdgeStep_of_not_emits hyper part mp st x hem']; omega
    simp only [List.length_cons]
    omega

theorem foldl_extractEdgeStep_head (hyper : Hypergraph) (part : Int) (mp : List (Nat × Nat))
    (L : List Nat) (st : EdgeScan) (hne : st.index_vector ≠ []) :
    (L.foldl (extractEdgeStep hyper part mp) st).index_vector.head? = st.index_vector.head? := by
  induction L generalizing st with
  | nil => rfl
  | cons x xs ih =>
    rw [List.foldl_cons]
    by_cases hem : emitsEdge hyper part x = true
    · rw [ih _ (by rw [extractEdgeStep_of_emits hyper part mp st x hem]; simp),
        extractEdgeStep_of_emits hyper part mp st x hem]
      cases hiv : st.index_vector with
      | nil => exact absurd hiv hne
      | cons a as => rfl
    · have hem' : emitsEdge hyper part x = false := by simpa using hem
      rw [extractEdgeStep_of_not_emits hyper part mp st x hem']
      exact ih st hne

theorem first_pin_of_emitsEdge (hyper : Hypergraph) (part : Int) (he : Nat)
    (hem : emitsEdge hyper part he = true) (v : Nat) (hv : v ∈ hyper.pins he) :
    ∃ u, u ∈ hyper.pins he ∧ hyper.partID u = part := by
  unfold emitsEdge isPartEdge at hem
  cases hpins : hyper.pins he with
  | nil => rw [hpins] at hv; simp at hv
  | cons u us =>
    rw [hpins] at hem
    simp only [Bool.and_eq_true, decide_eq_true_eq] at hem
    exact ⟨u, List.mem_cons_self _ _, hem.2⟩

/-- Claim C19 (the extraction is a well-formed CSR structure).  For every state of a hypergraph
whose pins are valid node ids and whose node and hyperedge counts fit their 32-bit id types,
fully assigned or not, and for every part, the extraction called with empty output vectors
yields an index array that starts with 0, is non-decreasing, has `num_hyperedges + 1` entries
and ends in the length of the pin array; as many edge weights as `num_hyperedges`; as many
node weights and id-map entries as `num_hypernodes`; and only pin entries below
`num_hypernodes`. -/
theorem extractPartitionAsHypergraph_csr (hyper : Hypergraph) (part : Int)
    (hn32 : hyper.numNodes ≤ maxHypernodeID) (he32 : hyper.edgePins.length ≤ maxHyperedgeID)
    (hvalid : ∀ he, he < hyper.edgePins.length → ∀ v ∈ hyper.pins he, v < hyper.numNodes) :
    (extractPartitionAsHypergraph hyper part [] [] [] [] []).index_vector.head? = some 0 ∧
    (extractPartitionAsHypergraph hyper part [] [] [] [] []).index_vector.Pairwise
      (fun a b => a ≤ b) ∧
    (extractPartitionAsHypergraph hyper part [] [] [] [] []).index_vector.length =
      (extractPartitionAsHypergraph hyper part [] [] [] [] []).num_hyperedges + 1 ∧
    (extractPartitionAsHypergraph hyper part [] [] [] [] []).index_vector.getLast? =
      some (extractPartitionAsHypergraph hyper part [] [] [] [] []).edge_vector.length ∧
    (extractPartitionAsHypergraph hyper part [] [] [] [] []).hyperedge_weights.length =
      (extractPartitionAsHypergraph hyper part [] [] [] [] []).num_hyperedges ∧
    (extractPartitionAsHypergraph hyper part [] [] [] [] []).hypernode_weights.length =
      (extractPartitionAsHypergraph hyper part [] [] [] [] []).num_hypernodes ∧
    (extractPartitionAsHypergraph hyper part [] [] [] [] []).hgToExtractedPartitionMapping.length
      = (extractPartitionAsHypergraph hyper part [] [] [] [] []).num_hypernodes ∧
    (∀ x ∈ (extractPartitionAsHypergraph hyper part [] [] [] [] []).edge_vector,
      x < (extractPartitionAsHypergraph hyper part [] [] [] [] []).num_hypernodes) := by
  -- the node scan
  have hmap := (foldl_extractNodeStep hyper part hyper.nodes
    { hypernodeMapper := [], hgToExtractedPartitionMapping := [], hypernode_weights := [] }).1
  have hwts := (foldl_extractNodeStep hyper part hyper.nodes
    { hypernodeMapper := [], hgToExtractedPartitionMapping := [], hypernode_weights := [] }).2
  simp only [List.nil_append] at hmap hwts
  have hmapper := foldl_extractNodeStep_mapper hyper part hyper.nodes
    { hypernodeMapper := [], hgToExtractedPartitionMapping := [], hypernode_weights := [] }
    (by intro a b hab; simp at hab)
  have hlen : (hyper.nodes.filter (fun hn => decide (hyper.partID hn = part))).length
      ≤ hyper.numNodes := by
    have := List.length_filter_le (fun hn => decide (hyper.partID hn = part)) hyper.nodes
    simpa [Hypergraph.nodes] using this
  have hwrap : wrap32 (hyper.nodes.filter (fun hn => decide (hyper.partID hn = part))).length
      = (hyper.nodes.filter (fun hn => decide (hyper.partID hn = part))).length := by
    unfold wrap32
    unfold maxHypernodeID at hn32
    omega
  -- the hyperedge scan
  have hpinlt : ∀ he ∈ hyper.edges, emitsEdge hyper part he = true →
      ∀ v ∈ hyper.pins he,
        mapperAt (hyper.nodes.foldl (extractNodeStep hyper part)
          { hypernodeMapper := [], hgToExtractedPartitionMapping := [],
            hypernode_weights := [] }).hypernodeMapper v
          < (hyper.nodes.filter (fun hn => decide (hyper.partID hn = part))).length := by
    intro he hmem hem v hv
    have hlt : he < hyper.edgePins.length := List.mem_range.mp hmem
    obtain ⟨u, hu, hup⟩ := first_pin_of_emitsEdge hyper part he hem v hv
    have humem : u ∈ hyper.nodes.filter (fun hn => decide (hyper.partID hn = part)) := by
      simp only [List.mem_filter, decide_eq_true_eq, Hypergraph.nodes, List.mem_range]
      exact ⟨hvalid he hlt u hu, hup⟩
    have hpos := List.length_pos_of_mem humem
    apply mapperAt_lt _ _ _ hpos
    intro a b hab
    have := hmapper a b hab
    rwa [hmap] at this
  have hok := foldl_extractEdgeStep_ok hyper part
    (hyper.nodes.foldl (extractNodeStep hyper part)
      { hypernodeMapper := [], hgToExtractedPartitionMapping := [],
        hypernode_weights := [] }).hypernodeMapper
    (hyper.nodes.filter (fun hn => decide (hyper.partID hn = part))).length
    hyper.edges
    { edge_vector := [], index_vector := [] ++ [([] : List Nat).length], hyperedgeMapper := [],
      hyperedge_weights := [] }
    ⟨by simp, by simp, by simp, by simp, by simp, by simp⟩ hpinlt
  have hhead := foldl_extractEdgeStep_head hyper part
    (hyper.nodes.foldl (extractNodeStep hyper part)
      { hypernodeMapper := [], hgToExtractedPartitionMapping := [],
        hypernode_weights := [] }).hypernodeMapper
    hyper.edges
    { edge_vector := [], index_vector := [] ++ [([] : List Nat).length], hyperedgeMapper := [],
      hyperedge_weights := [] } (by simp)
  have hcount := foldl_extractEdgeStep_length_le hyper part
    (hyper.nodes.foldl (extractNodeStep hyper part)
      { hypernodeMapper := [], hgToExtractedPartitionMapping := [],
        hypernode_weights := [] }).hypernodeMapper
    hyper.edges
    { edge_vector := [], index_vector := [] ++ [([] : List Nat).length], hyperedgeMapper := [],
      hyperedge_weights := [] }
  have hel : hyper.edges.length = hyper.edgePins.length := by simp [Hypergraph.edges]
  rw [hel] at hcount
  change _ ≤ 0 + hyper.edgePins.length at hcount
  obtain ⟨h1, _, h3, h4, h5, h6⟩ := hok
  have hnum : wrap32 ((hyper.edges.foldl (extractEdgeStep hyper part
      (hyper.nodes.foldl (extractNodeStep hyper part)
        { hypernodeMapper := [], hgToExtractedPartitionMapping := [],
          hypernode_weights := [] }).hypernodeMapper)
      { edge_vector := [], index_vector := [] ++ [([] : List Nat).length],
        hyperedgeMapper := [], hyperedge_weights := [] }).index_vector.length - 1)
      = (hyper.edges.foldl (extractEdgeStep hyper part
      (hyper.nodes.foldl (extractNodeStep hyper part)
        { hypernodeMapper := [], hgToExtractedPartitionMapping := [],
          hypernode_weights := [] }).hypernodeMapper)
      { edge_vector := [], index_vector := [] ++ [([] : List Nat).length],
        hyperedgeMapper := [], hyperedge_weights := [] }).hyperedgeMapper.length := by
    rw [h4]
    unfold wrap32
    unfold maxHyperedgeID at he32
    omega
  simp only [extractPartitionAsHypergraph]
  rw [hnum, hmap, hwts, hwrap]
  refine ⟨?_, h1, h4, h3, h5, by simp, rfl, h6⟩
  rw [hhead]
  rfl

/-- The CSR theorem applied to part 0 of `halfAssignedHypergraph`, a partially assigned state:
the emitted pin entries `[0, 0]` are below `num_hypernodes = 1`. -/
theorem extractPartitionAsHypergraph_csr_witness :
    halfAssignedHypergraph.numNodes ≤ maxHypernodeID ∧
    halfAssignedHypergraph.edgePins.length ≤ maxHyperedgeID ∧
    (∀ he, he < halfAssignedHypergraph.edgePins.length →
      ∀ v ∈ halfAssignedHypergraph.pins he, v < halfAssignedHypergraph.numNodes) ∧
    (extractPartitionAsHypergraph halfAssignedHypergraph 0 [] [] [] [] []).index_vector.length =
      (extractPartitionAsHypergraph halfAssignedHypergraph 0 [] [] [] [] []).num_hyperedges
        + 1 ∧
    (∀ x ∈ (extractPartitionAsHypergraph halfAssignedHypergraph 0 [] [] [] [] []).edge_vector,
      x < (extractPartitionAsHypergraph halfAssignedHypergraph 0
        [] [] [] [] []).num_hypernodes) :=
  ⟨by decide, by decide, by decide,
    (extractPartitionAsHypergraph_csr halfAssignedHypergraph 0
      (by decide) (by decide) (by decide)).2.2.1,
    (extractPartitionAsHypergraph_csr halfAssignedHypergraph 0
      (by decide) (by decide) (by decide)).2.2.2.2.2.2.2⟩

theorem feasible_iff (s : InitialPartitionerBase) :
    isFeasibleSolution s._hg s._config = true ↔ Feasible s :=
  isFeasibleSolution_iff s._hg s._config

theorem changeNodePart_partWeight_le (hg : Hypergraph) (hn : Nat) (a b : Int) (p u : Int)
    (hp : p ≠ -1) (hab : a ≠ b) (hw : 0 ≤ hg.nodeWeight hn)
    (hguard : p = b → hg.partWeight b + hg.nodeWeight hn ≤ u) (hf : hg.partWeight p ≤ u) :
    (hg.changeNodePart hn a b).partWeight p ≤ u := by
  simp only [Hypergraph.changeNodePart]
  by_cases hpb : p = b
  · have hpa : ¬ (p = a ∧ a ≠ -1) := fun h => hab (h.1.symm.trans hpb)
    have hb : b ≠ -1 := hpb ▸ hp
    rw [if_neg hpa, if_pos ⟨hpb, hb⟩]
    have := hguard hpb
    rw [hpb]
    exact this
  · have hpb' : ¬ (p = b ∧ b ≠ -1) := fun h => hpb h.1
    rw [if_neg hpb']
    split_ifs <;> omega

theorem calc_feasible_iff (s : InitialPartitionerBase) (hn : Nat) (a b : Int) :
    Feasible (calculateBisectionCutAfterAssignment s hn a b) ↔ Feasible s := by
  unfold Feasible
  rw [calc_hg, calc_config]

/-- With a non-negative weight of the moved node, a call keeps a feasible state feasible. -/
theorem assign_feasible (s : InitialPartitionerBase) (hn : Nat) (t : Int)
    (hw : ∀ v, v < s._hg.numNodes → 0 ≤ s._hg.nodeWeight v) (hf : Feasible s) :
    Feasible (assignHypernodeToPartition s hn t).2 := by
  have key : ∀ a : Int, a ≠ t → assignGuard s hn t →
      Feasible { s with _hg := s._hg.changeNodePart hn a t } := by
    intro a hat hg p hp0 hpk
    exact changeNodePart_partWeight_le s._hg hn a t p _ (by omega) hat (hw hn hg.2)
      (fun hpt => by rw [hpt]; exact hg.1) (hf p hp0 hpk)
  by_cases hg : assignGuard s hn t
  · by_cases h1 : s._hg.partID hn = -1
    · rw [assign_unassigned s hn t hg h1, calc_feasible_iff]
      by_cases ht : t = -1
      · intro p hp0 hpk
        have hp : p ≠ -1 := by omega
        show (s._hg.changeNodePart hn (-1) t).partWeight p ≤ _
        have := hf p hp0 hpk
        simp only [Hypergraph.changeNodePart, ht]
        split_ifs <;> omega
      · exact key (-1) (fun h => ht h.symm) hg
    · by_cases h2 : s._hg.partID hn = t
      · rw [assign_rejected_same s hn t h1 h2]; exact hf
      · rw [assign_moved s hn t hg h1 h2, calc_feasible_iff]
        exact key _ h2 hg
  · rw [assign_rejected_guard s hn t hg]; exact hf

theorem assign_history_cases (s : InitialPartitionerBase) (hn : Nat) (t : Int) :
    ((assignHypernodeToPartition s hn t).1 = true ∧
      Feasible (assignHypernodeToPartition s hn t).2 ∧
      (assignHypernodeToPartition s hn t).2.bisection_assignment_history =
        { hn := hn, from_part := s._hg.partID hn, to_part := t } ::
          s.bisection_assignment_history) ∨
    (¬ ((assignHypernodeToPartition s hn t).1 = true ∧
        Feasible (assignHypernodeToPartition s hn t).2) ∧
      (assignHypernodeToPartition s hn t).2.bisection_assignment_history =
        s.bisection_assignment_history ∧
      (assignHypernodeToPartition s hn t).2.best_cut = s.best_cut ∧
      (assignHypernodeToPartition s hn t).2.best_cut_node = s.best_cut_node) := by
  have key : ∀ (s1 : InitialPartitionerBase) (a : Int),
      s1.bisection_assignment_history = s.bisection_assignment_history →
      s1.best_cut = s.best_cut → s1.best_cut_node = s.best_cut_node →
      (Feasible (calculateBisectionCutAfterAssignment s1 hn a t) ∧
        (calculateBisectionCutAfterAssignment s1 hn a t).bisection_assignment_history =
          { hn := hn, from_part := a, to_part := t } :: s.bisection_assignment_history) ∨
      (¬ Feasible (calculateBisectionCutAfterAssignment s1 hn a t) ∧
        (calculateBisectionCutAfterAssignment s1 hn a t).bisection_assignment_history =
          s.bisection_assignment_history ∧
        (calculateBisectionCutAfterAssignment s1 hn a t).best_cut = s.best_cut ∧
        (calculateBisectionCutAfterAssignment s1 hn a t).best_cut_node = s.best_cut_node) := by
    intro s1 a hh hb hbn
    by_cases hfe : isFeasibleSolution s1._hg s1._config = true
    · left
      refine ⟨(calc_feasible_iff s1 hn a t).mpr ((feasible_iff s1).mp hfe), ?_⟩
      rw [calc_history, if_pos hfe, hh]
    · right
      refine ⟨fun h => hfe ((feasible_iff s1).mpr ((calc_feasible_iff s1 hn a t).mp h)), ?_⟩
      unfold calculateBisectionCutAfterAssignment
      rw [if_neg hfe]
      exact ⟨hh, hb, hbn⟩
  by_cases hg : assignGuard s hn t
  · by_cases h1 : s._hg.partID hn = -1
    · rw [assign_unassigned s hn t hg h1, h1]
      rcases key { s with _hg := s._hg.setNodePart hn t } (-1) rfl rfl rfl with h | h
      · exact Or.inl ⟨rfl, h.1, h.2⟩
      · exact Or.inr ⟨fun hc => h.1 hc.2, h.2⟩
    · by_cases h2 : s._hg.partID hn = t
      · rw [assign_rejected_same s hn t h1 h2]
        exact Or.inr ⟨fun hc => absurd hc.1 (by simp), rfl, rfl, rfl⟩
      · rw [assign_moved s hn t hg h1 h2]
        rcases key { s with _hg := s._hg.changeNodePart hn (s._hg.partID hn) t }
          (s._hg.partID hn) rfl rfl rfl with h | h
        · exact Or.inl ⟨rfl, h.1, h.2⟩
        · exact Or.inr ⟨fun hc => h.1 hc.2, h.2⟩
  · rw [assign_rejected_guard s hn t hg]
    exact Or.inr ⟨fun hc => absurd hc.1 (by simp), rfl, rfl, rfl⟩

theorem assign_nodeWeight (s : InitialPartitionerBase) (hn : Nat) (t : Int) :
    (assignHypernodeToPartition s hn t).2._hg.nodeWeight = s._hg.nodeWeight := by
  by_cases hg : assignGuard s hn t
  · by_cases h1 : s._hg.partID hn = -1
    · rw [assign_unassigned s hn t hg h1, calc_hg]; rfl
    · by_cases h2 : s._hg.partID hn = t
      · rw [assign_rejected_same s hn t h1 h2]
      · rw [assign_moved s hn t hg h1 h2, calc_hg]; rfl
  · rw [assign_rejected_guard s hn t hg]

theorem assignAll_feasible (calls : List (Nat × Int)) (s : InitialPartitionerBase)
    (hw : ∀ v, v < s._hg.numNodes → 0 ≤ s._hg.nodeWeight v) (hf : Feasible s) :
    Feasible (assignAll s calls) ∧
      ∀ v, v < (assignAll s calls)._hg.numNodes →
        0 ≤ (assignAll s calls)._hg.nodeWeight v := by
  induction calls generalizing s with
  | nil => exact ⟨hf, hw⟩
  | cons c rest ih =>
    rw [assignAll_cons]
    apply ih
    · intro v hv
      rw [assign_numNodes] at hv
      rw [assign_nodeWeight]
      exact hw v hv
    · exact assign_feasible s c.1 c.2 hw hf

/-- Claim C17 (feasibility is preserved).  With non-negative node weights, and the bounds left
as they are: if every part `0..k-1` is within its upper bound before a call of
`assignHypernodeToPartition`, the same holds after the call, whatever it returns; such a call,
when it returns `true`, pushes exactly its record; a call that returns `true` without pushing
a record started from an infeasible state; and all this holds at every state reached from a
feasible one by any sequence of calls. -/
theorem assignHypernodeToPartition_preserves_feasibility (s : InitialPartitionerBase)
    (hw : ∀ v, v < s._hg.numNodes → 0 ≤ s._hg.nodeWeight v) :
    (∀ hn t, Feasible s → Feasible (assignHypernodeToPartition s hn t).2) ∧
    (∀ hn t, (assignHypernodeToPartition s hn t).2._config = s._config) ∧
    (∀ hn t, Feasible s → (assignHypernodeToPartition s hn t).1 = true →
      (assignHypernodeToPartition s hn t).2.bisection_assignment_history =
        { hn := hn, from_part := s._hg.partID hn, to_part := t } ::
          s.bisection_assignment_history) ∧
    (∀ hn t, (assignHypernodeToPartition s hn t).1 = true →
      (assignHypernodeToPartition s hn t).2.bisection_assignment_history =
        s.bisection_assignment_history → ¬ Feasible s) ∧
    (∀ calls, Feasible s →
      Feasible (assignAll s calls) ∧
      ∀ hn t, (assignHypernodeToPartition (assignAll s calls) hn t).1 = true →
        (assignHypernodeToPartition (assignAll s calls) hn t).2.bisection_assignment_history =
          { hn := hn, from_part := (assignAll s calls)._hg.partID hn, to_part := t } ::
            (assignAll s calls).bisection_assignment_history) := by
  have push : ∀ (s1 : InitialPartitionerBase),
      (∀ v, v < s1._hg.numNodes → 0 ≤ s1._hg.nodeWeight v) → Feasible s1 →
      ∀ hn t, (assignHypernodeToPartition s1 hn t).1 = true →
      (assignHypernodeToPartition s1 hn t).2.bisection_assignment_history =
        { hn := hn, from_part := s1._hg.partID hn, to_part := t } ::
          s1.bisection_assignment_history := by
    intro s1 hw1 hf1 hn t htrue
    rcases assign_history_cases s1 hn t with h | h
    · exact h.2.2
    · exact absurd ⟨htrue, assign_feasible s1 hn t hw1 hf1⟩ h.1
  refine ⟨fun hn t hf => assign_feasible s hn t hw hf, fun hn t => assign_config s hn t,
    fun hn t hf => push s hw hf hn t, ?_, ?_⟩
  · intro hn t htrue hsame hf
    have := push s hw hf hn t htrue
    rw [hsame] at this
    exact list_ne_cons_self _ _ this
  · intro calls hf
    obtain ⟨hf', hw'⟩ := assignAll_feasible calls s hw hf
    exact ⟨hf', fun hn t => push _ hw' hf' hn t⟩

/-- The feasibility theorem applied to the fresh engine of the scenario: all parts are empty,
the bounds are 2, and the first assignment is recorded. -/
theorem assignHypernodeToPartition_preserves_feasibility_witness :
    (∀ v, v < scenarioEngine._hg.numNodes → 0 ≤ scenarioEngine._hg.nodeWeight v) ∧
    Feasible scenarioEngine ∧
    Feasible (assignHypernodeToPartition scenarioEngine 0 0).2 ∧
    (assignHypernodeToPartition scenarioEngine 0 0).2.bisection_assignment_history =
      [{ hn := 0, from_part := -1, to_part := 0 }] := by
  have hw : ∀ v, v < scenarioEngine._hg.numNodes → 0 ≤ scenarioEngine._hg.nodeWeight v := by
    decide
  have hf : Feasible scenarioEngine := (feasible_iff scenarioEngine).mp (by decide)
  have h := assignHypernodeToPartition_preserves_feasibility scenarioEngine hw
  exact ⟨hw, hf, h.1 0 0 hf, h.2.2.1 0 0 hf (by decide)⟩

/-- The two outcomes of a call for the history and the marker: either its record is pushed and
the marker is lowered on a strictly smaller cut, or neither the history nor the marker
changes. -/
theorem assign_marker_cases (s : InitialPartitionerBase) (hn : Nat) (t : Int) :
    ((assignHypernodeToPartition s hn t).2.bisection_assignment_history =
        { hn := hn, from_part := s._hg.partID hn, to_part := t } ::
          s.bisection_assignment_history ∧
      (assignHypernodeToPartition s hn t).2.best_cut =
        (if (assignHypernodeToPartition s hn t).2.current_cut < s.best_cut
          then (assignHypernodeToPartition s hn t).2.current_cut else s.best_cut) ∧
      (assignHypernodeToPartition s hn t).2.best_cut_node =
        (if (assignHypernodeToPartition s hn t).2.current_cut < s.best_cut
          then hn else s.best_cut_node)) ∨
    ((assignHypernodeToPartition s hn t).2.bisection_assignment_history =
        s.bisection_assignment_history ∧
      (assignHypernodeToPartition s hn t).2.best_cut = s.best_cut ∧
      (assignHypernodeToPartition s hn t).2.best_cut_node = s.best_cut_node) := by
  have key : ∀ (s1 : InitialPartitionerBase) (a : Int),
      s1.bisection_assignment_history = s.bisection_assignment_history →
      s1.best_cut = s.best_cut → s1.best_cut_node = s.best_cut_node →
      ((calculateBisectionCutAfterAssignment s1 hn a t).bisection_assignment_history =
          { hn := hn, from_part := a, to_part := t } :: s.bisection_assignment_history ∧
        (calculateBisectionCutAfterAssignment s1 hn a t).best_cut =
          (if (calculateBisectionCutAfterAssignment s1 hn a t).current_cut < s.best_cut
            then (calculateBisectionCutAfterAssignment s1 hn a t).current_cut
            else s.best_cut) ∧
        (calculateBisectionCutAfterAssignment s1 hn a t).best_cut_node =
          (if (calculateBisectionCutAfterAssignment s1 hn a t).current_cut < s.best_cut
            then hn else s.best_cut_node)) ∨
      ((calculateBisectionCutAfterAssignment s1 hn a t).bisection_assignment_history =
          s.bisection_assignment_history ∧
        (calculateBisectionCutAfterAssignment s1 hn a t).best_cut = s.best_cut ∧
        (calculateBisectionCutAfterAssignment s1 hn a t).best_cut_node = s.best_cut_node) := by
    intro s1 a hh hb hbn
    by_cases hfe : isFeasibleSolution s1._hg s1._config = true
    · left
      rw [calc_feasible s1 hn a t hfe]
      simp only [hh, hb, hbn, and_self]
    · right
      unfold calculateBisectionCutAfterAssignment
      rw [if_neg hfe]
      exact ⟨hh, hb, hbn⟩
  by_cases hg : assignGuard s hn t
  · by_cases h1 : s._hg.partID hn = -1
    · rw [assign_unassigned s hn t hg h1, h1]
      exact key { s with _hg := s._hg.setNodePart hn t } (-1) rfl rfl rfl
    · by_cases h2 : s._hg.partID hn = t
      · rw [assign_rejected_same s hn t h1 h2]
        exact Or.inr ⟨rfl, rfl, rfl⟩
      · rw [assign_moved s hn t hg h1 h2]
        exact key { s with _hg := s._hg.changeNodePart hn (s._hg.partID hn) t }
          (s._hg.partID hn) rfl rfl rfl
  · rw [assign_rejected_guard s hn t hg]
    exact Or.inr ⟨rfl, rfl, rfl⟩

theorem recordedCuts_cons_pushed (s : InitialPartitionerBase) (c : Nat × Int)
    (rest : List (Nat × Int)) (r : node_assignment)
    (h : (assignHypernodeToPartition s c.1 c.2).2.bisection_assignment_history =
      r :: s.bisection_assignment_history) :
    recordedCuts s (c :: rest) =
      (c.1, (assignHypernodeToPartition s c.1 c.2).2.current_cut) ::
        recordedCuts (assignHypernodeToPartition s c.1 c.2).2 rest := by
  rw [recordedCuts, h]
  simp

theorem recordedCuts_cons_same (s : InitialPartitionerBase) (c : Nat × Int)
    (rest : List (Nat × Int))
    (h : (assignHypernodeToPartition s c.1 c.2).2.bisection_assignment_history =
      s.bisection_assignment_history) :
    recordedCuts s (c :: rest) = recordedCuts (assignHypernodeToPartition s c.1 c.2).2 rest := by
  rw [recordedCuts, h]
  simp

theorem markerSpec_assignAll (calls : List (Nat × Int)) (s : InitialPartitionerBase) :
    MarkerSpec s.best_cut s.best_cut_node (recordedCuts s calls)
      (assignAll s calls).best_cut (assignAll s calls).best_cut_node := by
  induction calls generalizing s with
  | nil =>
    refine ⟨le_refl _, ?_, Or.inr ⟨rfl, rfl⟩⟩
    intro x hx
    simp [recordedCuts] at hx
  | cons c rest ih =>
    rw [assignAll_cons]
    obtain ⟨h1, h2, h3⟩ := ih (assignHypernodeToPartition s c.1 c.2).2
    rcases assign_marker_cases s c.1 c.2 with ⟨hh, hb, hn⟩ | ⟨hh, hb, hn⟩
    · rw [recordedCuts_cons_pushed s c rest _ hh]
      by_cases hlt : (assignHypernodeToPartition s c.1 c.2).2.current_cut < s.best_cut
      · rw [if_pos hlt] at hb hn
        rw [hb] at h1 h3
        rw [hn] at h3
        refine ⟨by omega, ?_, Or.inl ⟨by omega, ?_⟩⟩
        · intro x hx
          rcases List.mem_cons.mp hx with hx | hx
          · rw [hx]; exact h1
          · exact h2 x hx
        · rcases h3 with ⟨hlt2, pre, r, post, hsplit, hr, hpre, hnode⟩ | ⟨heq, hnode⟩
          · refine ⟨_ :: pre, r, post, by rw [hsplit]; rfl, hr, ?_, hnode⟩
            intro x hx
            rcases List.mem_cons.mp hx with hx | hx
            · rw [hx]; exact hlt2
            · exact hpre x hx
          · exact ⟨[], _, _, rfl, heq.symm, by intro x hx; simp at hx, hnode⟩
      · rw [if_neg hlt] at hb hn
        rw [hb] at h1 h3
        rw [hn] at h3
        refine ⟨h1, ?_, ?_⟩
        · intro x hx
          rcases List.mem_cons.mp hx with hx | hx
          · rw [hx]; show _ ≤ (assignHypernodeToPartition s c.1 c.2).2.current_cut; omega
          · exact h2 x hx
        · rcases h3 with ⟨hlt2, pre, r, post, hsplit, hr, hpre, hnode⟩ | ⟨heq, hnode⟩
          · refine Or.inl ⟨hlt2, _ :: pre, r, post, by rw [hsplit]; rfl, hr, ?_, hnode⟩
            intro x hx
            rcases List.mem_cons.mp hx with hx | hx
            · rw [hx]; show _ < (assignHypernodeToPartition s c.1 c.2).2.current_cut; omega
            · exact hpre x hx
          · exact Or.inr ⟨heq, hnode⟩
    · rw [recordedCuts_cons_same s c rest hh]
      rw [hb] at h1 h3
      rw [hn] at h3
      exact ⟨h1, h2, h3⟩

/-- Claim C14 (the best-cut marker only moves down).  Across every call of
`assignHypernodeToPartition`, `best_cut` does not increase; the marker changes exactly when the
call pushes its record and the tracked cut after it is strictly below the previous `best_cut`,
and it then becomes `(current_cut, hn)`; on a tie or a larger cut, or when no record is
pushed, the marker is unchanged.  Consequently, after any sequence of calls, `best_cut` is the
minimum of the `best_cut` the sequence started with and the tracked cuts at the recorded
assignments, and if it is below the starting value then `best_cut_node` is the node of the
earliest record attaining it. -/
theorem best_cut_marker_monotone (s : InitialPartitionerBase) :
    (∀ hn t, (assignHypernodeToPartition s hn t).2.best_cut ≤ s.best_cut) ∧
    (∀ hn t,
      (assignHypernodeToPartition s hn t).2.bisection_assignment_history =
          { hn := hn, from_part := s._hg.partID hn, to_part := t } ::
            s.bisection_assignment_history →
      (assignHypernodeToPartition s hn t).2.current_cut < s.best_cut →
      (assignHypernodeToPartition s hn t).2.best_cut =
          (assignHypernodeToPartition s hn t).2.current_cut ∧
        (assignHypernodeToPartition s hn t).2.best_cut_node = hn) ∧
    (∀ hn t,
      ¬ ((assignHypernodeToPartition s hn t).2.bisection_assignment_history =
            { hn := hn, from_part := s._hg.partID hn, to_part := t } ::
              s.bisection_assignment_history ∧
          (assignHypernodeToPartition s hn t).2.current_cut < s.best_cut) →
      (assignHypernodeToPartition s hn t).2.best_cut = s.best_cut ∧
        (assignHypernodeToPartition s hn t).2.best_cut_node = s.best_cut_node) ∧
    (∀ calls, MarkerSpec s.best_cut s.best_cut_node (recordedCuts s calls)
      (assignAll s calls).best_cut (assignAll s calls).best_cut_node) := by
  refine ⟨?_, ?_, ?_, fun calls => markerSpec_assignAll calls s⟩
  · intro hn t
    rcases assign_marker_cases s hn t with ⟨_, hb, _⟩ | ⟨_, hb, _⟩
    · rw [hb]; split_ifs <;> omega
    · rw [hb]
  · intro hn t hpush hlt
    rcases assign_marker_cases s hn t with ⟨_, hb, hnode⟩ | ⟨hh, _, _⟩
    · rw [if_pos hlt] at hb hnode
      exact ⟨hb, hnode⟩
    · rw [hh] at hpush
      exact absurd hpush (list_ne_cons_self _ _)
  · intro hn t hnot
    rcases assign_marker_cases s hn t with ⟨hh, hb, hnode⟩ | ⟨_, hb, hnode⟩
    · have hlt : ¬ (assignHypernodeToPartition s hn t).2.current_cut < s.best_cut :=
        fun h => hnot ⟨hh, h⟩
      rw [if_neg hlt] at hb hnode
      exact ⟨hb, hnode⟩
    · exact ⟨hb, hnode⟩

theorem cutAfterEdge_eq (hg : Hypergraph) (a b : Int) (c : Int) (he : Nat) :
    cutAfterEdge hg a b c he =
      (if hg.connectivity he = 2 ∧ connectivityBefore hg a b he = 1 then
        (if hg.connectivity he = 1 ∧ connectivityBefore hg a b he = 2
          then c - hg.edgeWeight he else c) + hg.edgeWeight he
       else
        (if hg.connectivity he = 1 ∧ connectivityBefore hg a b he = 2
          then c - hg.edgeWeight he else c)) := rfl

/-- The reconstruction of the connectivity before the move is exact on a consistent state. -/
theorem connectivityBefore_correct (hg : Hypergraph) (hn : Nat) (b : Int) (he : Nat)
    (wf : hg.WellFormed) (hc : hg.Consistent) (hmem : hn ∈ hg.pins he)
    (hab : hg.partID hn ≠ b) (hb : b ≠ -1) :
    connectivityBefore (hg.changeNodePart hn (hg.partID hn) b) (hg.partID hn) b he =
        hg.connectivity he ∧
    ((hg.connectivity he : Int) =
      ((hg.changeNodePart hn (hg.partID hn) b).connectivity he : Int)
        + (if hg.partID hn ≠ -1 ∧ hg.pinsInPart he (hg.partID hn) = 1 then 1 else 0)
        - (if (hg.changeNodePart hn (hg.partID hn) b).pinsInPart he b = 1 then 1 else 0)) := by
  obtain ⟨m, base, h1, h2, h3, h4, h5, _, h7, h8⟩ :=
    changeNodePart_edge hg hn b he wf hc hmem hab
  have hlt := mem_pins_lt hg he hn hmem
  have hm := h7 (hg.partID hn)
  have hmb := h7 b
  have hpb := h2 b hb
  simp only [if_true] at hpb
  have hsb := h3 b
  simp only [if_true] at hsb
  constructor
  · unfold connectivityBefore wrap32
    rw [h4, h5, hpb]
    by_cases ha : hg.partID hn = -1
    · simp only [ha, ne_eq, not_true_eq_false, if_false, false_and, hb, not_false_eq_true,
        true_and]
      by_cases hmb0 : m b = 0
      · simp only [hmb0, if_true]
        split_ifs <;> first | omega | contradiction
      · simp only [hmb0, if_false]
        split_ifs <;> first | omega | contradiction
    · have hpa := h2 _ ha
      simp only [if_neg (Ne.symm hab), add_zero] at hpa
      rw [hpa]
      simp only [ne_eq, ha, not_false_eq_true, if_true, true_and, hb]
      by_cases hmb0 : m b = 0
      · simp only [hmb0, if_true]
        by_cases hma0 : m (hg.partID hn) = 0
        · simp only [hma0, if_true]
          omega
        · simp only [hma0, if_false]
          split_ifs <;> omega
      · simp only [hmb0, if_false]
        by_cases hma0 : m (hg.partID hn) = 0
        · simp only [hma0, if_true]
          split_ifs <;> omega
        · simp only [hma0, if_false]
          split_ifs <;> omega
  · rw [h4, h5, hsb]
    by_cases ha : hg.partID hn = -1
    · simp only [ha, ne_eq, not_true_eq_false, false_and, if_false, hb, not_false_eq_true,
        true_and]
      split_ifs <;> omega
    · have hsa : hg.pinsInPart he (hg.partID hn) = m (hg.partID hn) + 1 := by
        rw [← hc.1 he hlt _ ha, h1 _ ha]
        simp
      rw [hsa]
      simp only [ne_eq, ha, not_false_eq_true, true_and, hb]
      split_ifs <;> omega

theorem cut_delta (hg : Hypergraph) (hn : Nat) (b : Int)
    (wf : hg.WellFormed) (hc : hg.Consistent) (hab : hg.partID hn ≠ b) (hb : b ≠ -1)
    (c : Int) :
    ((hg.changeNodePart hn (hg.partID hn) b).incidentEdges hn).foldl
        (cutAfterEdge (hg.changeNodePart hn (hg.partID hn) b) (hg.partID hn) b) c
      = c + (hyperedgeCut (hg.changeNodePart hn (hg.partID hn) b) - hyperedgeCut hg) := by
  unfold Hypergraph.incidentEdges
  rw [foldl_cutAfterEdge hg]
  · rw [hyperedgeCut_eq, hyperedgeCut_eq, changeNodePart_edges]
  · intro e _ hinc c
    have hmem : hn ∈ hg.pins e := by simpa [changeNodePart_pins] using hinc
    exact cutAfterEdge_correct hg hn b e wf hc hmem hab hb c
  · intro e _ hinc
    have hmem : hn ∉ hg.pins e := by simpa [changeNodePart_pins] using hinc
    unfold cutWeight
    simp only [Hypergraph.changeNodePart, hmem, if_false]

/-- An applied call moves `hn` from its part to the target by the mutation primitive and then
runs the cut tracker on the result. -/
theorem assign_applied (s : InitialPartitionerBase) (hn : Nat) (t : Int) (ht : t ≠ -1)
    (happ : (assignHypernodeToPartition s hn t).1 = true) :
    s._hg.partID hn ≠ t ∧
    (assignHypernodeToPartition s hn t).2._hg = s._hg.changeNodePart hn (s._hg.partID hn) t ∧
    (assignHypernodeToPartition s hn t).2.current_cut =
      ((s._hg.changeNodePart hn (s._hg.partID hn) t).incidentEdges hn).foldl
        (cutAfterEdge (s._hg.changeNodePart hn (s._hg.partID hn) t) (s._hg.partID hn) t)
        s.current_cut := by
  by_cases hg : assignGuard s hn t
  · by_cases h2 : s._hg.partID hn = t
    · by_cases h1 : s._hg.partID hn = -1
      · exact absurd (h2.symm.trans h1) ht
      · rw [assign_rejected_same s hn t h1 h2] at happ
        exact absurd happ (by simp)
    · by_cases h1 : s._hg.partID hn = -1
      · rw [assign_unassigned s hn t hg h1, calc_hg, calc_current_cut]
        refine ⟨h2, ?_, ?_⟩
        · show s._hg.changeNodePart hn (-1) t = _
          rw [h1]
        · show ((s._hg.changeNodePart hn (-1) t).incidentEdges hn).foldl
            (cutAfterEdge (s._hg.changeNodePart hn (-1) t) (-1) t) s.current_cut = _
          rw [h1]
      · rw [assign_moved s hn t hg h1 h2, calc_hg, calc_current_cut]
        exact ⟨h2, rfl, rfl⟩
  · rw [assign_rejected_guard s hn t hg] at happ
    exact absurd happ (by simp)

/-- Claim C15 (the per-move delta rule).  On a well-formed hypergraph with consistent counters,
for every `k` and every applied move of a node `hn` from its part (possibly the unassigned
marker) to a real part `t`: for each hyperedge incident to `hn`, the `connectivity_before` that
the tracker reconstructs from the counters after the move is the connectivity of the hyperedge
before the move, stored and actual, and it is the connectivity after the move plus one if the
source is a real part that held exactly one pin of the hyperedge before the move, minus one if
the target holds exactly one pin after it; the change applied to `current_cut` is the cut
after the move minus the cut before it; and a hyperedge whose connectivity is at least 2 both
before and after leaves the running cut as it is. -/
theorem calculateBisectionCut_delta_rule (s : InitialPartitionerBase) (hn : Nat) (t : Int)
    (wf : s._hg.WellFormed) (hc : s._hg.Consistent) (ht : t ≠ -1)
    (happ : (assignHypernodeToPartition s hn t).1 = true) :
    (∀ he ∈ s._hg.incidentEdges hn,
      connectivityBefore (assignHypernodeToPartition s hn t).2._hg (s._hg.partID hn) t he =
          s._hg.connectivity he ∧
        s._hg.connectivity he = (s._hg.partsOfEdge he).card ∧
        ((s._hg.connectivity he : Int) =
          ((assignHypernodeToPartition s hn t).2._hg.connectivity he : Int)
            + (if s._hg.partID hn ≠ -1 ∧ s._hg.pinsInPart he (s._hg.partID hn) = 1
                then 1 else 0)
            - (if (assignHypernodeToPartition s hn t).2._hg.pinsInPart he t = 1
                then 1 else 0))) ∧
    (assignHypernodeToPartition s hn t).2.current_cut - s.current_cut =
      hyperedgeCut (assignHypernodeToPartition s hn t).2._hg - hyperedgeCut s._hg ∧
    (∀ he ∈ s._hg.incidentEdges hn,
      2 ≤ s._hg.connectivity he →
      2 ≤ (assignHypernodeToPartition s hn t).2._hg.connectivity he →
      ∀ c, cutAfterEdge (assignHypernodeToPartition s hn t).2._hg (s._hg.partID hn) t c he
        = c) := by
  obtain ⟨hab, hhg, hcut⟩ := assign_applied s hn t ht happ
  have hinc : ∀ he ∈ s._hg.incidentEdges hn,
      hn ∈ s._hg.pins he ∧ he < s._hg.edgePins.length := by
    intro he hmem
    unfold Hypergraph.incidentEdges at hmem
    have h := (List.mem_filter.mp hmem).2
    have hp : hn ∈ s._hg.pins he := by simpa using h
    exact ⟨hp, mem_pins_lt _ _ _ hp⟩
  rw [hhg]
  refine ⟨?_, ?_, ?_⟩
  · intro he hmem
    obtain ⟨hp, hlt⟩ := hinc he hmem
    obtain ⟨h1, h2⟩ := connectivityBefore_correct s._hg hn t he wf hc hp hab ht
    exact ⟨h1, hc.2 he hlt, h2⟩
  · rw [hcut, cut_delta s._hg hn t wf hc hab ht]
    omega
  · intro he hmem hbefore hafter c
    obtain ⟨hp, _⟩ := hinc he hmem
    rw [cutAfterEdge_correct s._hg hn t he wf hc hp hab ht c]
    unfold cutWeight
    rw [if_pos hafter, if_pos hbefore]
    show c + (s._hg.edgeWeight he - s._hg.edgeWeight he) = c
    omega

/-- The delta rule applied to the second assignment of the scenario, node 1 to part 1: the
only hyperedge goes from connectivity 1 to 2 and the running cut grows by its weight 1. -/
theorem calculateBisectionCut_delta_rule_witness :
    (assignAll scenarioEngine [(0, 0)])._hg.WellFormed ∧
    (assignAll scenarioEngine [(0, 0)])._hg.Consistent ∧ (1 : Int) ≠ -1 ∧
    (assignHypernodeToPartition (assignAll scenarioEngine [(0, 0)]) 1 1).1 = true ∧
    connectivityBefore (assignHypernodeToPartition (assignAll scenarioEngine [(0, 0)]) 1 1).2._hg
      ((assignAll scenarioEngine [(0, 0)])._hg.partID 1) 1 0 = 1 ∧
    (assignHypernodeToPartition (assignAll scenarioEngine [(0, 0)]) 1 1).2.current_cut
        - (assignAll scenarioEngine [(0, 0)]).current_cut =
      hyperedgeCut (assignHypernodeToPartition (assignAll scenarioEngine [(0, 0)]) 1 1).2._hg
        - hyperedgeCut (assignAll scenarioEngine [(0, 0)])._hg ∧
    (assignHypernodeToPartition (assignAll scenarioEngine [(0, 0)]) 1 1).2.current_cut = 1 := by
  have hinv : CutInv (assignAll scenarioEngine [(0, 0)]) :=
    assignAll_cutInv [(0, 0)] scenarioEngine (by decide)
      (create_cutInv scenarioHypergraph scenarioConfig 0 scenario_wellFormed
        (unpartitioned_consistent _ _ _ _) (unpartitioned_unassigned _ _ _ _))
  have h := calculateBisectionCut_delta_rule (assignAll scenarioEngine [(0, 0)]) 1 1
    hinv.1 hinv.2.1 (by decide) (by decide)
  refine ⟨hinv.1, hinv.2.1, by decide, by decide, ?_, h.2.1, by decide⟩
  rw [(h.1 0 (by decide)).1]
  decide

theorem assignChecked_of_lt (s : InitialPartitionerBase) (hn : Nat) (t : Int)
    (h : hn < s._hg.numNodes) :
    assignHypernodeToPartitionChecked s hn t = some (assignHypernodeToPartition s hn t) := by
  unfold assignHypernodeToPartitionChecked Hypergraph.nodeWeightChecked
    Hypergraph.partIDChecked assignHypernodeToPartition
  simp only [h, if_true, and_true]
  split_ifs <;> rfl

/-- Claim C16 (defect of the code, evaluated).  For a node id at or beyond `numNodes` the
assignment controller queries the node weight and the part id of that id before its guard
compares the id with `numNodes`: with the queries checked the call has no result at all, for
every state and every target part, instead of the result `false`.  Only if the out-of-range
queries are taken to yield some value does the guard reject the call and leave the state
unchanged; for valid ids the checked and the unchecked controller agree. -/
theorem assignHypernodeToPartition_queries_invalid_node (s : InitialPartitionerBase) (d : Nat)
    (t : Int) :
    assignHypernodeToPartitionChecked s (s._hg.numNodes + d) t = none ∧
    assignHypernodeToPartition s (s._hg.numNodes + d) t = (false, s) ∧
    (∀ hn, hn < s._hg.numNodes →
      assignHypernodeToPartitionChecked s hn t = some (assignHypernodeToPartition s hn t)) ∧
    assignHypernodeToPartitionChecked scenarioEngine 4 0 = none := by
  refine ⟨?_, ?_, fun hn h => assignChecked_of_lt s hn t h, rfl⟩
  · unfold assignHypernodeToPartitionChecked Hypergraph.nodeWeightChecked
    have h : ¬ s._hg.numNodes + d < s._hg.numNodes := by omega
    rw [if_neg h]
  · apply assign_rejected_guard
    intro hg
    have := hg.2
    omega

theorem poppedRecords_ne_nil (best : Nat) (r : node_assignment) (rest : List node_assignment) :
    poppedRecords best (r :: rest) ≠ [] := by
  rw [poppedRecords]
  split_ifs <;> simp

theorem poppedRecords_append_drop (best : Nat) (h : List node_assignment) :
    poppedRecords best h ++ h.drop (poppedRecords best h).length = h := by
  induction h with
  | nil => rfl
  | cons r rest ih =>
    rw [poppedRecords]
    by_cases hr : r.hn = best
    · rw [if_pos hr]; rfl
    · rw [if_neg hr]
      simp only [List.length_cons, List.drop_succ_cons, List.cons_append, ih]

/-- The rollback loop once a record `r` has been popped into the cursor. -/
theorem rollbackLoop_cursor (best : Nat) (rest : List node_assignment) (hg : Hypergraph)
    (r : node_assignment)
    (hvalid : ∀ x ∈ r :: rest, x.hn ≠ maxHypernodeID) :
    rollbackLoop best hg r.hn r.from_part r.to_part rest =
      ((poppedRecords best (r :: rest)).dropLast.foldl undoAssignment hg,
        (r :: rest).drop (poppedRecords best (r :: rest)).length) := by
  induction rest generalizing hg r with
  | nil =>
    rw [rollbackLoop, poppedRecords]
    split_ifs <;> rfl
  | cons r2 rest2 ih =>
    by_cases hr : r.hn = best
    · rw [rollbackLoop, if_neg (not_not.mpr hr), poppedRecords, if_pos hr]
      rfl
    · have hmax : r.hn ≠ maxHypernodeID := hvalid r (List.mem_cons_self _ _)
      rw [rollbackLoop, if_pos hr, if_pos hmax,
        ih _ r2 (fun x hx => hvalid x (List.mem_cons_of_mem _ hx))]
      have hP : poppedRecords best (r :: r2 :: rest2) = r :: poppedRecords best (r2 :: rest2) := by
        rw [poppedRecords, if_neg hr]
      rw [hP, List.dropLast_cons_of_ne_nil (poppedRecords_ne_nil best r2 rest2)]
      rfl

theorem rollbackLoop_of_max (hist : List node_assignment) (hg : Hypergraph) (fr tp : Int) :
    rollbackLoop maxHypernodeID hg maxHypernodeID fr tp hist = (hg, hist) := by
  cases hist with
  | nil => rfl
  | cons r rest => rw [rollbackLoop, if_neg (not_not.mpr rfl)]

theorem foldl_undo_partID (L : List node_assignment) (hg : Hypergraph) (v : Nat)
    (hv : v ∉ L.map node_assignment.hn) :
    (L.foldl undoAssignment hg).partID v = hg.partID v := by
  induction L generalizing hg with
  | nil => rfl
  | cons r rest ih =>
    simp only [List.map_cons, List.mem_cons, not_or] at hv
    rw [List.foldl_cons, ih _ hv.2]
    exact changeNodePart_partID_other _ _ _ _ _ hv.1

theorem rollback_marker_fields (s : InitialPartitionerBase) :
    (rollbackToBestBisectionCut s).current_cut = s.current_cut ∧
    (rollbackToBestBisectionCut s).best_cut = s.best_cut ∧
    (rollbackToBestBisectionCut s).best_cut_node = s.best_cut_node := by
  unfold rollbackToBestBisectionCut
  split_ifs <;> exact ⟨rfl, rfl, rfl⟩

theorem rollback_hg_history (s : InitialPartitionerBase) :
    ((rollbackToBestBisectionCut s)._hg,
        (rollbackToBestBisectionCut s).bisection_assignment_history) =
      if s._config.rollback = true then
        rollbackLoop s.best_cut_node s._hg maxHypernodeID 0 0 s.bisection_assignment_history
      else (s._hg, s.bisection_assignment_history) := by
  unfold rollbackToBestBisectionCut
  by_cases hflag : s._config.rollback = true
  · rw [if_pos hflag, if_pos hflag]
    cases hh : s.bisection_assignment_history with
    | nil =>
      rw [if_neg (by simp), rollbackLoop, hh]
    | cons r rest =>
      rw [if_pos (by simp)]
  · rw [if_neg hflag, if_neg hflag]

theorem rollbackLoop_popped (best : Nat) (hist : List node_assignment) (hg : Hypergraph)
    (hbest : best ≠ maxHypernodeID) (hvalid : ∀ x ∈ hist, x.hn ≠ maxHypernodeID) :
    rollbackLoop best hg maxHypernodeID 0 0 hist =
      ((poppedRecords best hist).dropLast.foldl undoAssignment hg,
        hist.drop (poppedRecords best hist).length) := by
  cases hist with
  | nil => rfl
  | cons r rest =>
    rw [rollbackLoop, if_pos (Ne.symm hbest), if_neg (not_not.mpr rfl)]
    exact rollbackLoop_cursor best rest hg r hvalid

/-- Claim C20 (the frame of the rollback).  For every state whose history holds records of real
nodes (none with the id `max()`), `rollbackToBestBisectionCut` leaves `current_cut`, `best_cut`
and `best_cut_node` unchanged, so the running cut is not brought in step with the rolled-back
hypergraph.  The history splits into the popped records and the records that remain, which
stay in their order; every popped record but the last one popped is reversed, from its `to`
back to its `from`, in the order of popping, and the last one popped is dropped without being
reversed; and the part id changes only for nodes of reversed records. -/
theorem rollbackToBestBisectionCut_frame (s : InitialPartitionerBase)
    (hvalid : ∀ r ∈ s.bisection_assignment_history, r.hn ≠ maxHypernodeID) :
    (rollbackToBestBisectionCut s).current_cut = s.current_cut ∧
    (rollbackToBestBisectionCut s).best_cut = s.best_cut ∧
    (rollbackToBestBisectionCut s).best_cut_node = s.best_cut_node ∧
    s.bisection_assignment_history =
      rollbackPopped s ++ (rollbackToBestBisectionCut s).bisection_assignment_history ∧
    (rollbackToBestBisectionCut s)._hg =
      (rollbackPopped s).dropLast.foldl undoAssignment s._hg ∧
    (∀ v, v ∉ (rollbackPopped s).dropLast.map node_assignment.hn →
      (rollbackToBestBisectionCut s)._hg.partID v = s._hg.partID v) := by
  obtain ⟨h1, h2, h3⟩ := rollback_marker_fields s
  have hres := rollback_hg_history s
  have main : (rollbackToBestBisectionCut s)._hg =
        (rollbackPopped s).dropLast.foldl undoAssignment s._hg ∧
      (rollbackToBestBisectionCut s).bisection_assignment_history =
        s.bisection_assignment_history.drop (rollbackPopped s).length := by
    unfold rollbackPopped
    by_cases hflag : s._config.rollback = true
    · rw [if_pos hflag] at hres
      by_cases hbest : s.best_cut_node = maxHypernodeID
      · rw [hbest, rollbackLoop_of_max] at hres
        rw [if_neg (fun h => h.2 hbest)]
        exact ⟨congrArg Prod.fst hres, congrArg Prod.snd hres⟩
      · rw [rollbackLoop_popped _ _ _ hbest hvalid] at hres
        rw [if_pos ⟨hflag, hbest⟩]
        exact ⟨congrArg Prod.fst hres, congrArg Prod.snd hres⟩
    · rw [if_neg hflag] at hres
      rw [if_neg (fun h => hflag h.1)]
      exact ⟨congrArg Prod.fst hres, congrArg Prod.snd hres⟩
  have hsplit : s.bisection_assignment_history =
      rollbackPopped s ++ s.bisection_assignment_history.drop (rollbackPopped s).length := by
    unfold rollbackPopped
    split_ifs
    · exact (poppedRecords_append_drop _ _).symm
    · rfl
  refine ⟨h1, h2, h3, ?_, main.1, ?_⟩
  · rw [main.2]
    exact hsplit
  · intro v hv
    rw [main.1]
    exact foldl_undo_partID _ _ v hv

/-- The frame theorem applied to the scenario after its four assignments: all four records are
popped, the records of the nodes 3, 2 and 1 are reversed, and the running cut stays at 1 while
the cut of the rolled-back hypergraph is 0. -/
theorem rollbackToBestBisectionCut_frame_witness :
    (∀ r ∈ (assignAll scenarioEngine scenarioCalls).bisection_assignment_history,
      r.hn ≠ maxHypernodeID) ∧
    rollbackPopped (assignAll scenarioEngine scenarioCalls) =
      [{ hn := 3, from_part := -1, to_part := 0 }, { hn := 2, from_part := -1, to_part := 1 },
        { hn := 1, from_part := -1, to_part := 1 }, { hn := 0, from_part := -1, to_part := 0 }] ∧
    (rollbackToBestBisectionCut (assignAll scenarioEngine scenarioCalls)).current_cut =
      (assignAll scenarioEngine scenarioCalls).current_cut ∧
    (rollbackToBestBisectionCut (assignAll scenarioEngine scenarioCalls))._hg =
      (rollbackPopped (assignAll scenarioEngine scenarioCalls)).dropLast.foldl undoAssignment
        (assignAll scenarioEngine scenarioCalls)._hg ∧
    (rollbackToBestBisectionCut (assignAll scenarioEngine scenarioCalls)).current_cut = 1 ∧
    hyperedgeCut (rollbackToBestBisectionCut (assignAll scenarioEngine scenarioCalls))._hg = 0 :=
  ⟨by decide, by decide,
    (rollbackToBestBisectionCut_frame (assignAll scenarioEngine scenarioCalls) (by decide)).1,
    (rollbackToBestBisectionCut_frame (assignAll scenarioEngine scenarioCalls)
      (by decide)).2.2.2.2.1,
    by decide, by decide⟩

/-- The marker theorem applied to the scenario: the recorded cuts are 0, 1, 1, 1, the marker is
`(0, node 0)`, the earliest record attaining the minimum. -/
theorem best_cut_marker_monotone_witness :
    recordedCuts scenarioEngine scenarioCalls = [(0, 0), (1, 1), (2, 1), (3, 1)] ∧
    (assignAll scenarioEngine scenarioCalls).best_cut = 0 ∧
    (assignAll scenarioEngine scenarioCalls).best_cut_node = 0 ∧
    MarkerSpec scenarioEngine.best_cut scenarioEngine.best_cut_node
      (recordedCuts scenarioEngine scenarioCalls)
      (assignAll scenarioEngine scenarioCalls).best_cut
      (assignAll scenarioEngine scenarioCalls).best_cut_node :=
  ⟨by decide, by decide, by decide,
    (best_cut_marker_monotone scenarioEngine).2.2.2 scenarioCalls⟩

theorem assign_edgeWeight (s : InitialPartitionerBase) (hn : Nat) (t : Int) :
    (assignHypernodeToPartition s hn t).2._hg.edgeWeight = s._hg.edgeWeight := by
  by_cases hg : assignGuard s hn t
  · by_cases h1 : s._hg.partID hn = -1
    · rw [assign_unassigned s hn t hg h1, calc_hg]; rfl
    · by_cases h2 : s._hg.partID hn = t
      · rw [assign_rejected_same s hn t h1 h2]
      · rw [assign_moved s hn t hg h1 h2, calc_hg]; rfl
  · rw [assign_rejected_guard s hn t hg]

theorem assign_edgePins (s : InitialPartitionerBase) (hn : Nat) (t : Int) :
    (assignHypernodeToPartition s hn t).2._hg.edgePins = s._hg.edgePins := by
  by_cases hg : assignGuard s hn t
  · by_cases h1 : s._hg.partID hn = -1
    · rw [assign_unassigned s hn t hg h1, calc_hg]; rfl
    · by_cases h2 : s._hg.partID hn = t
      · rw [assign_rejected_same s hn t h1 h2]
      · rw [assign_moved s hn t hg h1 h2, calc_hg]; rfl
  · rw [assign_rejected_guard s hn t hg]

theorem assign_nonNegWeights (s : InitialPartitionerBase) (hn : Nat) (t : Int)
    (h : NonNegWeights s) : NonNegWeights (assignHypernodeToPartition s hn t).2 := by
  unfold NonNegWeights
  rw [assign_edgeWeight, assign_edgePins, assign_nodeWeight, assign_numNodes]
  exact h

theorem hyperedgeCut_nonneg (hg : Hypergraph)
    (hew : ∀ he, he < hg.edgePins.length → 0 ≤ hg.edgeWeight he) : 0 ≤ hyperedgeCut hg := by
  rw [hyperedgeCut_eq]
  apply List.sum_nonneg
  intro x hx
  obtain ⟨he, hmem, rfl⟩ := List.mem_map.mp hx
  have hlt : he < hg.edgePins.length := List.mem_range.mp hmem
  unfold cutWeight
  split_ifs
  · exact hew he hlt
  · exact le_refl 0

/-- A stuck state stays stuck under every call, and no call pushes a record or moves the marker
there. -/
theorem assign_stuck (s : InitialPartitionerBase) (hn : Nat) (t : Int)
    (hw : ∀ v, v < s._hg.numNodes → 0 ≤ s._hg.nodeWeight v) (h : Stuck s) :
    Stuck (assignHypernodeToPartition s hn t).2 ∧
    (assignHypernodeToPartition s hn t).2.bisection_assignment_history =
      s.bisection_assignment_history ∧
    (assignHypernodeToPartition s hn t).2.best_cut = s.best_cut ∧
    (assignHypernodeToPartition s hn t).2.best_cut_node = s.best_cut_node := by
  obtain ⟨p0, hp0, hpk, hover, hnone⟩ := h
  have key : ∀ a : Int, a = s._hg.partID hn → assignGuard s hn t →
      Stuck { s with _hg := s._hg.changeNodePart hn a t } := by
    intro a ha hg
    have htp : t ≠ p0 := by
      intro htp
      have h1 := hg.1
      have h2 := hw hn hg.2
      rw [htp] at h1
      omega
    have hap : a ≠ p0 := ha ▸ hnone hn hg.2
    refine ⟨p0, hp0, hpk, ?_, ?_⟩
    · show _ < (s._hg.changeNodePart hn a t).partWeight p0
      simp only [Hypergraph.changeNodePart]
      rw [if_neg (fun h => htp h.1.symm), if_neg (fun h => hap h.1.symm)]
      exact hover
    · intro v hv
      show (s._hg.changeNodePart hn a t).partID v ≠ p0
      by_cases hvn : v = hn
      · rw [hvn, changeNodePart_partID]; exact htp
      · rw [changeNodePart_partID_other _ _ _ _ _ hvn]; exact hnone v hv
  have hstuck : Stuck (assignHypernodeToPartition s hn t).2 := by
    by_cases hg : assignGuard s hn t
    · by_cases h1 : s._hg.partID hn = -1
      · rw [assign_unassigned s hn t hg h1]
        have := key (-1) h1.symm hg
        obtain ⟨q, hq0, hqk, hqo, hqn⟩ := this
        exact ⟨q, hq0, by rw [calc_config]; exact hqk, by rw [calc_hg, calc_config]; exact hqo,
          by rw [calc_hg]; exact hqn⟩
      · by_cases h2 : s._hg.partID hn = t
        · rw [assign_rejected_same s hn t h1 h2]; exact ⟨p0, hp0, hpk, hover, hnone⟩
        · rw [assign_moved s hn t hg h1 h2]
          have := key _ rfl hg
          obtain ⟨q, hq0, hqk, hqo, hqn⟩ := this
          exact ⟨q, hq0, by rw [calc_config]; exact hqk,
            by rw [calc_hg, calc_config]; exact hqo, by rw [calc_hg]; exact hqn⟩
    · rw [assign_rejected_guard s hn t hg]; exact ⟨p0, hp0, hpk, hover, hnone⟩
  refine ⟨hstuck, ?_⟩
  rcases assign_history_cases s hn t with h | h
  · exfalso
    obtain ⟨q, hq0, hqk, hqo, _⟩ := hstuck
    have := h.2.1 q hq0 hqk
    omega
  · exact h.2

theorem getLast?_cons_of_ne_nil {α : Type} (a : α) (l : List α) (h : l ≠ []) :
    (a :: l).getLast? = l.getLast? := by
  cases l with
  | nil => exact absurd rfl h
  | cons b bs => simp [List.getLast?_cons_cons]

/-- Once the marker is pinned at cut 0 it stays pinned, as the tracked cut never goes below
0. -/
theorem assign_pinned (s : InitialPartitionerBase) (hn : Nat) (t : Int) (ht : t ≠ -1)
    (hinv : CutInv s) (hnn : NonNegWeights s) (h : Pinned s) :
    Pinned (assignHypernodeToPartition s hn t).2 := by
  obtain ⟨hb, r, hlast, hnode⟩ := h
  have hinv' := assign_cutInv s hn t ht hinv
  have hnn' := assign_nonNegWeights s hn t hnn
  have hcut : 0 ≤ (assignHypernodeToPartition s hn t).2.current_cut := by
    rw [hinv'.2.2]
    exact hyperedgeCut_nonneg _ hnn'.1
  have hne : s.bisection_assignment_history ≠ [] := by
    intro hnil
    rw [hnil] at hlast
    simp at hlast
  rcases assign_marker_cases s hn t with ⟨hh, hbc, hbn⟩ | ⟨hh, hbc, hbn⟩
  · have hlt : ¬ (assignHypernodeToPartition s hn t).2.current_cut < s.best_cut := by
      rw [hb]; omega
    rw [if_neg hlt] at hbc hbn
    refine ⟨hbc.trans hb, r, ?_, hbn.trans hnode⟩
    rw [hh, getLast?_cons_of_ne_nil _ _ hne]
    exact hlast
  · exact ⟨hbc.trans hb, r, by rw [hh]; exact hlast, hbn.trans hnode⟩

theorem assign_false_eq (s : InitialPartitionerBase) (hn : Nat) (t : Int)
    (h : (assignHypernodeToPartition s hn t).1 = false) :
    (assignHypernodeToPartition s hn t).2 = s := by
  by_cases hg : assignGuard s hn t
  · by_cases h1 : s._hg.partID hn = -1
    · rw [assign_unassigned s hn t hg h1] at h; exact absurd h (by simp)
    · by_cases h2 : s._hg.partID hn = t
      · rw [assign_rejected_same s hn t h1 h2]
      · rw [assign_moved s hn t hg h1 h2] at h; exact absurd h (by simp)
  · rw [assign_rejected_guard s hn t hg]

theorem assign_true_guard (s : InitialPartitionerBase) (hn : Nat) (t : Int)
    (h : (assignHypernodeToPartition s hn t).1 = true) : assignGuard s hn t := by
  by_contra hng
  rw [assign_rejected_guard s hn t hng] at h
  exact absurd h (by simp)

theorem assignAll_induction (P : InitialPartitionerBase → Prop) (calls : List (Nat × Int))
    (s : InitialPartitionerBase) (hs : P s)
    (hstep : ∀ s1 c, c ∈ calls → P s1 → P (assignHypernodeToPartition s1 c.1 c.2).2) :
    P (assignAll s calls) := by
  induction calls generalizing s with
  | nil => exact hs
  | cons c rest ih =>
    rw [assignAll_cons]
    exact ih _ (hstep s c (List.mem_cons_self _ _) hs)
      (fun s1 x hx h1 => hstep s1 x (List.mem_cons_of_mem _ hx) h1)

/-- The first applied call from the fresh, feasible engine pins the marker at cut 0. -/
theorem first_applied_pins (hypergraph : Hypergraph) (config : Configuration) (stat : Int)
    (wf : hypergraph.WellFormed) (hc : hypergraph.Consistent) (hun : hypergraph.Unassigned)
    (hnn : NonNegWeights (create hypergraph config stat))
    (hf : Feasible (create hypergraph config stat)) (hn : Nat) (t : Int) (ht : t ≠ -1)
    (happ : (assignHypernodeToPartition (create hypergraph config stat) hn t).1 = true) :
    Pinned (assignHypernodeToPartition (create hypergraph config stat) hn t).2 := by
  have hinv := create_cutInv hypergraph config stat wf hc hun
  have hinv' := assign_cutInv _ hn t ht hinv
  have hg := assign_true_guard _ hn t happ
  have hpart : hypergraph.partID hn = -1 := hun hn hg.2
  obtain ⟨_, hhg, _⟩ := assign_applied _ hn t ht happ
  have hcut : (assignHypernodeToPartition (create hypergraph config stat) hn t).2.current_cut
      = 0 := by
    rw [hinv'.2.2, hhg]
    show hyperedgeCut (hypergraph.changeNodePart hn (hypergraph.partID hn) t) = 0
    rw [hpart]
    exact hyperedgeCut_first hypergraph wf hc hun hn t hpart ht
  have hfeas := assign_feasible _ hn t hnn.2 hf
  have hpush : (assignHypernodeToPartition (create hypergraph config stat)
      hn t).2.bisection_assignment_history =
        [{ hn := hn, from_part := hypergraph.partID hn, to_part := t }] := by
    rcases assign_history_cases (create hypergraph config stat) hn t with h | h
    · exact h.2.2
    · exact absurd ⟨happ, hfeas⟩ h.1
  rcases assign_marker_cases (create hypergraph config stat) hn t with
    ⟨_, hb, hnode⟩ | ⟨hh, _, _⟩
  · have hlt : (assignHypernodeToPartition (create hypergraph config stat) hn t).2.current_cut
        < (create hypergraph config stat).best_cut := by
      rw [hcut]
      show (0 : Int) < maxHyperedgeWeight
      decide
    rw [if_pos hlt] at hb hnode
    refine ⟨hb.trans hcut, { hn := hn, from_part := hypergraph.partID hn, to_part := t }, ?_,
      hnode⟩
    rw [hpush]
    rfl
  · rw [hpush] at hh
    exact absurd hh (by simp [create])

/-- From the fresh engine on an unassigned hypergraph with non-negative weights, every run is
in one of the three phases. -/
theorem assignAll_phase (hypergraph : Hypergraph) (config : Configuration) (stat : Int)
    (wf : hypergraph.WellFormed) (hc : hypergraph.Consistent) (hun : hypergraph.Unassigned)
    (hnn : NonNegWeights (create hypergraph config stat))
    (calls : List (Nat × Int)) (ht : ∀ c ∈ calls, c.2 ≠ -1) :
    Phase (create hypergraph config stat) (assignAll (create hypergraph config stat) calls) := by
  have hstart : Phase (create hypergraph config stat) (create hypergraph config stat) := by
    by_cases hf : Feasible (create hypergraph config stat)
    · exact Or.inl ⟨rfl, hf⟩
    · right; left
      refine ⟨?_, rfl⟩
      unfold Feasible at hf
      push_neg at hf
      obtain ⟨p, hp0, hpk, hover⟩ := hf
      refine ⟨p, hp0, hpk, hover, ?_⟩
      intro v hv
      have : hypergraph.partID v = -1 := hun v hv
      show hypergraph.partID v ≠ p
      omega
  have hall := assignAll_induction
    (fun s => CutInv s ∧ NonNegWeights s ∧ Phase (create hypergraph config stat) s)
    calls (create hypergraph config stat)
    ⟨create_cutInv hypergraph config stat wf hc hun, hnn, hstart⟩
    (by
      intro s1 c hc1 hP
      obtain ⟨hinv, hnn1, hphase⟩ := hP
      have htc := ht c hc1
      refine ⟨assign_cutInv s1 c.1 c.2 htc hinv, assign_nonNegWeights s1 c.1 c.2 hnn1, ?_⟩
      rcases hphase with ⟨heq, hf⟩ | ⟨hst, hnil⟩ | hpin
      · subst heq
        by_cases happ : (assignHypernodeToPartition (create hypergraph config stat)
            c.1 c.2).1 = true
        · exact Or.inr (Or.inr
            (first_applied_pins hypergraph config stat wf hc hun hnn hf c.1 c.2 htc happ))
        · have hfalse : (assignHypernodeToPartition (create hypergraph config stat)
              c.1 c.2).1 = false := by simpa using happ
          rw [assign_false_eq _ _ _ hfalse]
          exact Or.inl ⟨rfl, hf⟩
      · obtain ⟨hst', hh, _, _⟩ := assign_stuck s1 c.1 c.2 hnn1.2 hst
        exact Or.inr (Or.inl ⟨hst', hh.trans hnil⟩)
      · exact Or.inr (Or.inr (assign_pinned s1 c.1 c.2 htc hinv hnn1 hpin)))
  exact hall.2.2

theorem poppedRecords_snoc_all (best : Nat) (R : List node_assignment) (rm : node_assignment)
    (hR : ∀ r ∈ R, r.hn ≠ best) : poppedRecords best (R ++ [rm]) = R ++ [rm] := by
  induction R with
  | nil =>
    simp only [List.nil_append, poppedRecords]
    split_ifs <;> rfl
  | cons r rest ih =>
    rw [List.cons_append, poppedRecords, if_neg (hR r (List.mem_cons_self _ _)),
      ih (fun x hx => hR x (List.mem_cons_of_mem _ hx))]

theorem assignAll_history_grows (calls : List (Nat × Int)) (s : InitialPartitionerBase) :
    ∃ top, (assignAll s calls).bisection_assignment_history =
      top ++ s.bisection_assignment_history := by
  induction calls generalizing s with
  | nil => exact ⟨[], rfl⟩
  | cons c rest ih =>
    rw [assignAll_cons]
    obtain ⟨top, htop⟩ := ih (assignHypernodeToPartition s c.1 c.2).2
    rcases assign_marker_cases s c.1 c.2 with ⟨hh, _, _⟩ | ⟨hh, _, _⟩
    · exact ⟨top ++ [{ hn := c.1, from_part := s._hg.partID c.1, to_part := c.2 }],
        by rw [htop, hh]; simp⟩
    · exact ⟨top, by rw [htop, hh]⟩

/-! ## The balance bounds -/

namespace Double

end Double

theorem wrapInt32_of_range (x : Int) (h0 : -2147483648 ≤ x) (h1 : x ≤ 2147483647) :
    wrapInt32 x = x := by
  unfold wrapInt32
  omega

/-- One iteration of the 32-bit tracker started at the reduced value yields the reduced value
of the unbounded one. -/
theorem cutAfterEdge32_wrap (hg : Hypergraph) (a b : Int) (c : Int) (he : Nat) :
    cutAfterEdge32 hg a b (wrapInt32 c) he = wrapInt32 (cutAfterEdge hg a b c he) := by
  have h1 : ∀ x w : Int, wrapInt32 (wrapInt32 x - w) = wrapInt32 (x - w) := by
    intro x w; unfold wrapInt32; omega
  have h2 : ∀ x w : Int, wrapInt32 (wrapInt32 x + w) = wrapInt32 (x + w) := by
    intro x w; unfold wrapInt32; omega
  simp only [cutAfterEdge32, cutAfterEdge]
  split_ifs <;> simp only [h1, h2]

theorem foldl_cutAfterEdge32 (hg : Hypergraph) (a b : Int) (L : List Nat) (c : Int) :
    L.foldl (cutAfterEdge32 hg a b) (wrapInt32 c) =
      wrapInt32 (L.foldl (cutAfterEdge hg a b) c) := by
  induction L generalizing c with
  | nil => rfl
  | cons x xs ih => rw [List.foldl_cons, List.foldl_cons, cutAfterEdge32_wrap, ih]

/-- The tracker in 32-bit arithmetic agrees with the unbounded one when the running cut before
and after the call is in the range of the type. -/
theorem calc32_eq (s : InitialPartitionerBase) (hn : Nat) (a b : Int)
    (h0 : wrapInt32 s.current_cut = s.current_cut)
    (h1 : wrapInt32 (calculateBisectionCutAfterAssignment s hn a b).current_cut =
      (calculateBisectionCutAfterAssignment s hn a b).current_cut) :
    calculateBisectionCutAfterAssignment32 s hn a b =
      calculateBisectionCutAfterAssignment s hn a b := by
  rw [calc_current_cut] at h1
  have hfold : (s._hg.incidentEdges hn).foldl (cutAfterEdge32 s._hg a b) s.current_cut =
      (s._hg.incidentEdges hn).foldl (cutAfterEdge s._hg a b) s.current_cut := by
    conv_lhs => rw [← h0]
    rw [foldl_cutAfterEdge32, h1]
  unfold calculateBisectionCutAfterAssignment32 calculateBisectionCutAfterAssignment
  simp only [hfold]

theorem totalEdgeWeight_eq (hg1 hg2 : Hypergraph) (h1 : hg1.edgePins = hg2.edgePins)
    (h2 : hg1.edgeWeight = hg2.edgeWeight) : totalEdgeWeight hg1 = totalEdgeWeight hg2 := by
  unfold totalEdgeWeight Hypergraph.edges
  rw [h1, h2]

theorem hyperedgeCut_le_total (hg : Hypergraph)
    (hew : ∀ he, he < hg.edgePins.length → 0 ≤ hg.edgeWeight he) :
    hyperedgeCut hg ≤ totalEdgeWeight hg := by
  rw [hyperedgeCut_eq]
  unfold totalEdgeWeight
  apply List.sum_le_sum
  intro he hmem
  have hlt : he < hg.edgePins.length := List.mem_range.mp hmem
  unfold cutWeight
  split_ifs
  · exact le_refl _
  · exact hew he hlt

/-- The running cut of a state in step with its hypergraph lies in the range of the 32-bit type
when the hyperedge weights are non-negative and their sum fits the type. -/
theorem cut_in_range (s : InitialPartitionerBase) (hinv : CutInv s)
    (hew : ∀ he, he < s._hg.edgePins.length → 0 ≤ s._hg.edgeWeight he)
    (hsum : totalEdgeWeight s._hg ≤ maxHyperedgeWeight) :
    0 ≤ s.current_cut ∧ s.current_cut ≤ maxHyperedgeWeight := by
  rw [hinv.2.2]
  exact ⟨hyperedgeCut_nonneg _ hew, (hyperedgeCut_le_total _ hew).trans hsum⟩

/-- A call of the controller over the 32-bit tracker is the call over the unbounded one, under
the conditions of `cut_in_range`. -/
theorem assign32_eq (s : InitialPartitionerBase) (hn : Nat) (t : Int) (ht : t ≠ -1)
    (hinv : CutInv s)
    (hew : ∀ he, he < s._hg.edgePins.length → 0 ≤ s._hg.edgeWeight he)
    (hsum : totalEdgeWeight s._hg ≤ maxHyperedgeWeight) :
    assignHypernodeToPartition32 s hn t = assignHypernodeToPartition s hn t := by
  have hr0 := cut_in_range s hinv hew hsum
  have hmax : maxHyperedgeWeight = 2147483647 := rfl
  have h0 : wrapInt32 s.current_cut = s.current_cut :=
    wrapInt32_of_range _ (by omega) (by omega)
  have key : ∀ (hab : s._hg.partID hn ≠ t),
      calculateBisectionCutAfterAssignment32
          { s with _hg := s._hg.changeNodePart hn (s._hg.partID hn) t } hn (s._hg.partID hn) t =
        calculateBisectionCutAfterAssignment
          { s with _hg := s._hg.changeNodePart hn (s._hg.partID hn) t }
          hn (s._hg.partID hn) t := by
    intro hab
    have hinv' := calc_cutInv s hn t hinv hab ht
    have hr := cut_in_range _ hinv'
      (by rw [calc_hg]; exact hew)
      (by rw [calc_hg]; exact hsum)
    exact calc32_eq _ hn _ t h0 (wrapInt32_of_range _ (by omega) (by omega))
  by_cases hg : assignGuard s hn t
  · by_cases h1 : s._hg.partID hn = -1
    · have hab : s._hg.partID hn ≠ t := fun e => ht (e ▸ h1)
      have hk := key hab
      rw [h1] at hk
      rw [assign_unassigned s hn t hg h1]
      unfold assignGuard at hg
      simp only [assignHypernodeToPartition32, hg, h1, and_self, if_true]
      exact congrArg (Prod.mk true) hk
    · by_cases h2 : s._hg.partID hn = t
      · rw [assign_rejected_same s hn t h1 h2]
        subst h2
        simp [assignHypernodeToPartition32, h1]
      · rw [assign_moved s hn t hg h1 h2]
        unfold assignGuard at hg
        simp only [assignHypernodeToPartition32, hg, h1, h2, and_self, if_true, if_false, ne_eq,
          not_false_eq_true]
        exact congrArg (Prod.mk true) (key h2)
  · rw [assign_rejected_guard s hn t hg]
    unfold assignGuard at hg
    simp only [assignHypernodeToPartition32, hg, if_false]

theorem assign_totalEdgeWeight (s : InitialPartitionerBase) (hn : Nat) (t : Int) :
    totalEdgeWeight (assignHypernodeToPartition s hn t).2._hg = totalEdgeWeight s._hg :=
  totalEdgeWeight_eq _ _ (assign_edgePins s hn t) (assign_edgeWeight s hn t)

/-- Along every sequence of calls the engine over the 32-bit tracker is the engine over the
unbounded one, and the running cut stays in the range of the type. -/
theorem assignAll32_eq (calls : List (Nat × Int)) (s : InitialPartitionerBase)
    (ht : ∀ c ∈ calls, c.2 ≠ -1) (hinv : CutInv s)
    (hew : ∀ he, he < s._hg.edgePins.length → 0 ≤ s._hg.edgeWeight he)
    (hsum : totalEdgeWeight s._hg ≤ maxHyperedgeWeight) :
    assignAll32 s calls = assignAll s calls ∧
    0 ≤ (assignAll s calls).current_cut ∧
    (assignAll s calls).current_cut ≤ maxHyperedgeWeight := by
  induction calls generalizing s with
  | nil => exact ⟨rfl, cut_in_range s hinv hew hsum⟩
  | cons c rest ih =>
    have hc := ht c (List.mem_cons_self _ _)
    have hstep := assign32_eq s c.1 c.2 hc hinv hew hsum
    have ih' := ih (assignHypernodeToPartition s c.1 c.2).2
      (fun x hx => ht x (List.mem_cons_of_mem _ hx))
      (assign_cutInv s c.1 c.2 hc hinv)
      (by rw [assign_edgePins, assign_edgeWeight]; exact hew)
      (by rw [assign_totalEdgeWeight]; exact hsum)
    rw [assignAll_cons]
    refine ⟨?_, ih'.2⟩
    show assignAll32 (assignHypernodeToPartition32 s c.1 c.2).2 rest = _
    rw [hstep]
    exact ih'.1

/-- Claim C18, as amended (the marker is pinned to the first recorded assignment).  Start from
a fresh engine on a well-formed, consistent hypergraph with all nodes unassigned, non-negative
node weights, and non-negative hyperedge weights whose sum is at most the largest value of
`HyperedgeWeight`.  Then the engine whose running cut is held in 32 bits is, after every
sequence of calls with real target parts, the engine with the unbounded running cut, and the
running cut stays between 0 and the largest value of the type.  After any such sequence that
recorded at least one assignment, `best_cut` is 0 and `best_cut_node` is the node of the first
recorded assignment, the bottom record of the history; further calls never move the marker;
and if the sequence is an assign-once sequence (a notion stated over the unbounded engine,
which is the same engine here) and rollback is enabled, the rollback leaves exactly the node
of the first call assigned. -/
theorem best_cut_marker_pinned_to_first_record (hypergraph : Hypergraph)
    (config : Configuration) (stat : Int)
    (wf : hypergraph.WellFormed) (hc : hypergraph.Consistent) (hun : hypergraph.Unassigned)
    (hew : ∀ he, he < hypergraph.edgePins.length → 0 ≤ hypergraph.edgeWeight he)
    (hsum : totalEdgeWeight hypergraph ≤ maxHyperedgeWeight)
    (hnw : ∀ v, v < hypergraph.numNodes → 0 ≤ hypergraph.nodeWeight v)
    (calls : List (Nat × Int)) (ht : ∀ c ∈ calls, c.2 ≠ -1)
    (hrec : (assignAll32 (create hypergraph config stat) calls).bisection_assignment_history
      ≠ []) :
    (∀ cs : List (Nat × Int), (∀ c ∈ cs, c.2 ≠ -1) →
      assignAll32 (create hypergraph config stat) cs =
        assignAll (create hypergraph config stat) cs ∧
      0 ≤ (assignAll32 (create hypergraph config stat) cs).current_cut ∧
      (assignAll32 (create hypergraph config stat) cs).current_cut ≤ maxHyperedgeWeight) ∧
    (assignAll32 (create hypergraph config stat) calls).best_cut = 0 ∧
    (∃ r, (assignAll32 (create hypergraph config stat) calls).bisection_assignment_history.getLast?
        = some r ∧
      (assignAll32 (create hypergraph config stat) calls).best_cut_node = r.hn) ∧
    (∀ more : List (Nat × Int), (∀ c ∈ more, c.2 ≠ -1) →
      (assignAll32 (create hypergraph config stat) (calls ++ more)).best_cut = 0 ∧
      (assignAll32 (create hypergraph config stat) (calls ++ more)).best_cut_node =
        (assignAll32 (create hypergraph config stat) calls).best_cut_node) ∧
    (config.rollback = true → AssignOnce (create hypergraph config stat) calls →
      ∃ m rest, calls = m :: rest ∧
        (assignAll32 (create hypergraph config stat) calls).best_cut_node = m.1 ∧
        (rollbackToBestBisectionCut (assignAll32 (create hypergraph config stat) calls))._hg =
          (assignAll32 (create hypergraph config stat) [m])._hg ∧
        (rollbackToBestBisectionCut
          (assignAll32 (create hypergraph config stat) calls))._hg.partID m.1 = m.2 ∧
        ∀ v, v < hypergraph.numNodes → v ≠ m.1 →
          (rollbackToBestBisectionCut
            (assignAll32 (create hypergraph config stat) calls))._hg.partID v = -1) := by
  have agree : ∀ cs : List (Nat × Int), (∀ c ∈ cs, c.2 ≠ -1) →
      assignAll32 (create hypergraph config stat) cs =
        assignAll (create hypergraph config stat) cs ∧
      0 ≤ (assignAll (create hypergraph config stat) cs).current_cut ∧
      (assignAll (create hypergraph config stat) cs).current_cut ≤ maxHyperedgeWeight :=
    fun cs hcs => assignAll32_eq cs _ hcs (create_cutInv hypergraph config stat wf hc hun)
      hew hsum
  have hrec1 : (assignAll (create hypergraph config stat) calls).bisection_assignment_history
      ≠ [] := by
    rw [← (agree calls ht).1]; exact hrec
  have unbounded :
        (assignAll (create hypergraph config stat) calls).best_cut = 0 ∧
        (∃ r,
          (assignAll (create hypergraph config stat) calls).bisection_assignment_history.getLast?
            = some r ∧
          (assignAll (create hypergraph config stat) calls).best_cut_node = r.hn) ∧
        (∀ more : List (Nat × Int), (∀ c ∈ more, c.2 ≠ -1) →
          (assignAll (create hypergraph config stat) (calls ++ more)).best_cut = 0 ∧
          (assignAll (create hypergraph config stat) (calls ++ more)).best_cut_node =
            (assignAll (create hypergraph config stat) calls).best_cut_node) ∧
        (config.rollback = true → AssignOnce (create hypergraph config stat) calls →
          ∃ m rest, calls = m :: rest ∧
            (assignAll (create hypergraph config stat) calls).best_cut_node = m.1 ∧
            (rollbackToBestBisectionCut (assignAll (create hypergraph config stat) calls))._hg =
              (assignAll (create hypergraph config stat) [m])._hg ∧
            (rollbackToBestBisectionCut
              (assignAll (create hypergraph config stat) calls))._hg.partID m.1 = m.2 ∧
            ∀ v, v < hypergraph.numNodes → v ≠ m.1 →
              (rollbackToBestBisectionCut
                (assignAll (create hypergraph config stat) calls))._hg.partID v = -1) := by
    have hnn : NonNegWeights (create hypergraph config stat) := ⟨hew, hnw⟩
    have hun0 : (create hypergraph config stat)._hg.Unassigned := hun
    have pinned_of : ∀ cs : List (Nat × Int), (∀ c ∈ cs, c.2 ≠ -1) →
        (assignAll (create hypergraph config stat) cs).bisection_assignment_history ≠ [] →
        Pinned (assignAll (create hypergraph config stat) cs) := by
      intro cs hcs hne
      rcases assignAll_phase hypergraph config stat wf hc hun hnn cs hcs with
        ⟨heq, _⟩ | ⟨_, hnil⟩ | hpin
      · rw [heq] at hne
        exact absurd rfl hne
      · exact absurd hnil hne
      · exact hpin
    obtain ⟨hb, r, hlast, hnode⟩ := pinned_of calls ht hrec1
    refine ⟨hb, ⟨r, hlast, hnode⟩, ?_, ?_⟩
    · intro more hmore
      obtain ⟨top, htop⟩ := assignAll_history_grows more
        (assignAll (create hypergraph config stat) calls)
      rw [← assignAll_append] at htop
      have hne : (assignAll (create hypergraph config stat)
          (calls ++ more)).bisection_assignment_history ≠ [] := by
        rw [htop]
        intro h
        exact hrec1 (List.append_eq_nil.mp h).2
      obtain ⟨hb2, r2, hlast2, hnode2⟩ := pinned_of (calls ++ more)
        (fun c hc1 => by
          rcases List.mem_append.mp hc1 with h | h
          · exact ht c h
          · exact hmore c h) hne
      refine ⟨hb2, ?_⟩
      rw [htop, List.getLast?_append_of_ne_nil _ hrec1, hlast] at hlast2
      rw [hnode2, hnode]
      exact congrArg node_assignment.hn (Option.some.inj hlast2).symm
    · intro hrb hAO
      have hhist := assignOnce_history _ hun0 calls hAO
      cases hcalls : calls with
      | nil =>
        rw [hcalls] at hrec1
        exact absurd rfl hrec1
      | cons m rest =>
        subst hcalls
        have hhist' : (assignAll (create hypergraph config stat)
            (m :: rest)).bisection_assignment_history =
              (rest.map recordOf).reverse ++ [recordOf m] := by
          rw [hhist]
          simp [create]
        have hm : (assignAll (create hypergraph config stat) (m :: rest)).best_cut_node = m.1 := by
          rw [hhist', List.getLast?_append_of_ne_nil _ (by simp)] at hlast
          rw [hnode]
          have : recordOf m = r := by simpa using hlast
          rw [← this]
          rfl
        have hlts := assignOnce_lt _ hun0 (m :: rest) hAO
        have hnum : hypergraph.numNodes ≤ maxHypernodeID := wf.1
        have hnd := hAO.1
        rw [List.map_cons, List.nodup_cons] at hnd
        have hR : ∀ x ∈ (rest.map recordOf).reverse, x.hn ≠ m.1 := by
          intro x hx
          rw [List.mem_reverse, List.mem_map] at hx
          obtain ⟨c, hcmem, rfl⟩ := hx
          show c.1 ≠ m.1
          intro heq
          exact hnd.1 (heq ▸ List.mem_map_of_mem Prod.fst hcmem)
        have hvalid : ∀ x ∈ (assignAll (create hypergraph config stat)
            (m :: rest)).bisection_assignment_history, x.hn ≠ maxHypernodeID := by
          intro x hx
          have hx2 : x ∈ ((m :: rest).map recordOf).reverse := by
            rw [hhist] at hx
            simpa [create] using hx
          have hx := hx2
          rw [List.mem_reverse, List.mem_map] at hx
          obtain ⟨c, hcmem, rfl⟩ := hx
          have := hlts c hcmem
          show c.1 ≠ maxHypernodeID
          have h2 : c.1 < hypergraph.numNodes := this
          omega
        have hbest : (assignAll (create hypergraph config stat) (m :: rest)).best_cut_node
            ≠ maxHypernodeID := by
          rw [hm]
          have h2 : m.1 < hypergraph.numNodes := hlts m (List.mem_cons_self _ _)
          omega
        have hres := rollback_hg_history (assignAll (create hypergraph config stat) (m :: rest))
        have hflag : (assignAll (create hypergraph config stat) (m :: rest))._config.rollback
            = true := by
          rw [assignAll_config]; exact hrb
        rw [if_pos hflag, rollbackLoop_popped _ _ _ hbest hvalid, hhist', hm,
          poppedRecords_snoc_all _ _ _ hR, List.dropLast_concat] at hres
        have hundo := assignOnce_undo _ hun0 [m] rest hAO
        have hhg : (rollbackToBestBisectionCut
            (assignAll (create hypergraph config stat) (m :: rest)))._hg =
              (assignAll (create hypergraph config stat) [m])._hg := by
          have h1 := congrArg Prod.fst hres
          exact h1.trans hundo
        have hAOm : AssignOnce (create hypergraph config stat) [m] :=
          assignOnce_of_append _ [m] rest hAO
        refine ⟨m, rest, rfl, hm, hhg, ?_, ?_⟩
        · rw [hhg]
          exact assignOnce_partID _ hun0 [m] hAOm m (List.mem_cons_self _ _)
        · intro v hv hvm
          rw [hhg, assignAll_partID_other [m] _ v (by simpa using hvm)]
          exact hun v hv
  obtain ⟨u1, u2, u3, u4⟩ := unbounded
  refine ⟨fun cs hcs => ⟨(agree cs hcs).1, ?_⟩, ?_, ?_, ?_, ?_⟩
  · rw [(agree cs hcs).1]; exact (agree cs hcs).2
  · rw [(agree calls ht).1]; exact u1
  · rw [(agree calls ht).1]; exact u2
  · intro more hmore
    have hall : ∀ c ∈ calls ++ more, c.2 ≠ -1 := fun c hc1 =>
      (List.mem_append.mp hc1).elim (ht c) (hmore c)
    rw [(agree _ hall).1, (agree calls ht).1]
    exact u3 more hmore
  · intro hrb hAO
    obtain ⟨m, rest, hcalls, h1, h2, h3, h4⟩ := u4 hrb hAO
    have hm : ∀ c ∈ [m], c.2 ≠ -1 := fun c hc1 =>
      ht c (by rw [hcalls]; rw [List.mem_singleton] at hc1; rw [hc1]; exact List.mem_cons_self _ _)
    refine ⟨m, rest, hcalls, ?_, ?_, ?_, ?_⟩
    · rw [(agree calls ht).1]; exact h1
    · rw [(agree calls ht).1, (agree [m] hm).1]; exact h2
    · rw [(agree calls ht).1]; exact h3
    · rw [(agree calls ht).1]; exact h4

/-- The amended pinned-marker theorem applied to the scenario, whose hyperedge weights sum to
1: the marker is `(0, node 0)`. -/
theorem best_cut_marker_pinned_to_first_record_witness :
    scenarioHypergraph.WellFormed ∧ scenarioHypergraph.Consistent ∧
    scenarioHypergraph.Unassigned ∧
    (∀ he, he < scenarioHypergraph.edgePins.length → 0 ≤ scenarioHypergraph.edgeWeight he) ∧
    totalEdgeWeight scenarioHypergraph ≤ maxHyperedgeWeight ∧
    (∀ v, v < scenarioHypergraph.numNodes → 0 ≤ scenarioHypergraph.nodeWeight v) ∧
    (∀ c ∈ scenarioCalls, c.2 ≠ -1) ∧
    (assignAll32 (create scenarioHypergraph scenarioConfig 0)
      scenarioCalls).bisection_assignment_history ≠ [] ∧
    (assignAll32 (create scenarioHypergraph scenarioConfig 0) scenarioCalls).best_cut = 0 ∧
    (assignAll32 (create scenarioHypergraph scenarioConfig 0) scenarioCalls).best_cut_node = 0 :=
  ⟨scenario_wellFormed, unpartitioned_consistent _ _ _ _, unpartitioned_unassigned _ _ _ _,
    by decide, by decide, by decide, by decide, by decide,
    (best_cut_marker_pinned_to_first_record scenarioHypergraph scenarioConfig 0
      scenario_wellFormed (unpartitioned_consistent _ _ _ _) (unpartitioned_unassigned _ _ _ _)
      (by decide) (by decide) (by decide) scenarioCalls (by decide) (by decide)).2.1,
    by decide⟩

/-- Claim C18 as stated fails in two ways.  On `overflowHypergraph`, whose two hyperedges of
weight `2^30` are non-negative, the call that puts node 0 into part 0 is the first recorded
assignment, at cut 0; the call that puts node 1 into part 1 cuts both hyperedges, the running
cut `2^30 + 2^30` leaves the range of the 32-bit `HyperedgeWeight` and is held as `-2^31`, which
is below `best_cut = 0`: the marker moves to `(-2^31, node 1)`.  On `negativeWeightHypergraph`,
whose node weights are negative, the fresh engine is infeasible (both parts weigh 0, their
bound is `-1`): the call that puts node 0 into part 0 is applied without a record, and the call
that puts node 1 into part 1 makes the state feasible and is the first recorded assignment, at
tracked cut 1, so that `best_cut` is 1, not 0. -/
theorem best_cut_marker_pinned_counterexample :
    (overflowHypergraph.WellFormed ∧ overflowHypergraph.Consistent ∧
      overflowHypergraph.Unassigned ∧
      (∀ he, he < overflowHypergraph.edgePins.length → 0 ≤ overflowHypergraph.edgeWeight he) ∧
      (∀ v, v < overflowHypergraph.numNodes → 0 ≤ overflowHypergraph.nodeWeight v) ∧
      totalEdgeWeight overflowHypergraph = 2147483648 ∧
      overflowEngine.best_cut = maxHyperedgeWeight ∧ overflowEngine.current_cut = 0 ∧
      (assignAll32 overflowEngine [(0, 0)]).bisection_assignment_history =
        [{ hn := 0, from_part := -1, to_part := 0 }] ∧
      (assignAll32 overflowEngine [(0, 0)]).best_cut = 0 ∧
      (assignAll32 overflowEngine [(0, 0)]).best_cut_node = 0 ∧
      (assignAll32 overflowEngine [(0, 0), (1, 1)]).bisection_assignment_history =
        [{ hn := 1, from_part := -1, to_part := 1 }, { hn := 0, from_part := -1, to_part := 0 }] ∧
      (assignAll overflowEngine [(0, 0), (1, 1)]).current_cut = 2147483648 ∧
      (assignAll32 overflowEngine [(0, 0), (1, 1)]).current_cut = -2147483648 ∧
      (assignAll32 overflowEngine [(0, 0), (1, 1)]).best_cut = -2147483648 ∧
      (assignAll32 overflowEngine [(0, 0), (1, 1)]).best_cut_node = 1 ∧
      ¬ ((assignAll32 overflowEngine [(0, 0), (1, 1)]).best_cut = 0)) ∧
    (negativeWeightHypergraph.Consistent ∧ negativeWeightHypergraph.Unassigned ∧
      (∀ he, he < negativeWeightHypergraph.edgePins.length →
        0 ≤ negativeWeightHypergraph.edgeWeight he) ∧
      totalEdgeWeight negativeWeightHypergraph ≤ maxHyperedgeWeight ∧
      negativeWeightEngine.best_cut = maxHyperedgeWeight ∧
      negativeWeightEngine.current_cut = 0 ∧
      (assignHypernodeToPartition32 negativeWeightEngine 0 0).1 = true ∧
      (assignAll32 negativeWeightEngine [(0, 0)]).bisection_assignment_history = [] ∧
      (assignHypernodeToPartition32 (assignAll32 negativeWeightEngine [(0, 0)]) 1 1).1 = true ∧
      (assignAll32 negativeWeightEngine [(0, 0), (1, 1)]).bisection_assignment_history =
        [{ hn := 1, from_part := -1, to_part := 1 }] ∧
      (assignAll32 negativeWeightEngine [(0, 0), (1, 1)]).best_cut = 1 ∧
      (assignAll32 negativeWeightEngine [(0, 0), (1, 1)]).best_cut_node = 1 ∧
      ¬ ((assignAll32 negativeWeightEngine [(0, 0), (1, 1)]).best_cut = 0)) :=
  ⟨⟨by unfold Hypergraph.WellFormed; decide,
    unpartitioned_consistent _ _ _ _, unpartitioned_unassigned _ _ _ _,
    by decide, by decide, by decide, by decide, by decide, by decide, by decide, by decide,
    by decide, by decide, by decide, by decide, by decide, by decide⟩,
   ⟨unpartitioned_consistent _ _ _ _, unpartitioned_unassigned _ _ _ _, by decide, by decide,
    by decide, by decide, by decide, by decide, by decide, by decide, by decide, by decide,
    by decide⟩⟩

end Kahypar
